import Mathlib

/-!
# dependency_inspector: lock-file parsers and mismatch detection

A shallow embedding of the Go package `dependencies` (registry.go, remote.go,
gemfile.go, yarn.go) and of the library functions it calls.

Conventions of the embedding.

* A Go `string` is modelled by `Str`, a list of Unicode code points (the text
  is taken to be valid UTF-8, which is what every library function used here
  decodes).
* A Go `map[string]V` is modelled by `GoMap V`, a list of key/value entries;
  a well-formed map has pairwise distinct keys (`GoMap.WF`).  The nil map of a
  zero-valued struct is `none` in a field of type `Option (GoMap V)`.
* The order in which a `range` statement visits a map is unspecified in Go and
  may change from one loop to the next.  It is an explicit argument
  (`RangeOrder`): the n-th `range` loop visits the entries rearranged by
  `rng n`.
* A run-time panic (index out of range, assignment to an entry of a nil map)
  is the result `none`.
* A parser is run on the sequence of lines that `scanner.Scan()` yields;
  `scanLines` computes that sequence from the lines of a text, with the
  default token limit of `bufio.Scanner`.
-/

namespace DependencyInspector

/-- Go strings, as sequences of code points. -/
abbrev Str := List Char

/-! ## Go maps -/

/-- A Go map with string keys, as the list of its entries. -/
structure GoMap (V : Type) where
  entries : List (Str × V)
deriving DecidableEq, Repr

namespace GoMap

variable {V : Type}

/-- The result of `make(map[string]V)`. -/
def empty : GoMap V := ⟨[]⟩

/-- The keys of the map, in entry order. -/
def keys (m : GoMap V) : List Str := m.entries.map Prod.fst

/-- Well-formed maps hold each key once. -/
def WF (m : GoMap V) : Prop := m.keys.Nodup

instance (m : GoMap V) : Decidable m.WF := inferInstanceAs (Decidable m.keys.Nodup)

/-- Lookup in an entry list, the first entry with the key. -/
def lookupEntries : List (Str × V) → Str → Option V
  | [], _ => none
  | (k', v) :: rest, k => if k' = k then some v else lookupEntries rest k

/-- The Go expression `v, ok := m[k]`: `some v` when `ok`. -/
def lookup (m : GoMap V) (k : Str) : Option V := lookupEntries m.entries k

/-- Store in an entry list: replace the entry of the key, or add one. -/
def storeEntries : List (Str × V) → Str → V → List (Str × V)
  | [], k, v => [(k, v)]
  | (k', v') :: rest, k, v =>
    if k' = k then (k, v) :: rest else (k', v') :: storeEntries rest k v

/-- The Go statement `m[k] = v`. -/
def store (m : GoMap V) (k : Str) (v : V) : GoMap V := ⟨storeEntries m.entries k v⟩

end GoMap

/-- The order in which the n-th `range` loop over a map visits its entries. -/
abbrev RangeOrder (V : Type) := Nat → List (Str × V) → List (Str × V)

/-- A range order is admissible when every loop visits each entry exactly once. -/
def RangeOrder.Admissible {V : Type} (rng : RangeOrder V) : Prop :=
  ∀ n l, (rng n l).Perm l

/-! ## The Go library functions the parsers call -/

/-- Go `unicode.IsSpace`: the Unicode White_Space property, which `strings.Fields`
and `strings.TrimSpace` use. -/
def unicode_IsSpace (r : Char) : Bool :=
  let n := r.toNat
  n == 0x09 || n == 0x0A || n == 0x0B || n == 0x0C || n == 0x0D || n == 0x20 ||
  n == 0x85 || n == 0xA0 || n == 0x1680 || (0x2000 ≤ n && n ≤ 0x200A) ||
  n == 0x2028 || n == 0x2029 || n == 0x202F || n == 0x205F || n == 0x3000

/-- The class `\s` of Go's `regexp` (RE2 syntax): tab, newline, form feed,
carriage return and space, and nothing else. -/
def perlSpace (r : Char) : Bool :=
  let n := r.toNat
  n == 0x09 || n == 0x0A || n == 0x0C || n == 0x0D || n == 0x20

/-- Go `strings.HasPrefix(s, p)`. -/
def HasPrefix (s p : Str) : Bool := p.isPrefixOf s

/-- Go `strings.HasSuffix(s, suffix)`. -/
def HasSuffix (s suffix : Str) : Bool := suffix.isSuffixOf s

/-- Go `strings.TrimPrefix(s, p)`. -/
def TrimPrefix (s p : Str) : Str := if HasPrefix s p then s.drop p.length else s

/-- Go `strings.TrimSpace(s)`: leading and trailing white space removed. -/
def TrimSpace (s : Str) : Str :=
  ((s.dropWhile unicode_IsSpace).reverse.dropWhile unicode_IsSpace).reverse

/-- The scanning loop of `strings.Fields`: `cur` is the field being read
(empty when the scan is between fields). -/
def fieldsLoop : Str → Str → List Str
  | [], cur => if cur = [] then [] else [cur]
  | c :: cs, cur =>
    if unicode_IsSpace c then
      (if cur = [] then fieldsLoop cs [] else cur :: fieldsLoop cs [])
    else fieldsLoop cs (cur ++ [c])

/-- Go `strings.Fields(s)`: the maximal runs of non-space code points. -/
def Fields (s : Str) : List Str := fieldsLoop s []

/-- The split of `s` around the first occurrence of `sep` (at `strings.Index(s, sep)`):
the text before it and the text after it; `none` when `sep` does not occur. -/
def cutAtFirst (sep : Str) : Str → Option (Str × Str)
  | [] => if sep = [] then some ([], []) else none
  | c :: cs =>
    if sep.isPrefixOf (c :: cs) then some ([], (c :: cs).drop sep.length)
    else (cutAtFirst sep cs).map (fun p => (c :: p.1, p.2))

/-- Go `strings.Contains(s, substr)`, that is `strings.Index(s, substr) >= 0`. -/
def Contains (s substr : Str) : Bool := (cutAtFirst substr s).isSome

/-- The helper `explode` of package strings (the case of an empty separator):
at most `n` pieces, one code point each but the last. -/
def explode : Str → Nat → List Str
  | [], _ => []
  | _ :: _, 0 => []
  | c :: cs, n + 1 => if cs = [] ∨ n = 0 then [c :: cs] else [c] :: explode cs n

/-- The loop of `genSplit` for a non-empty separator: cut at most `k` times. -/
def splitLoop (sep : Str) : Nat → Str → List Str
  | 0, s => [s]
  | k + 1, s =>
    match cutAtFirst sep s with
    | none => [s]
    | some (a, b) => a :: splitLoop sep k b

/-- Go `strings.SplitN(s, sep, n)` for `n ≥ 0` (the repository only passes 2). -/
def SplitN (s sep : Str) (n : Nat) : List Str :=
  match n with
  | 0 => []
  | k + 1 => if sep = [] then explode s (k + 1) else splitLoop sep k s

/-- Go `unicode.ToLower`: ASCII letters are lowered by the code, every other code
point by the Unicode case tables of the Go library, here the parameter `table`. -/
def unicode_ToLower (table : Char → Char) (r : Char) : Char :=
  if r.toNat ≤ 0x7F then
    (if 0x41 ≤ r.toNat ∧ r.toNat ≤ 0x5A then Char.ofNat (r.toNat + 0x20) else r)
  else table r

/-- Go `strings.ToLower(s)`: `unicode.ToLower` mapped over the code points. -/
def ToLower (table : Char → Char) (s : Str) : Str := s.map (unicode_ToLower table)

/-- Go `maps.Keys(m)` of golang.org/x/exp/maps: the keys in visiting order. -/
def maps_Keys {V : Type} (visit : List (Str × V)) : List Str := visit.map Prod.fst

/-- Go `bufio.MaxScanTokenSize`, the token limit of a scanner built by `bufio.NewScanner`. -/
def MaxScanTokenSize : Nat := 64 * 1024

/-- The length of a string in bytes, Go `len(s)`: the size of its UTF-8 encoding. -/
def byteLen (s : Str) : Nat := (s.map Char.utf8Size).sum

/-- The helper `dropCR` of package bufio: one trailing carriage return removed. -/
def dropCR (data : Str) : Str :=
  if data.getLast? = some (Char.ofNat 0x0D) then data.dropLast else data

/-- The tokens that `scanner.Scan()` yields with the split function
`bufio.ScanLines`, for a text given as the list of its lines, each without
its line feed.  A line is yielded without its trailing carriage return; at the
first line of `MaxScanTokenSize` bytes or more the buffer is full before a line
feed is seen, `Scan` fails with `ErrTooLong` and yields nothing further.  The
reader is taken to report the end of the file in a read of its own, as the
`os.File` of `main.go` does; this matters only for a last line of exactly
`MaxScanTokenSize` bytes that has no line feed. -/
def scanLines (text : List Str) : List Str :=
  (text.takeWhile (fun l => decide (byteLen l < MaxScanTokenSize))).map dropCR

/-! ## remote.go -/

/-- The struct `Dependency`. -/
structure Dependency where
  Name : Str
deriving DecidableEq, Repr

/-- The struct `Remote`; `Dependencies = none` is the nil map. -/
structure Remote where
  Url : Str
  Dependencies : Option (GoMap Dependency)
deriving DecidableEq, Repr

/-- The zero value of `Remote`, which `m[k]` yields for a missing key. -/
def Remote.zero : Remote := ⟨[], none⟩

/-- Go `func (r *Remote) HasDependency(name string) bool`; reading a nil map finds nothing. -/
def Remote.HasDependency (r : Remote) (name : Str) : Bool :=
  match r.Dependencies with
  | none => false
  | some deps => (deps.lookup name).isSome

/-! ## The shared query of gemfile.go and yarn.go -/

/-- The struct `GemfileLock`. -/
structure GemfileLock where
  Remotes : GoMap Remote
deriving DecidableEq, Repr

/-- The struct `YarnLock`. -/
structure YarnLock where
  Remotes : GoMap Remote
deriving DecidableEq, Repr

/-- Go `NewGemfileLock`. -/
def NewGemfileLock : GemfileLock := ⟨GoMap.empty⟩

/-- Go `NewYarnLock`. -/
def NewYarnLock : YarnLock := ⟨GoMap.empty⟩

/-- The loop body of `GetRemotesUrlsWithDependencyMismatch` folded over the
entries in visiting order: skip a remote whose `Url` field is the registry
URL, otherwise append the map key when the remote has the dependency. -/
def mismatchLoop (registryUrl dependency : Str) (visit : List (Str × Remote)) : List Str :=
  visit.foldl
    (fun remotes e =>
      if registryUrl = e.2.Url then remotes
      else if e.2.HasDependency dependency then remotes ++ [e.1]
      else remotes)
    []

/-- Go `func (g *GemfileLock) GetRemotesUrlsWithDependencyMismatch`, its `range`
visiting the entries in the order `order`. -/
def GemfileLock.GetRemotesUrlsWithDependencyMismatch (g : GemfileLock)
    (order : List (Str × Remote) → List (Str × Remote))
    (registryUrl dependency : Str) : List Str :=
  mismatchLoop registryUrl dependency (order g.Remotes.entries)

/-- Go `func (g *YarnLock) GetRemotesUrlsWithDependencyMismatch`, its `range`
visiting the entries in the order `order`. -/
def YarnLock.GetRemotesUrlsWithDependencyMismatch (y : YarnLock)
    (order : List (Str × Remote) → List (Str × Remote))
    (registryUrl dependency : Str) : List Str :=
  mismatchLoop registryUrl dependency (order y.Remotes.entries)

/-- The interface `interfaces.LockFile`, with its two implementations. -/
inductive LockFile where
  | gemfile (g : GemfileLock)
  | yarn (y : YarnLock)
deriving DecidableEq, Repr

/-- The map held by a lock file. -/
def LockFile.Remotes : LockFile → GoMap Remote
  | .gemfile g => g.Remotes
  | .yarn y => y.Remotes

/-- Dynamic dispatch of the interface method. -/
def LockFile.GetRemotesUrlsWithDependencyMismatch (lockFile : LockFile)
    (order : List (Str × Remote) → List (Str × Remote))
    (registryUrl dependency : Str) : List Str :=
  match lockFile with
  | .gemfile g => g.GetRemotesUrlsWithDependencyMismatch order registryUrl dependency
  | .yarn y => y.GetRemotesUrlsWithDependencyMismatch order registryUrl dependency

/-! ## registry.go -/

/-- The struct `Registry`. -/
structure Registry where
  Url : Str
  Dependencies : List Str
deriving DecidableEq, Repr

/-- The inner loop of `GetDependencyMismatches`:
`incorrectDependencies[remoteUrl] = append(incorrectDependencies[remoteUrl], registryDependency)`
for each `remoteUrl`; a missing key reads as the nil slice. -/
def appendMismatches (registryDependency : Str) (remotesUrls : List Str)
    (incorrectDependencies : GoMap (List Str)) : GoMap (List Str) :=
  remotesUrls.foldl
    (fun acc remoteUrl =>
      acc.store remoteUrl (((acc.lookup remoteUrl).getD []) ++ [registryDependency]))
    incorrectDependencies

/-- The outer loop of `GetDependencyMismatches` over the registry's
dependencies still to process; `n` counts the calls made so far, each of which
runs one `range` loop over the lock file's map. -/
def mismatchesFrom (rng : RangeOrder Remote) (registryUrl : Str) (lockFile : LockFile) :
    Nat → List Str → GoMap (List Str) → GoMap (List Str)
  | _, [], acc => acc
  | n, registryDependency :: rest, acc =>
    let remotesUrls :=
      lockFile.GetRemotesUrlsWithDependencyMismatch (rng n) registryUrl registryDependency
    mismatchesFrom rng registryUrl lockFile (n + 1) rest
      (appendMismatches registryDependency remotesUrls acc)

/-- Go `func (registry *Registry) GetDependencyMismatches(lockFile interfaces.LockFile) map[string][]string`. -/
def Registry.GetDependencyMismatches (registry : Registry) (rng : RangeOrder Remote)
    (lockFile : LockFile) : GoMap (List Str) :=
  mismatchesFrom rng registry.Url lockFile 0 registry.Dependencies GoMap.empty

/-! ## gemfile.go -/

/-- The constant `GEMFILE_REMOTE_PREFIX`: two spaces for remote. -/
def GEMFILE_REMOTE_PREFIX : Str := "  remote:".toList

/-- The constant `GEMFILE_SPEC_PREFIX`: two spaces for spec. -/
def GEMFILE_SPEC_PREFIX : Str := "  specs:".toList

/-- Go `dependencyRegexp.MatchString(line)` for `GEMFILE_DEPENDENCY_REGEXP`, the
pattern `^\s{4}\S`: the line starts with four characters of class `\s` and a
fifth that is not of that class. -/
def dependencyRegexp_MatchString (line : Str) : Bool :=
  match line with
  | a :: b :: c :: d :: e :: _ =>
    perlSpace a && perlSpace b && perlSpace c && perlSpace d && !perlSpace e
  | _ => false

/-- Go `func (g *GemfileLock) addRemote(url string)`. -/
def GemfileLock.addRemote (g : GemfileLock) (url : Str) : GemfileLock :=
  ⟨g.Remotes.store url ⟨url, some GoMap.empty⟩⟩

/-- Go `func (g *GemfileLock) addDependency(remoteUrl, dependencyName string)`;
writing into the nil map of a missing remote panics. -/
def GemfileLock.addDependency (g : GemfileLock) (remoteUrl dependencyName : Str) :
    Option GemfileLock :=
  let remote := (g.Remotes.lookup remoteUrl).getD Remote.zero
  match remote.Dependencies with
  | none => none
  | some deps =>
    some ⟨g.Remotes.store remoteUrl
      ⟨remote.Url, some (deps.store dependencyName ⟨dependencyName⟩)⟩⟩

/-- The local variables of `GemfileLock.ParseLockFile` together with the receiver. -/
structure GemfileState where
  g : GemfileLock
  currentRemoteName : Str
  currentDependencyName : Str
  readingRemote : Bool
  readingSpecs : Bool
deriving DecidableEq, Repr

/-- The state in which `GemfileLock.ParseLockFile` enters its loop. -/
def GemfileLock.initialState (g : GemfileLock) : GemfileState :=
  ⟨g, [], [], false, false⟩

/-- One iteration of the loop of `GemfileLock.ParseLockFile`: the `switch` on `line`. -/
def GemfileLock.parseLine (s : GemfileState) (line : Str) : Option GemfileState :=
  if HasPrefix line GEMFILE_REMOTE_PREFIX then
    let currentRemoteName := TrimSpace (TrimPrefix line GEMFILE_REMOTE_PREFIX)
    some { s with
      g := s.g.addRemote currentRemoteName
      currentRemoteName := currentRemoteName
      readingRemote := true }
  else if s.readingRemote && HasPrefix line GEMFILE_SPEC_PREFIX then
    some { s with readingSpecs := true }
  else if s.readingSpecs && dependencyRegexp_MatchString line then
    match Fields line with
    | [] => none
    | currentDependencyName :: _ =>
      (s.g.addDependency s.currentRemoteName currentDependencyName).map
        (fun g => { s with g := g, currentDependencyName := currentDependencyName })
  else if line = [] then
    some { s with readingRemote := false, readingSpecs := false }
  else some s

/-- The loop of `GemfileLock.ParseLockFile` over the scanned lines. -/
def GemfileLock.parseLines : GemfileState → List Str → Option GemfileState
  | s, [] => some s
  | s, line :: rest => (GemfileLock.parseLine s line).bind (fun s1 => parseLines s1 rest)

/-- Go `func (g *GemfileLock) ParseLockFile(file io.Reader)`, on the lines of `file`. -/
def GemfileLock.ParseLockFile (g : GemfileLock) (lines : List Str) : Option GemfileLock :=
  (GemfileLock.parseLines (GemfileLock.initialState g) lines).map (fun s => s.g)

/-- Go `func (g *GemfileLock) ParseLockFile(file io.Reader)` on a reader that
delivers the text `text`: the loop runs on the lines that the scanner yields,
and a scanner error is only printed. -/
def GemfileLock.ParseLockFileText (g : GemfileLock) (text : List Str) : Option GemfileLock :=
  g.ParseLockFile (scanLines text)

/-- The loop of `MatchRemoteUrls` for a non-empty `grep`, over the entries in visiting order. -/
def matchLoop (table : Char → Char) (grep : Str) (visit : List (Str × Remote)) : List Str :=
  visit.foldl
    (fun remoteUrls e =>
      if Contains (ToLower table e.1) (ToLower table grep) then remoteUrls ++ [e.1]
      else remoteUrls)
    []

/-- Go `func (g *GemfileLock) MatchRemoteUrls(grep string) []string`. -/
def GemfileLock.MatchRemoteUrls (g : GemfileLock) (table : Char → Char)
    (order : List (Str × Remote) → List (Str × Remote)) (grep : Str) : List Str :=
  if grep = [] then maps_Keys (order g.Remotes.entries)
  else matchLoop table grep (order g.Remotes.entries)

/-! ## yarn.go -/

/-- The constant `YARN_DEPENDENCY_LINE_SUFFIX`. -/
def YARN_DEPENDENCY_LINE_SUFFIX : Str := ":".toList

/-- The constant `YARN_REMOTE_PREFIX`: two spaces, the word resolved, a space and a double quote. -/
def YARN_REMOTE_PREFIX : Str := "  resolved ".toList ++ [Char.ofNat 0x22]

/-- The constant `YARN_DEP_VERSION_SEPARATOR`. -/
def YARN_DEP_VERSION_SEPARATOR : Str := "@".toList

/-- Go `func (y *YarnLock) addRemote(url string)`. -/
def YarnLock.addRemote (y : YarnLock) (url : Str) : YarnLock :=
  ⟨y.Remotes.store url ⟨url, some GoMap.empty⟩⟩

/-- Go `func (y *YarnLock) addDependency(remoteUrl, dependencyName string)`;
writing into the nil map of a missing remote panics. -/
def YarnLock.addDependency (y : YarnLock) (remoteUrl dependencyName : Str) :
    Option YarnLock :=
  let remote := (y.Remotes.lookup remoteUrl).getD Remote.zero
  match remote.Dependencies with
  | none => none
  | some deps =>
    some ⟨y.Remotes.store remoteUrl
      ⟨remote.Url, some (deps.store dependencyName ⟨dependencyName⟩)⟩⟩

/-- The local variables of `YarnLock.ParseLockFile` together with the receiver. -/
structure YarnState where
  y : YarnLock
  currentDependencyName : Str
  readingDep : Bool
deriving DecidableEq, Repr

/-- The state in which `YarnLock.ParseLockFile` enters its loop. -/
def YarnLock.initialState (y : YarnLock) : YarnState := ⟨y, [], false⟩

/-- The first `case` body of `YarnLock.ParseLockFile`: the dependency name of a
header line.  `currentDependencyName[0]` on the empty string and `[0]` on an
empty split are panics. -/
def YarnLock.headerName (line : Str) : Option Str :=
  let currentDependencyName := TrimPrefix line [Char.ofNat 0x22]
  match currentDependencyName with
  | [] => none
  | c :: rest =>
    if c = '@' then
      (SplitN rest YARN_DEP_VERSION_SEPARATOR 2).head?.map (fun n => "@".toList ++ n)
    else (SplitN (c :: rest) YARN_DEP_VERSION_SEPARATOR 2).head?

/-- One iteration of the loop of `YarnLock.ParseLockFile`: the `switch` on `line`. -/
def YarnLock.parseLine (s : YarnState) (line : Str) : Option YarnState :=
  if !s.readingDep && HasSuffix line YARN_DEPENDENCY_LINE_SUFFIX then
    (YarnLock.headerName line).map
      (fun n => { s with currentDependencyName := n, readingDep := true })
  else if s.readingDep && HasPrefix line YARN_REMOTE_PREFIX then
    let remoteStr := TrimPrefix line YARN_REMOTE_PREFIX
    match SplitN remoteStr ("/".toList ++ s.currentDependencyName ++ "/".toList) 2 with
    | [] => none
    | remoteUrl :: _ =>
      let y1 := if (s.y.Remotes.lookup remoteUrl).isSome then s.y else s.y.addRemote remoteUrl
      (y1.addDependency remoteUrl s.currentDependencyName).map (fun y2 => { s with y := y2 })
  else if line = [] then
    some { s with readingDep := false }
  else some s

/-- The loop of `YarnLock.ParseLockFile` over the scanned lines. -/
def YarnLock.parseLines : YarnState → List Str → Option YarnState
  | s, [] => some s
  | s, line :: rest => (YarnLock.parseLine s line).bind (fun s1 => parseLines s1 rest)

/-- Go `func (y *YarnLock) ParseLockFile(file io.Reader)`, on the lines of `file`. -/
def YarnLock.ParseLockFile (y : YarnLock) (lines : List Str) : Option YarnLock :=
  (YarnLock.parseLines (YarnLock.initialState y) lines).map (fun s => s.y)

/-- Go `func (y *YarnLock) MatchRemoteUrls(grep string) []string`. -/
def YarnLock.MatchRemoteUrls (y : YarnLock) (table : Char → Char)
    (order : List (Str × Remote) → List (Str × Remote)) (grep : Str) : List Str :=
  if grep = [] then maps_Keys (order y.Remotes.entries)
  else matchLoop table grep (order y.Remotes.entries)

/-! ## The parsers on a heap of map objects

Go maps are references to objects that `make` creates.  This section embeds
the constructors and the parsers once more with the map objects held in an
explicit heap, so that two models live side by side and could share state.
The package declares no variables, and the scanner, the compiled pattern and
the scratch variables are local to a call of `ParseLockFile`: the map objects
are all the state that outlives a call. -/

/-- A reference to a map object: its position in the heap, in order of creation. -/
abbrev Ref := Nat

/-- A value of the struct `Remote` as the program holds it: the field
`Dependencies` is a reference to a map object, or nil. -/
structure RemoteVal where
  Url : Str
  Dependencies : Option Ref
deriving DecidableEq, Repr

/-- The map objects of the running program: those of type `map[string]Remote`
and those of type `map[string]Dependency`. -/
structure Heap where
  remotes : List (GoMap RemoteVal)
  dependencies : List (GoMap Dependency)
deriving DecidableEq, Repr

/-- Go `NewGemfileLock` and `NewYarnLock`, both `&T{Remotes: make(map[string]Remote)}`:
a new map object is created; the lock is identified with the reference to its
`Remotes` map, the only field, which is never assigned again. -/
def Heap.NewLock (h : Heap) : Ref × Heap :=
  (h.remotes.length, { h with remotes := h.remotes ++ [GoMap.empty] })

/-- Go `addRemote` of both lock types on the heap:
`g.Remotes[url] = Remote{Url: url, Dependencies: make(map[string]Dependency)}`. -/
def Heap.addRemote (h : Heap) (g : Ref) (url : Str) : Option Heap :=
  match h.remotes[g]? with
  | none => none
  | some m =>
    some { remotes := h.remotes.set g (m.store url ⟨url, some h.dependencies.length⟩)
           dependencies := h.dependencies ++ [GoMap.empty] }

/-- Go `addDependency` of both lock types on the heap: `remote := g.Remotes[remoteUrl]`
copies the struct, `remote.Dependencies[dependencyName] = ...` writes into the
map object that the copy refers to (a panic when it is nil), and
`g.Remotes[remoteUrl] = remote` stores the copy back. -/
def Heap.addDependency (h : Heap) (g : Ref) (remoteUrl dependencyName : Str) : Option Heap :=
  match h.remotes[g]? with
  | none => none
  | some m =>
    let remote := (m.lookup remoteUrl).getD ⟨[], none⟩
    match remote.Dependencies with
    | none => none
    | some d =>
      match h.dependencies[d]? with
      | none => none
      | some deps =>
        some { remotes := h.remotes.set g (m.store remoteUrl remote)
               dependencies :=
                 h.dependencies.set d (deps.store dependencyName ⟨dependencyName⟩) }

/-- The heap and the local variables of `GemfileLock.ParseLockFile`. -/
structure GemfileRun where
  heap : Heap
  currentRemoteName : Str
  currentDependencyName : Str
  readingRemote : Bool
  readingSpecs : Bool
deriving DecidableEq, Repr

/-- One iteration of the loop of `GemfileLock.ParseLockFile` for the lock `g` on the heap. -/
def GemfileRun.parseLine (g : Ref) (s : GemfileRun) (line : Str) : Option GemfileRun :=
  if HasPrefix line GEMFILE_REMOTE_PREFIX then
    let currentRemoteName := TrimSpace (TrimPrefix line GEMFILE_REMOTE_PREFIX)
    (s.heap.addRemote g currentRemoteName).map
      (fun h => { s with
        heap := h
        currentRemoteName := currentRemoteName
        readingRemote := true })
  else if s.readingRemote && HasPrefix line GEMFILE_SPEC_PREFIX then
    some { s with readingSpecs := true }
  else if s.readingSpecs && dependencyRegexp_MatchString line then
    match Fields line with
    | [] => none
    | currentDependencyName :: _ =>
      (s.heap.addDependency g s.currentRemoteName currentDependencyName).map
        (fun h => { s with heap := h, currentDependencyName := currentDependencyName })
  else if line = [] then
    some { s with readingRemote := false, readingSpecs := false }
  else some s

/-- The loop of `GemfileLock.ParseLockFile` for the lock `g` on the heap. -/
def GemfileRun.parseLines (g : Ref) : GemfileRun → List Str → Option GemfileRun
  | s, [] => some s
  | s, line :: rest => (GemfileRun.parseLine g s line).bind (fun s1 => parseLines g s1 rest)

/-- Go `func (g *GemfileLock) ParseLockFile(file io.Reader)` for the lock `g`
on the heap `h`: the heap when the call returns. -/
def Heap.GemfileLock_ParseLockFile (h : Heap) (g : Ref) (lines : List Str) : Option Heap :=
  (GemfileRun.parseLines g ⟨h, [], [], false, false⟩ lines).map (fun s => s.heap)

/-- The heap and the local variables of `YarnLock.ParseLockFile`. -/
structure YarnRun where
  heap : Heap
  currentDependencyName : Str
  readingDep : Bool
deriving DecidableEq, Repr

/-- One iteration of the loop of `YarnLock.ParseLockFile` for the lock `y` on the heap. -/
def YarnRun.parseLine (y : Ref) (s : YarnRun) (line : Str) : Option YarnRun :=
  if !s.readingDep && HasSuffix line YARN_DEPENDENCY_LINE_SUFFIX then
    (YarnLock.headerName line).map
      (fun n => { s with currentDependencyName := n, readingDep := true })
  else if s.readingDep && HasPrefix line YARN_REMOTE_PREFIX then
    let remoteStr := TrimPrefix line YARN_REMOTE_PREFIX
    match SplitN remoteStr ("/".toList ++ s.currentDependencyName ++ "/".toList) 2 with
    | [] => none
    | remoteUrl :: _ =>
      let ok :=
        match s.heap.remotes[y]? with
        | none => false
        | some m => (m.lookup remoteUrl).isSome
      let h1 := if ok then some s.heap else s.heap.addRemote y remoteUrl
      (h1.bind (fun h => h.addDependency y remoteUrl s.currentDependencyName)).map
        (fun h2 => { s with heap := h2 })
  else if line = [] then
    some { s with readingDep := false }
  else some s

/-- The loop of `YarnLock.ParseLockFile` for the lock `y` on the heap. -/
def YarnRun.parseLines (y : Ref) : YarnRun → List Str → Option YarnRun
  | s, [] => some s
  | s, line :: rest => (YarnRun.parseLine y s line).bind (fun s1 => parseLines y s1 rest)

/-- Go `func (y *YarnLock) ParseLockFile(file io.Reader)` for the lock `y`
on the heap `h`: the heap when the call returns. -/
def Heap.YarnLock_ParseLockFile (h : Heap) (y : Ref) (lines : List Str) : Option Heap :=
  (YarnRun.parseLines y ⟨h, [], false⟩ lines).map (fun s => s.heap)

/-- The struct `Remote` that a stored value stands for: its reference
followed to the map object (a dangling reference reads as nil). -/
def Heap.deref (h : Heap) (v : RemoteVal) : Remote :=
  ⟨v.Url, v.Dependencies.bind (fun d => h.dependencies[d]?)⟩

/-- The entries of a map of stored values, each with its reference followed. -/
def Heap.derefEntries (h : Heap) (l : List (Str × RemoteVal)) : List (Str × Remote) :=
  l.map (fun e => (e.1, h.deref e.2))

/-- The mapping from remote URL to remote that the lock `g` holds on the heap
`h`: what `g.Remotes` reads as. -/
def Heap.view (h : Heap) (g : Ref) : Option (GoMap Remote) :=
  (h.remotes[g]?).map (fun m => ⟨h.derefEntries m.entries⟩)

/-- The lock `g` owns its map objects: its map has distinct keys, every stored
remote refers to a dependency map created at position `lo` or later, and no
two stored remotes refer to the same one. -/
def Heap.Owns (h : Heap) (g : Ref) (lo : Nat) : Prop :=
  ∃ m, h.remotes[g]? = some m ∧ m.WF ∧ lo ≤ h.dependencies.length ∧
    (∀ e ∈ m.entries, ∃ d : Nat, e.2.Dependencies = some d ∧ lo ≤ d ∧ d < h.dependencies.length) ∧
    (∀ e1 ∈ m.entries, ∀ e2 ∈ m.entries,
      e1.2.Dependencies = e2.2.Dependencies → e1.1 = e2.1)

/-- From the heap `h` to the heap `k` nothing changed but the map of the lock
`g` and the dependency maps at position `lo` or later. -/
def Heap.Frame (h k : Heap) (g : Ref) (lo : Nat) : Prop :=
  k.remotes.length = h.remotes.length ∧
  (∀ j, j ≠ g → k.remotes[j]? = h.remotes[j]?) ∧
  (∀ i, i < lo → k.dependencies[i]? = h.dependencies[i]?)

/-! ## Sample data -/

/-- The registry of the end-to-end scenario of the specification. -/
def acmeRegistry : Registry :=
  ⟨"https://pkg.acme.io/".toList, ["foo".toList, "bar".toList]⟩

/-- The Format A text of the end-to-end scenario, line by line. -/
def scenarioLines : List Str :=
  ["  remote: https://rubygems.org/".toList, "  specs:".toList,
   "    foo (1.0.0)".toList, "    baz (2.0.0)".toList]

/-- The model that the Format A parser builds from the scenario's lines. -/
def scenarioModel : GemfileLock :=
  ⟨⟨[("https://rubygems.org/".toList,
      ⟨"https://rubygems.org/".toList,
        some ⟨[("foo".toList, ⟨"foo".toList⟩), ("baz".toList, ⟨"baz".toList⟩)]⟩⟩)]⟩⟩

/-- The state of the Format A parser after the first two lines of the scenario. -/
def scenarioScope : GemfileState :=
  ⟨⟨⟨[("https://rubygems.org/".toList, ⟨"https://rubygems.org/".toList, some ⟨[]⟩⟩)]⟩⟩,
    "https://rubygems.org/".toList, [], true, true⟩

/-- The header line of a scoped package: a quote, `@scope/pkg@1.0.0`, a quote and a colon. -/
def scopedHeader : Str :=
  [Char.ofNat 0x22] ++ "@scope/pkg@1.0.0".toList ++ [Char.ofNat 0x22] ++ ":".toList

/-- The header line of a plain package: a quote, `pkg@^2.3.1`, a quote and a colon. -/
def plainHeader : Str :=
  [Char.ofNat 0x22] ++ "pkg@^2.3.1".toList ++ [Char.ofNat 0x22] ++ ":".toList

/-- The header line of an unquoted package: `left-pad@^1.3.0` and a colon. -/
def bareHeader : Str := "left-pad@^1.3.0:".toList

/-- A Format B model whose only remote is `https://my-registry.example/`. -/
def registryExample : YarnLock :=
  ⟨⟨[("https://my-registry.example/".toList,
      ⟨"https://my-registry.example/".toList,
        some ⟨[("pkg".toList, ⟨"pkg".toList⟩)]⟩⟩)]⟩⟩

/-- A line with the resolved marker that names a tarball of the example registry. -/
def strayResolved : Str :=
  YARN_REMOTE_PREFIX ++ "https://my-registry.example/evil/-/evil-1.0.0.tgz".toList ++
    [Char.ofNat 0x22]

/-- A Format A text in which the remote of a first block is declared again
later: the scenario's lines, a blank line, and the same remote line. -/
def redeclaredLines : List Str :=
  scenarioLines ++ [[], "  remote: https://rubygems.org/".toList]

/-- A Format A text whose dependency line is four spaces and a vertical tab (U+000B). -/
def verticalTabLines : List Str :=
  ["  remote: https://rubygems.org/".toList, "  specs:".toList,
   "    ".toList ++ [Char.ofNat 0x0B]]

/-- A Format A text whose dependency line is four spaces and a no-break space (U+00A0). -/
def noBreakSpaceLines : List Str :=
  ["  remote: https://rubygems.org/".toList, "  specs:".toList,
   "    ".toList ++ [Char.ofNat 0xA0]]

/-- The header line of the package `@babel/core`: a quote, `@babel/core@^7.0.0`,
a quote and a colon. -/
def babelHeader : Str :=
  [Char.ofNat 0x22] ++ "@babel/core@^7.0.0".toList ++ [Char.ofNat 0x22] ++ ":".toList

/-- The text after the resolved marker on the resolved line of `@babel/core`. -/
def babelTarball : Str :=
  "https://registry.yarnpkg.com/@babel/core/-/core-7.0.0.tgz#abc".toList ++ [Char.ofNat 0x22]

/-- The resolved line of the package `@babel/core`. -/
def babelResolved : Str := YARN_REMOTE_PREFIX ++ babelTarball

/-- The state of the Format B parser after the header line of `@babel/core`. -/
def babelState : YarnState := ⟨NewYarnLock, "@babel/core".toList, true⟩

/-- The state of the Format A parser after the first three lines of the scenario. -/
def scenarioAfterFoo : GemfileState :=
  ⟨⟨⟨[("https://rubygems.org/".toList,
      ⟨"https://rubygems.org/".toList, some ⟨[("foo".toList, ⟨"foo".toList⟩)]⟩⟩)]⟩⟩,
    "https://rubygems.org/".toList, "foo".toList, true, true⟩

/-- A dependency line indented with four tabs instead of four spaces. -/
def tabIndentedLine : Str :=
  [Char.ofNat 9, Char.ofNat 9, Char.ofNat 9, Char.ofNat 9] ++ "foo (1.0.0)".toList

/-- A Format A text in which a second remote is declared inside the specs
block of the first and is followed by a dependency line. -/
def remoteInsideSpecs : List Str :=
  ["  remote: https://rubygems.org/".toList, "  specs:".toList,
   "  remote: https://pkg.acme.io/".toList, "    foo (1.0.0)".toList]

/-- A text whose first line has `MaxScanTokenSize` bytes and whose second line
declares a remote. -/
def longLineText : List Str :=
  [List.replicate MaxScanTokenSize 'a', "  remote: https://rubygems.org/".toList]

/-- A model with two remotes: a public one holding `foo` and `baz`, and the
registry's own holding `foo`. -/
def twoRemotes : LockFile :=
  .gemfile ⟨⟨[("https://rubygems.org/".toList,
      ⟨"https://rubygems.org/".toList,
        some ⟨[("foo".toList, ⟨"foo".toList⟩), ("baz".toList, ⟨"baz".toList⟩)]⟩⟩),
    ("https://pkg.acme.io/".toList,
      ⟨"https://pkg.acme.io/".toList, some ⟨[("foo".toList, ⟨"foo".toList⟩)]⟩⟩)]⟩⟩

/-- A range order that visits the entries forwards in even loops and backwards in odd ones. -/
def alternatingOrder : RangeOrder Remote := fun n l => if n % 2 = 0 then l else l.reverse

/-! ## Predicates used to state the properties of the parsers -/

/-- The model `m` records the dependency `d` under the remote key `u`. -/
def GoMap.records (m : GoMap Remote) (u d : Str) : Bool :=
  match m.lookup u with
  | none => false
  | some r => r.HasDependency d

/-- No remote of the model has a nil dependency map. -/
def GoMap.NoNil (m : GoMap Remote) : Prop :=
  ∀ u r, m.lookup u = some r → ∃ deps, r.Dependencies = some deps

/-- Key consistency of a model: every remote is stored under its own URL and
has a dependency map in which every dependency is stored under its own name,
a non-empty string. -/
def GoMap.Consistent (m : GoMap Remote) : Prop :=
  ∀ u r, m.lookup u = some r →
    r.Url = u ∧ ∃ deps, r.Dependencies = some deps ∧
      ∀ x ∈ deps.entries, x.2.Name = x.1 ∧ x.1 ≠ []

/-- Every remote of the model has at least one dependency. -/
def GoMap.Populated (m : GoMap Remote) : Prop :=
  ∀ u r, m.lookup u = some r → ∃ deps, r.Dependencies = some deps ∧ deps.entries ≠ []

/-- In the text `h`, the remote `u` is the one that the last remote line declares. -/
def GemfileLock.declaredLast (h : List Str) (u : Str) : Prop :=
  ∃ a r c, h = a ++ r :: c ∧ HasPrefix r GEMFILE_REMOTE_PREFIX = true ∧
    (∀ x ∈ c, HasPrefix x GEMFILE_REMOTE_PREFIX = false) ∧
    u = TrimSpace (TrimPrefix r GEMFILE_REMOTE_PREFIX)

/-- In the text `h`, a remote line has been read and no blank line follows it. -/
def GemfileLock.remoteSinceBlank (h : List Str) : Prop :=
  ∃ a r c, h = a ++ r :: c ∧ HasPrefix r GEMFILE_REMOTE_PREFIX = true ∧ ∀ x ∈ c, x ≠ []

/-- In the text `h`, a remote line has been followed by a specs line, with no
blank line between them nor after them. -/
def GemfileLock.specsSinceBlank (h : List Str) : Prop :=
  ∃ a r b sp c, h = a ++ r :: (b ++ sp :: c) ∧
    HasPrefix r GEMFILE_REMOTE_PREFIX = true ∧ HasPrefix sp GEMFILE_SPEC_PREFIX = true ∧
    (∀ x ∈ b, x ≠ []) ∧ (∀ x ∈ c, x ≠ [])

/-- The history invariant of the Format A parser after the text `h`: the
flags tell what has been read since the last blank line, and the current
remote is the one declared last. -/
def GemfileState.HistInv (h : List Str) (s : GemfileState) : Prop :=
  (s.readingRemote = true →
    GemfileLock.remoteSinceBlank h ∧ GemfileLock.declaredLast h s.currentRemoteName) ∧
  (s.readingSpecs = true →
    GemfileLock.specsSinceBlank h ∧ GemfileLock.declaredLast h s.currentRemoteName)

/-- The scope invariant of the Format A parser: the specs flag is only set
together with the remote flag, and while the remote flag is set the current
remote name is a key of the model, bound to a remote with a non-nil map. -/
def GemfileState.ScopeInv (s : GemfileState) : Prop :=
  (s.readingSpecs = true → s.readingRemote = true) ∧
  (s.readingRemote = true →
    ∃ r deps, s.g.Remotes.lookup s.currentRemoteName = some r ∧ r.Dependencies = some deps)

/-- A heap on which a lock already holds the remote `https://gems.example/`
with the dependency `foo`. -/
def occupiedHeap : Heap :=
  ⟨[⟨[("https://gems.example/".toList, ⟨"https://gems.example/".toList, some 0⟩)]⟩],
    [⟨[("foo".toList, ⟨"foo".toList⟩)]⟩]⟩

/-- The heap `occupiedHeap` after a lock was constructed on it and the Format A
parser was run for that lock on the scenario's lines. -/
def scenarioHeap : Heap :=
  ⟨[⟨[("https://gems.example/".toList, ⟨"https://gems.example/".toList, some 0⟩)]⟩,
     ⟨[("https://rubygems.org/".toList, ⟨"https://rubygems.org/".toList, some 1⟩)]⟩],
    [⟨[("foo".toList, ⟨"foo".toList⟩)]⟩,
     ⟨[("foo".toList, ⟨"foo".toList⟩), ("baz".toList, ⟨"baz".toList⟩)]⟩]⟩

end DependencyInspector

/-! # Theorems -/

namespace DependencyInspector

/-! ## Facts about Go maps -/

theorem GoMap.lookupEntries_storeEntries {V : Type} (l : List (Str × V)) (k k' : Str) (v : V) :
    GoMap.lookupEntries (GoMap.storeEntries l k v) k' =
      if k = k' then some v else GoMap.lookupEntries l k' := by
  induction l with
  | nil => simp [GoMap.storeEntries, GoMap.lookupEntries]
  | cons e rest ih =>
    obtain ⟨a, b⟩ := e
    by_cases h : a = k
    · subst h
      by_cases h2 : a = k' <;> simp [GoMap.storeEntries, GoMap.lookupEntries, h2]
    · by_cases h2 : a = k'
      · subst h2
        simp [GoMap.storeEntries, GoMap.lookupEntries, h, Ne.symm h]
      · simp [GoMap.storeEntries, GoMap.lookupEntries, h, h2, ih]

theorem GoMap.lookup_store {V : Type} (m : GoMap V) (k k' : Str) (v : V) :
    (m.store k v).lookup k' = if k = k' then some v else m.lookup k' :=
  GoMap.lookupEntries_storeEntries m.entries k k' v

theorem GoMap.lookupEntries_isSome_iff {V : Type} (l : List (Str × V)) (k : Str) :
    (GoMap.lookupEntries l k).isSome = true ↔ k ∈ l.map Prod.fst := by
  induction l with
  | nil => simp [GoMap.lookupEntries]
  | cons e rest ih =>
    obtain ⟨a, b⟩ := e
    by_cases h : a = k
    · subst h
      simp only [GoMap.lookupEntries, if_true, Option.isSome_some, List.map_cons, List.mem_cons,
        true_or]
    · simp only [GoMap.lookupEntries, h, if_false, ih, List.map_cons, List.mem_cons]
      constructor
      · exact fun hm => Or.inr hm
      · rintro (hm | hm)
        · exact absurd hm.symm h
        · exact hm

theorem GoMap.lookup_isSome_iff {V : Type} (m : GoMap V) (k : Str) :
    (m.lookup k).isSome = true ↔ k ∈ m.keys :=
  GoMap.lookupEntries_isSome_iff m.entries k

theorem GoMap.lookupEntries_eq_some_iff {V : Type} (l : List (Str × V))
    (hl : (l.map Prod.fst).Nodup) (k : Str) (v : V) :
    GoMap.lookupEntries l k = some v ↔ (k, v) ∈ l := by
  induction l with
  | nil => simp [GoMap.lookupEntries]
  | cons e rest ih =>
    obtain ⟨a, b⟩ := e
    simp only [List.map_cons, List.nodup_cons] at hl
    by_cases h : a = k
    · subst h
      simp only [GoMap.lookupEntries, if_true, Option.some.injEq, List.mem_cons, Prod.mk.injEq,
        true_and]
      constructor
      · exact fun hb => Or.inl hb.symm
      · rintro (hb | hb)
        · exact hb.symm
        · exact absurd (List.mem_map_of_mem Prod.fst hb) hl.1
    · simp only [GoMap.lookupEntries, h, if_false, ih hl.2, List.mem_cons, Prod.mk.injEq]
      constructor
      · exact fun hm => Or.inr hm
      · rintro (hm | hm)
        · exact absurd hm.1.symm h
        · exact hm

theorem GoMap.lookup_eq_some_iff {V : Type} (m : GoMap V) (hm : m.WF) (k : Str) (v : V) :
    m.lookup k = some v ↔ (k, v) ∈ m.entries :=
  GoMap.lookupEntries_eq_some_iff m.entries hm k v

theorem GoMap.entries_eq_nil_of_lookup {V : Type} (m : GoMap V)
    (h : ∀ k, m.lookup k = none) : m.entries = [] := by
  cases hm : m.entries with
  | nil => rfl
  | cons e rest =>
    obtain ⟨k, v⟩ := e
    have h1 := h k
    unfold GoMap.lookup at h1
    rw [hm] at h1
    simp [GoMap.lookupEntries] at h1

/-! ## The query loop -/

theorem mismatchLoop_foldl (registryUrl dependency : Str) (visit : List (Str × Remote))
    (acc : List Str) :
    visit.foldl
      (fun remotes e =>
        if registryUrl = e.2.Url then remotes
        else if e.2.HasDependency dependency then remotes ++ [e.1]
        else remotes) acc
      = acc ++ (visit.filter
          (fun e => decide (registryUrl ≠ e.2.Url) && e.2.HasDependency dependency)).map
            Prod.fst := by
  induction visit generalizing acc with
  | nil => simp
  | cons e rest ih =>
    simp only [List.foldl_cons, ih, List.filter_cons]
    by_cases h1 : registryUrl = e.2.Url
    · simp [h1]
    · by_cases h2 : e.2.HasDependency dependency = true
      · simp [h1, h2]
      · simp [h1, h2]

theorem mismatchLoop_eq (registryUrl dependency : Str) (visit : List (Str × Remote)) :
    mismatchLoop registryUrl dependency visit
      = (visit.filter
          (fun e => decide (registryUrl ≠ e.2.Url) && e.2.HasDependency dependency)).map
            Prod.fst := by
  simpa [mismatchLoop] using mismatchLoop_foldl registryUrl dependency visit []

theorem LockFile.query_eq (lockFile : LockFile)
    (order : List (Str × Remote) → List (Str × Remote)) (registryUrl dependency : Str) :
    lockFile.GetRemotesUrlsWithDependencyMismatch order registryUrl dependency
      = mismatchLoop registryUrl dependency (order lockFile.Remotes.entries) := by
  cases lockFile <;> rfl

/-- The condition under which the query reports the key `u` for the name `d`. -/
theorem LockFile.mem_query (lockFile : LockFile) (hwf : lockFile.Remotes.WF)
    (order : List (Str × Remote) → List (Str × Remote))
    (hord : (order lockFile.Remotes.entries).Perm lockFile.Remotes.entries)
    (registryUrl d u : Str) :
    u ∈ lockFile.GetRemotesUrlsWithDependencyMismatch order registryUrl d ↔
      ∃ r, lockFile.Remotes.lookup u = some r ∧ registryUrl ≠ r.Url ∧
        r.HasDependency d = true := by
  rw [LockFile.query_eq, mismatchLoop_eq]
  simp only [List.mem_map, List.mem_filter, Bool.and_eq_true, decide_eq_true_eq]
  constructor
  · rintro ⟨⟨k, r⟩, ⟨hmem, h1, h2⟩, rfl⟩
    exact ⟨r, (GoMap.lookup_eq_some_iff _ hwf _ _).2 (hord.mem_iff.1 hmem), h1, h2⟩
  · rintro ⟨r, hl, h1, h2⟩
    exact ⟨(u, r), ⟨hord.mem_iff.2 ((GoMap.lookup_eq_some_iff _ hwf _ _).1 hl), h1, h2⟩, rfl⟩

theorem LockFile.query_nodup (lockFile : LockFile) (hwf : lockFile.Remotes.WF)
    (order : List (Str × Remote) → List (Str × Remote))
    (hord : (order lockFile.Remotes.entries).Perm lockFile.Remotes.entries)
    (registryUrl d : Str) :
    (lockFile.GetRemotesUrlsWithDependencyMismatch order registryUrl d).Nodup := by
  rw [LockFile.query_eq, mismatchLoop_eq]
  have h1 : ((order lockFile.Remotes.entries).map Prod.fst).Nodup :=
    (hord.map Prod.fst).nodup_iff.2 hwf
  exact List.Nodup.sublist (List.Sublist.map _ (List.filter_sublist _)) h1

/-! ## The detector loops -/

theorem appendMismatches_lookup (d : Str) (us : List Str) (hus : us.Nodup)
    (acc : GoMap (List Str)) (u : Str) :
    (appendMismatches d us acc).lookup u =
      if u ∈ us then some (((acc.lookup u).getD []) ++ [d]) else acc.lookup u := by
  induction us generalizing acc with
  | nil => simp [appendMismatches]
  | cons a rest ih =>
    simp only [List.nodup_cons] at hus
    have hstep : appendMismatches d (a :: rest) acc =
        appendMismatches d rest (acc.store a (((acc.lookup a).getD []) ++ [d])) := rfl
    rw [hstep, ih hus.2, GoMap.lookup_store]
    by_cases h1 : a = u
    · subst h1
      simp [hus.1]
    · have h2 : ¬ u = a := fun h => h1 h.symm
      simp [h1, h2]

/-- The value the detector holds under the key `u`, given a description `P` of
the query results that does not depend on the visiting order. -/
theorem mismatchesFrom_lookup (rng : RangeOrder Remote) (registryUrl : Str)
    (lockFile : LockFile) (u : Str) (P : Str → Bool)
    (hnd : ∀ n d, (lockFile.GetRemotesUrlsWithDependencyMismatch (rng n) registryUrl d).Nodup)
    (hP : ∀ n d, u ∈ lockFile.GetRemotesUrlsWithDependencyMismatch (rng n) registryUrl d ↔
      P d = true)
    (n : Nat) (deps : List Str) (acc : GoMap (List Str)) :
    (mismatchesFrom rng registryUrl lockFile n deps acc).lookup u =
      if deps.filter P = [] then acc.lookup u
      else some (((acc.lookup u).getD []) ++ deps.filter P) := by
  induction deps generalizing n acc with
  | nil => simp [mismatchesFrom]
  | cons d rest ih =>
    simp only [mismatchesFrom]
    rw [ih, appendMismatches_lookup _ _ (hnd n d)]
    by_cases hd : P d = true
    · have hu := (hP n d).2 hd
      simp [hu, hd, List.filter_cons]
    · have hu : ¬ u ∈ lockFile.GetRemotesUrlsWithDependencyMismatch (rng n) registryUrl d :=
        fun h => hd ((hP n d).1 h)
      simp [hu, hd, List.filter_cons]

theorem GoMap.keys_storeEntries {V : Type} (l : List (Str × V)) (k : Str) (v : V) :
    (GoMap.storeEntries l k v).map Prod.fst =
      if k ∈ l.map Prod.fst then l.map Prod.fst else l.map Prod.fst ++ [k] := by
  induction l with
  | nil =>
    simp only [GoMap.storeEntries, List.map_nil, List.map_cons, List.not_mem_nil, if_false,
      List.nil_append]
  | cons e rest ih =>
    obtain ⟨a, b⟩ := e
    by_cases h : a = k
    · subst h
      simp only [GoMap.storeEntries, if_true, List.map_cons, List.mem_cons, true_or]
    · have h2 : ¬ k = a := fun hk => h hk.symm
      by_cases h3 : k ∈ rest.map Prod.fst
      · simp only [GoMap.storeEntries, h, if_false, List.map_cons, ih, h3, if_true,
          List.mem_cons, or_true]
      · simp only [GoMap.storeEntries, h, if_false, List.map_cons, ih, h3, List.mem_cons, h2,
          or_self, List.cons_append]

theorem GoMap.store_WF {V : Type} (m : GoMap V) (hm : m.WF) (k : Str) (v : V) :
    (m.store k v).WF := by
  unfold GoMap.WF GoMap.keys GoMap.store at *
  rw [GoMap.keys_storeEntries]
  by_cases h : k ∈ m.entries.map Prod.fst
  · rw [if_pos h]
    exact hm
  · rw [if_neg h]
    exact List.Nodup.append hm (List.nodup_singleton k) (List.disjoint_singleton.2 h)

theorem appendMismatches_WF (d : Str) (us : List Str) (acc : GoMap (List Str))
    (hacc : acc.WF) : (appendMismatches d us acc).WF := by
  induction us generalizing acc with
  | nil => simpa [appendMismatches] using hacc
  | cons a rest ih =>
    have hstep : appendMismatches d (a :: rest) acc =
        appendMismatches d rest (acc.store a (((acc.lookup a).getD []) ++ [d])) := rfl
    rw [hstep]
    exact ih _ (GoMap.store_WF _ hacc _ _)

theorem mismatchesFrom_WF (rng : RangeOrder Remote) (registryUrl : Str) (lockFile : LockFile)
    (n : Nat) (deps : List Str) (acc : GoMap (List Str)) (hacc : acc.WF) :
    (mismatchesFrom rng registryUrl lockFile n deps acc).WF := by
  induction deps generalizing n acc with
  | nil => simpa [mismatchesFrom] using hacc
  | cons d rest ih =>
    simp only [mismatchesFrom]
    exact ih _ _ (appendMismatches_WF _ _ _ hacc)

theorem GetDependencyMismatches_WF (registry : Registry) (rng : RangeOrder Remote)
    (lockFile : LockFile) : (registry.GetDependencyMismatches rng lockFile).WF :=
  mismatchesFrom_WF _ _ _ _ _ _ (by simp [GoMap.WF, GoMap.keys, GoMap.empty])

/-- The list the detector holds under each key, in closed form. -/
theorem GetDependencyMismatches_lookup (registry : Registry) (rng : RangeOrder Remote)
    (hrng : rng.Admissible) (lockFile : LockFile) (hwf : lockFile.Remotes.WF) (u : Str) :
    (registry.GetDependencyMismatches rng lockFile).lookup u =
      match lockFile.Remotes.lookup u with
      | none => none
      | some r =>
        if registry.Url = r.Url then none
        else if registry.Dependencies.filter r.HasDependency = [] then none
        else some (registry.Dependencies.filter r.HasDependency) := by
  have hnd : ∀ n d,
      (lockFile.GetRemotesUrlsWithDependencyMismatch (rng n) registry.Url d).Nodup :=
    fun n d => LockFile.query_nodup lockFile hwf (rng n) (hrng n _) registry.Url d
  have hmem := fun n d =>
    LockFile.mem_query lockFile hwf (rng n) (hrng n _) registry.Url d u
  have hempty : (GoMap.empty : GoMap (List Str)).lookup u = none := rfl
  unfold Registry.GetDependencyMismatches
  cases hl : lockFile.Remotes.lookup u with
  | none =>
    rw [mismatchesFrom_lookup rng registry.Url lockFile u (fun _ => false) hnd
      (fun n d => by rw [hmem n d, hl]; simp)]
    simp [hempty]
  | some r =>
    by_cases hurl : registry.Url = r.Url
    · rw [mismatchesFrom_lookup rng registry.Url lockFile u (fun _ => false) hnd
        (fun n d => by rw [hmem n d, hl]; simp [hurl])]
      simp [hempty, hurl]
    · rw [mismatchesFrom_lookup rng registry.Url lockFile u r.HasDependency hnd
        (fun n d => by rw [hmem n d, hl]; simp [hurl])]
      simp [hempty, hurl]

theorem Remote.HasDependency_iff (r : Remote) (d : Str) :
    r.HasDependency d = true ↔ ∃ deps, r.Dependencies = some deps ∧ d ∈ deps.keys := by
  unfold Remote.HasDependency
  cases h : r.Dependencies with
  | none => simp
  | some deps => simp [GoMap.lookup_isSome_iff]

/-! ## The mismatch detector (C1 to C3) -/

/-- C1: for a lock-file model with distinct keys in which every remote is stored
under its own URL, and for a name `d` of the registry, the detector lists `d`
under the key `u` exactly when `u` is not the registry URL and `d` is a key of
the dependency map of the remote stored under `u`; the registry URL is never a
key of the result. -/
theorem GetDependencyMismatches_exact (registry : Registry) (rng : RangeOrder Remote)
    (hrng : rng.Admissible) (lockFile : LockFile) (hwf : lockFile.Remotes.WF)
    (hown : ∀ e ∈ lockFile.Remotes.entries, e.2.Url = e.1)
    (d : Str) (hd : d ∈ registry.Dependencies) (u : Str) :
    ((∃ l, (registry.GetDependencyMismatches rng lockFile).lookup u = some l ∧ d ∈ l) ↔
      (u ≠ registry.Url ∧ ∃ r deps, lockFile.Remotes.lookup u = some r ∧
        r.Dependencies = some deps ∧ d ∈ deps.keys)) ∧
    registry.Url ∉ (registry.GetDependencyMismatches rng lockFile).keys := by
  have hkey : ∀ k r, lockFile.Remotes.lookup k = some r → r.Url = k := fun k r h =>
    hown (k, r) ((GoMap.lookup_eq_some_iff _ hwf k r).1 h)
  constructor
  · rw [GetDependencyMismatches_lookup registry rng hrng lockFile hwf u]
    cases hl : lockFile.Remotes.lookup u with
    | none => simp
    | some r =>
      have hru := hkey u r hl
      by_cases hurl : registry.Url = r.Url
      · have : u = registry.Url := by rw [hurl, hru]
        simp [hurl, this]
      · have hne : u ≠ registry.Url := fun h => hurl (by rw [hru, h])
        by_cases hf : registry.Dependencies.filter r.HasDependency = []
        · have hnot : ¬ r.HasDependency d = true := fun hh => by
            have : d ∈ registry.Dependencies.filter r.HasDependency :=
              List.mem_filter.2 ⟨hd, hh⟩
            rw [hf] at this
            exact absurd this (List.not_mem_nil d)
          rw [Remote.HasDependency_iff] at hnot
          simp only [hurl, hf, if_false, if_true]
          constructor
          · rintro ⟨l, h1, _⟩
            cases h1
          · rintro ⟨_, r1, deps, h1, h2, h3⟩
            cases h1
            exact absurd ⟨deps, h2, h3⟩ hnot
        · simp only [hurl, hf, if_false, Option.some.injEq, exists_eq_left', List.mem_filter,
            hd, true_and, Remote.HasDependency_iff, ne_eq, hne, not_false_eq_true]
          constructor
          · rintro ⟨deps, h2, h3⟩
            exact ⟨r, deps, rfl, h2, h3⟩
          · rintro ⟨r1, deps, h1, h2, h3⟩
            cases h1
            exact ⟨deps, h2, h3⟩
  · rw [← GoMap.lookup_isSome_iff, GetDependencyMismatches_lookup registry rng hrng lockFile hwf]
    cases hl : lockFile.Remotes.lookup registry.Url with
    | none => simp
    | some r => simp [(hkey _ r hl).symm]

/-- C2: the result of the detector has no key with an empty list; `u` is a key
exactly when `u` is not the registry URL and some name of the registry is a key
of the dependency map of the remote stored under `u`; with an empty registry
list, or without any collision, the result is the empty map. -/
theorem GetDependencyMismatches_omits_empty (registry : Registry) (rng : RangeOrder Remote)
    (hrng : rng.Admissible) (lockFile : LockFile) (hwf : lockFile.Remotes.WF)
    (hown : ∀ e ∈ lockFile.Remotes.entries, e.2.Url = e.1) :
    (∀ e ∈ (registry.GetDependencyMismatches rng lockFile).entries, e.2 ≠ []) ∧
    (∀ u, u ∈ (registry.GetDependencyMismatches rng lockFile).keys ↔
      (u ≠ registry.Url ∧ ∃ d ∈ registry.Dependencies, ∃ r deps,
        lockFile.Remotes.lookup u = some r ∧ r.Dependencies = some deps ∧ d ∈ deps.keys)) ∧
    (registry.Dependencies = [] →
      (registry.GetDependencyMismatches rng lockFile).entries = []) ∧
    ((∀ e ∈ lockFile.Remotes.entries, e.1 ≠ registry.Url →
        ∀ d ∈ registry.Dependencies, e.2.HasDependency d = false) →
      (registry.GetDependencyMismatches rng lockFile).entries = []) := by
  have hkey : ∀ k r, lockFile.Remotes.lookup k = some r → r.Url = k := fun k r h =>
    hown (k, r) ((GoMap.lookup_eq_some_iff _ hwf k r).1 h)
  have hform := GetDependencyMismatches_lookup registry rng hrng lockFile hwf
  have hkeys : ∀ u, u ∈ (registry.GetDependencyMismatches rng lockFile).keys ↔
      (u ≠ registry.Url ∧ ∃ d ∈ registry.Dependencies, ∃ r deps,
        lockFile.Remotes.lookup u = some r ∧ r.Dependencies = some deps ∧ d ∈ deps.keys) := by
    intro u
    rw [← GoMap.lookup_isSome_iff, hform u]
    cases hl : lockFile.Remotes.lookup u with
    | none => simp
    | some r =>
      have hru := hkey u r hl
      by_cases hurl : registry.Url = r.Url
      · have : u = registry.Url := by rw [hurl, hru]
        simp [hurl, this]
      · have hne : u ≠ registry.Url := fun h => hurl (by rw [hru, h])
        by_cases hf : registry.Dependencies.filter r.HasDependency = []
        · simp only [hurl, hf, if_false, if_true, Option.isSome_none, Bool.false_eq_true,
            false_iff]
          rintro ⟨_, d, hd, r1, deps, h1, h2, h3⟩
          cases h1
          have : d ∈ registry.Dependencies.filter r.HasDependency :=
            List.mem_filter.2 ⟨hd, (Remote.HasDependency_iff r d).2 ⟨deps, h2, h3⟩⟩
          rw [hf] at this
          exact absurd this (List.not_mem_nil d)
        · simp only [hurl, hf, if_false, Option.isSome_some, true_iff]
          obtain ⟨d, hdmem⟩ := List.exists_mem_of_ne_nil _ hf
          obtain ⟨hd, hh⟩ := List.mem_filter.1 hdmem
          obtain ⟨deps, h2, h3⟩ := (Remote.HasDependency_iff r d).1 hh
          exact ⟨hne, d, hd, r, deps, rfl, h2, h3⟩
  have hnone : (∀ u, ¬ u ∈ (registry.GetDependencyMismatches rng lockFile).keys) →
      (registry.GetDependencyMismatches rng lockFile).entries = [] := by
    intro h
    apply GoMap.entries_eq_nil_of_lookup
    intro k
    have := h k
    rw [← GoMap.lookup_isSome_iff] at this
    simpa using this
  refine ⟨?_, hkeys, ?_, ?_⟩
  · intro e he hempty
    have hres := GetDependencyMismatches_WF registry rng lockFile
    have hl := (GoMap.lookup_eq_some_iff _ hres e.1 e.2).2 he
    rw [hform e.1, hempty] at hl
    cases hr : lockFile.Remotes.lookup e.1 with
    | none => simp [hr] at hl
    | some r =>
      rw [hr] at hl
      by_cases hurl : registry.Url = r.Url
      · simp [hurl] at hl
      · by_cases hf : registry.Dependencies.filter r.HasDependency = []
        · simp [hurl, hf] at hl
        · simp only [hurl, if_false] at hl
          rw [if_neg hf] at hl
          exact hf (Option.some.inj hl)
  · intro hdeps
    apply hnone
    intro u hu
    obtain ⟨_, d, hd, _⟩ := (hkeys u).1 hu
    rw [hdeps] at hd
    exact absurd hd (List.not_mem_nil d)
  · intro hno
    apply hnone
    intro u hu
    obtain ⟨hne, d, hd, r, deps, h1, h2, h3⟩ := (hkeys u).1 hu
    have hmem := (GoMap.lookup_eq_some_iff _ hwf u r).1 h1
    have hfalse := hno (u, r) hmem hne d hd
    have htrue := (Remote.HasDependency_iff r d).2 ⟨deps, h2, h3⟩
    simp only [] at hfalse
    rw [htrue] at hfalse
    exact absurd hfalse (by decide)

/-- C3: under each key `u` of its result the detector holds the registry's
list filtered, in order and with repetitions, to the names that the remote
stored under `u` has; a name occurs there at most as often as in the
registry's list; and the visiting order of the map does not change the list
held under any key. -/
theorem GetDependencyMismatches_registry_order (registry : Registry)
    (rng : RangeOrder Remote) (hrng : rng.Admissible) (lockFile : LockFile)
    (hwf : lockFile.Remotes.WF) :
    (∀ u l, (registry.GetDependencyMismatches rng lockFile).lookup u = some l →
      ∃ r, lockFile.Remotes.lookup u = some r ∧
        l = registry.Dependencies.filter (fun d => r.HasDependency d)) ∧
    (∀ u l d, (registry.GetDependencyMismatches rng lockFile).lookup u = some l →
      l.count d ≤ registry.Dependencies.count d) ∧
    (∀ rng2 : RangeOrder Remote, rng2.Admissible → ∀ u,
      (registry.GetDependencyMismatches rng2 lockFile).lookup u =
        (registry.GetDependencyMismatches rng lockFile).lookup u) := by
  have hform := GetDependencyMismatches_lookup registry rng hrng lockFile hwf
  have hfilter : ∀ u l, (registry.GetDependencyMismatches rng lockFile).lookup u = some l →
      ∃ r, lockFile.Remotes.lookup u = some r ∧
        l = registry.Dependencies.filter (fun d => r.HasDependency d) := by
    intro u l hl
    rw [hform u] at hl
    cases hr : lockFile.Remotes.lookup u with
    | none => simp [hr] at hl
    | some r =>
      rw [hr] at hl
      by_cases hurl : registry.Url = r.Url
      · simp [hurl] at hl
      · by_cases hf : registry.Dependencies.filter r.HasDependency = []
        · simp [hurl, hf] at hl
        · simp only [hurl, hf, if_false, Option.some.injEq] at hl
          exact ⟨r, rfl, hl.symm⟩
  refine ⟨hfilter, ?_, ?_⟩
  · intro u l d hl
    obtain ⟨r, _, rfl⟩ := hfilter u l hl
    exact List.Sublist.count_le (List.filter_sublist _) d
  · intro rng2 hrng2 u
    rw [hform u, GetDependencyMismatches_lookup registry rng2 hrng2 lockFile hwf u]

theorem alternatingOrder_admissible : alternatingOrder.Admissible := by
  intro n l
  unfold alternatingOrder
  by_cases h : n % 2 = 0
  · rw [if_pos h]
  · rw [if_neg h]
    exact List.reverse_perm l

/-- The detector only sees the visiting orders through their values on the map it is given. -/
theorem mismatchesFrom_congr (rng rng2 : RangeOrder Remote) (registryUrl : Str)
    (lockFile : LockFile)
    (h : ∀ n, rng n lockFile.Remotes.entries = rng2 n lockFile.Remotes.entries)
    (n : Nat) (deps : List Str) (acc : GoMap (List Str)) :
    mismatchesFrom rng registryUrl lockFile n deps acc =
      mismatchesFrom rng2 registryUrl lockFile n deps acc := by
  induction deps generalizing n acc with
  | nil => rfl
  | cons d rest ih =>
    simp only [mismatchesFrom, LockFile.query_eq, h n, ih]

/-- Witness of C1 on the two-remote model, for the name `foo` and the public URL. -/
theorem GetDependencyMismatches_exact_witness :
    alternatingOrder.Admissible ∧ twoRemotes.Remotes.WF ∧
    (∀ e ∈ twoRemotes.Remotes.entries, e.2.Url = e.1) ∧
    "foo".toList ∈ acmeRegistry.Dependencies ∧
    (((∃ l, (acmeRegistry.GetDependencyMismatches alternatingOrder twoRemotes).lookup
          "https://rubygems.org/".toList = some l ∧ "foo".toList ∈ l) ↔
      ("https://rubygems.org/".toList ≠ acmeRegistry.Url ∧
        ∃ r deps, twoRemotes.Remotes.lookup "https://rubygems.org/".toList = some r ∧
          r.Dependencies = some deps ∧ "foo".toList ∈ deps.keys)) ∧
    acmeRegistry.Url ∉ (acmeRegistry.GetDependencyMismatches alternatingOrder twoRemotes).keys) :=
  ⟨alternatingOrder_admissible, by decide, by decide, by decide,
    GetDependencyMismatches_exact acmeRegistry alternatingOrder alternatingOrder_admissible
      twoRemotes (by decide) (by decide) "foo".toList (by decide) "https://rubygems.org/".toList⟩

/-- Witness of C2 on the two-remote model. -/
theorem GetDependencyMismatches_omits_empty_witness :
    alternatingOrder.Admissible ∧ twoRemotes.Remotes.WF ∧
    (∀ e ∈ twoRemotes.Remotes.entries, e.2.Url = e.1) ∧
    ((∀ e ∈ (acmeRegistry.GetDependencyMismatches alternatingOrder twoRemotes).entries,
        e.2 ≠ []) ∧
    (∀ u, u ∈ (acmeRegistry.GetDependencyMismatches alternatingOrder twoRemotes).keys ↔
      (u ≠ acmeRegistry.Url ∧ ∃ d ∈ acmeRegistry.Dependencies, ∃ r deps,
        twoRemotes.Remotes.lookup u = some r ∧ r.Dependencies = some deps ∧ d ∈ deps.keys)) ∧
    (acmeRegistry.Dependencies = [] →
      (acmeRegistry.GetDependencyMismatches alternatingOrder twoRemotes).entries = []) ∧
    ((∀ e ∈ twoRemotes.Remotes.entries, e.1 ≠ acmeRegistry.Url →
        ∀ d ∈ acmeRegistry.Dependencies, e.2.HasDependency d = false) →
      (acmeRegistry.GetDependencyMismatches alternatingOrder twoRemotes).entries = [])) :=
  ⟨alternatingOrder_admissible, by decide, by decide,
    GetDependencyMismatches_omits_empty acmeRegistry alternatingOrder
      alternatingOrder_admissible twoRemotes (by decide) (by decide)⟩

/-- Witness of C3 on the two-remote model. -/
theorem GetDependencyMismatches_registry_order_witness :
    alternatingOrder.Admissible ∧ twoRemotes.Remotes.WF ∧
    ((∀ u l, (acmeRegistry.GetDependencyMismatches alternatingOrder twoRemotes).lookup u = some l →
      ∃ r, twoRemotes.Remotes.lookup u = some r ∧
        l = acmeRegistry.Dependencies.filter (fun d => r.HasDependency d)) ∧
    (∀ u l d, (acmeRegistry.GetDependencyMismatches alternatingOrder twoRemotes).lookup u = some l →
      l.count d ≤ acmeRegistry.Dependencies.count d) ∧
    (∀ rng2 : RangeOrder Remote, rng2.Admissible → ∀ u,
      (acmeRegistry.GetDependencyMismatches rng2 twoRemotes).lookup u =
        (acmeRegistry.GetDependencyMismatches alternatingOrder twoRemotes).lookup u)) :=
  ⟨alternatingOrder_admissible, by decide,
    GetDependencyMismatches_registry_order acmeRegistry alternatingOrder
      alternatingOrder_admissible twoRemotes (by decide)⟩

/-! ## The end-to-end scenario (C4) -/

/-- C4: parsing the four lines of the scenario with the Format A parser into a
fresh model and running the detector with the registry of the scenario returns
the map with the single entry `https://rubygems.org/` bound to the list `foo`,
whatever the visiting order. -/
theorem scenario_end_to_end (rng : RangeOrder Remote) (hrng : rng.Admissible) :
    (GemfileLock.ParseLockFile NewGemfileLock scenarioLines).map
        (fun g => acmeRegistry.GetDependencyMismatches rng (.gemfile g)) =
      some ⟨[("https://rubygems.org/".toList, ["foo".toList])]⟩ := by
  have hparse : GemfileLock.ParseLockFile NewGemfileLock scenarioLines = some scenarioModel := by
    decide
  have horder : ∀ n, rng n (LockFile.gemfile scenarioModel).Remotes.entries =
      (fun _ l => l) n (LockFile.gemfile scenarioModel).Remotes.entries :=
    fun n => List.perm_singleton.1 (hrng n _)
  rw [hparse]
  simp only [Option.map_some']
  congr 1
  unfold Registry.GetDependencyMismatches
  rw [mismatchesFrom_congr rng (fun _ l => l) _ _ horder]
  decide

/-- Witness of C4 for the alternating visiting order. -/
theorem scenario_end_to_end_witness :
    alternatingOrder.Admissible ∧
    (GemfileLock.ParseLockFile NewGemfileLock scenarioLines).map
        (fun g => acmeRegistry.GetDependencyMismatches alternatingOrder (.gemfile g)) =
      some ⟨[("https://rubygems.org/".toList, ["foo".toList])]⟩ :=
  ⟨alternatingOrder_admissible, scenario_end_to_end alternatingOrder alternatingOrder_admissible⟩

/-! ## Library facts -/

theorem unicode_IsSpace_of_perlSpace (c : Char) (h : perlSpace c = true) :
    unicode_IsSpace c = true := by
  unfold perlSpace at h
  unfold unicode_IsSpace
  simp only [Bool.or_eq_true, beq_iff_eq] at h ⊢
  rcases h with (((h | h) | h) | h) | h <;> simp [h]

theorem fieldsLoop_cons_space (c : Char) (cs cur : Str) (h : unicode_IsSpace c = true) :
    fieldsLoop (c :: cs) cur =
      if cur = [] then fieldsLoop cs [] else cur :: fieldsLoop cs [] := by
  rw [fieldsLoop, if_pos h]

theorem fieldsLoop_cons_token (c : Char) (cs cur : Str) (h : unicode_IsSpace c = false) :
    fieldsLoop (c :: cs) cur = fieldsLoop cs (cur ++ [c]) := by
  rw [fieldsLoop, if_neg (by simp [h])]

theorem fieldsLoop_token (t rest cur : Str) (ht : ∀ c ∈ t, unicode_IsSpace c = false) :
    fieldsLoop (t ++ rest) cur = fieldsLoop rest (cur ++ t) := by
  induction t generalizing cur with
  | nil => simp
  | cons c cs ih =>
    have hc : unicode_IsSpace c = false := ht c (List.mem_cons_self c cs)
    rw [List.cons_append, fieldsLoop_cons_token c _ cur hc,
      ih (cur ++ [c]) (fun x hx => ht x (List.mem_cons_of_mem c hx))]
    simp

theorem fieldsLoop_boundary (rest cur : Str) (hcur : cur ≠ [])
    (hrest : rest = [] ∨ ∃ c cs, rest = c :: cs ∧ unicode_IsSpace c = true) :
    ∃ more, fieldsLoop rest cur = cur :: more := by
  rcases hrest with h | ⟨c, cs, h, hc⟩
  · subst h
    exact ⟨[], by rw [fieldsLoop, if_neg hcur]⟩
  · subst h
    exact ⟨fieldsLoop cs [], by rw [fieldsLoop_cons_space c cs cur hc, if_neg hcur]⟩

/-- The first field of a line made of four spaces, a token and the rest. -/
theorem Fields_four_spaces (t rest : Str) (hne : t ≠ [])
    (ht : ∀ c ∈ t, unicode_IsSpace c = false)
    (hrest : rest = [] ∨ ∃ c cs, rest = c :: cs ∧ unicode_IsSpace c = true) :
    ∃ more, Fields ("    ".toList ++ t ++ rest) = t :: more := by
  have h4 : "    ".toList ++ t ++ rest = ' ' :: ' ' :: ' ' :: ' ' :: (t ++ rest) := rfl
  have hsp : unicode_IsSpace ' ' = true := by decide
  obtain ⟨more, hmore⟩ := fieldsLoop_boundary rest t hne hrest
  refine ⟨more, ?_⟩
  unfold Fields
  rw [h4, fieldsLoop_cons_space _ _ _ hsp, if_pos rfl, fieldsLoop_cons_space _ _ _ hsp,
    if_pos rfl, fieldsLoop_cons_space _ _ _ hsp, if_pos rfl, fieldsLoop_cons_space _ _ _ hsp,
    if_pos rfl, fieldsLoop_token t rest [] ht]
  simpa using hmore

theorem HasPrefix_iff (s p : Str) : HasPrefix s p = true ↔ ∃ rest, s = p ++ rest := by
  unfold HasPrefix
  rw [ List.isPrefixOf_iff_prefix]
  constructor
  · rintro ⟨t, ht⟩
    exact ⟨t, ht.symm⟩
  · rintro ⟨t, ht⟩
    exact ⟨t, ht.symm⟩

/-- A line whose third character is a space starts with neither marker of Format A. -/
theorem not_marker_of_third_space (a b : Char) (rest : Str) :
    HasPrefix (a :: b :: ' ' :: rest) GEMFILE_REMOTE_PREFIX = false ∧
    HasPrefix (a :: b :: ' ' :: rest) GEMFILE_SPEC_PREFIX = false := by
  have hr : GEMFILE_REMOTE_PREFIX = [' ', ' ', 'r', 'e', 'm', 'o', 't', 'e', ':'] := rfl
  have hs : GEMFILE_SPEC_PREFIX = [' ', ' ', 's', 'p', 'e', 'c', 's', ':'] := rfl
  have h1 : ('r' == ' ') = false := by decide
  have h2 : ('s' == ' ') = false := by decide
  constructor
  · simp [HasPrefix, hr, List.isPrefixOf, h1]
  · simp [HasPrefix, hs, List.isPrefixOf, h2]

/-! ## The Format A parser -/

theorem GemfileLock.gem_addDependency_eq (g : GemfileLock) (remoteUrl name : Str) (r : Remote)
    (deps : GoMap Dependency) (hr : g.Remotes.lookup remoteUrl = some r)
    (hd : r.Dependencies = some deps) :
    g.addDependency remoteUrl name =
      some ⟨g.Remotes.store remoteUrl ⟨r.Url, some (deps.store name ⟨name⟩)⟩⟩ := by
  unfold GemfileLock.addDependency
  simp only [hr, Option.getD_some, hd]

theorem GemfileLock.initialState_ScopeInv (g : GemfileLock) :
    (GemfileLock.initialState g).ScopeInv := by
  constructor <;> intro h <;> simp [GemfileLock.initialState] at h

theorem GemfileLock.parseLine_ScopeInv (s s1 : GemfileState) (line : Str)
    (hinv : s.ScopeInv) (h : GemfileLock.parseLine s line = some s1) : s1.ScopeInv := by
  unfold GemfileLock.parseLine at h
  by_cases c1 : HasPrefix line GEMFILE_REMOTE_PREFIX = true
  · rw [if_pos c1] at h
    cases h
    refine ⟨fun _ => rfl, fun _ => ?_⟩
    exact ⟨⟨TrimSpace (TrimPrefix line GEMFILE_REMOTE_PREFIX), some GoMap.empty⟩, GoMap.empty,
      by simp [GemfileLock.addRemote, GoMap.lookup_store], rfl⟩
  · rw [if_neg c1] at h
    by_cases c2 : (s.readingRemote && HasPrefix line GEMFILE_SPEC_PREFIX) = true
    · rw [if_pos c2] at h
      cases h
      simp only [Bool.and_eq_true] at c2
      exact ⟨fun _ => c2.1, hinv.2⟩
    · rw [if_neg c2] at h
      by_cases c3 : (s.readingSpecs && dependencyRegexp_MatchString line) = true
      · rw [if_pos c3] at h
        simp only [Bool.and_eq_true] at c3
        obtain ⟨r, deps, hr, hd⟩ := hinv.2 (hinv.1 c3.1)
        cases hf : Fields line with
        | nil => simp [hf] at h
        | cons t more =>
          simp only [hf, GemfileLock.gem_addDependency_eq s.g s.currentRemoteName t r deps hr hd,
            Option.map_some', Option.some.injEq] at h
          subst h
          refine ⟨hinv.1, fun _ => ?_⟩
          exact ⟨⟨r.Url, some (deps.store t ⟨t⟩)⟩, deps.store t ⟨t⟩,
            by simp [GoMap.lookup_store], rfl⟩
      · rw [if_neg c3] at h
        by_cases c4 : line = []
        · rw [if_pos c4] at h
          cases h
          constructor <;> intro h <;> simp at h
        · rw [if_neg c4] at h
          cases h
          exact hinv

theorem GemfileLock.parseLines_ScopeInv (lines : List Str) (s s1 : GemfileState)
    (hinv : s.ScopeInv) (h : GemfileLock.parseLines s lines = some s1) : s1.ScopeInv := by
  induction lines generalizing s with
  | nil =>
    simp only [GemfileLock.parseLines, Option.some.injEq] at h
    exact h ▸ hinv
  | cons line rest ih =>
    simp only [GemfileLock.parseLines] at h
    cases hstep : GemfileLock.parseLine s line with
    | none => simp [hstep] at h
    | some s2 =>
      rw [hstep] at h
      exact ih s2 (GemfileLock.parseLine_ScopeInv s s2 line hinv hstep) h

/-- C5: in a state that the Format A parser reaches with the specs flag set,
a line made of four spaces, a token `t` without white space and either nothing
more or text that starts with white space stores the dependency named `t` in
the map of the current remote and changes nothing else of the model; a line
that starts with six spaces leaves the state, and so the model, unchanged. -/
theorem GemfileLock.four_vs_six_spaces (g : GemfileLock) (pre : List Str) (s : GemfileState)
    (hrun : GemfileLock.parseLines (GemfileLock.initialState g) pre = some s)
    (hspecs : s.readingSpecs = true) :
    (∀ t rest : Str, t ≠ [] → (∀ c ∈ t, unicode_IsSpace c = false) →
      (rest = [] ∨ ∃ c cs, rest = c :: cs ∧ unicode_IsSpace c = true) →
      ∃ r deps, s.g.Remotes.lookup s.currentRemoteName = some r ∧
        r.Dependencies = some deps ∧
        GemfileLock.parseLine s ("    ".toList ++ t ++ rest) =
          some { s with
            g := ⟨s.g.Remotes.store s.currentRemoteName
              ⟨r.Url, some (deps.store t ⟨t⟩)⟩⟩
            currentDependencyName := t }) ∧
    (∀ line : Str, HasPrefix line "      ".toList = true →
      GemfileLock.parseLine s line = some s) := by
  have hinv := GemfileLock.parseLines_ScopeInv pre _ s (GemfileLock.initialState_ScopeInv g) hrun
  constructor
  · intro t rest hne ht hrest
    obtain ⟨r, deps, hr, hd⟩ := hinv.2 (hinv.1 hspecs)
    refine ⟨r, deps, hr, hd, ?_⟩
    obtain ⟨more, hmore⟩ := Fields_four_spaces t rest hne ht hrest
    obtain ⟨c, cs, rfl⟩ := List.exists_cons_of_ne_nil hne
    have hc : perlSpace c = false := by
      cases hp : perlSpace c with
      | false => rfl
      | true =>
        have := unicode_IsSpace_of_perlSpace c hp
        rw [ht c (List.mem_cons_self c cs)] at this
        exact absurd this (by decide)
    have h4 : "    ".toList ++ (c :: cs) ++ rest = ' ' :: ' ' :: ' ' :: ' ' :: c :: (cs ++ rest) :=
      rfl
    have hm := not_marker_of_third_space ' ' ' ' (' ' :: c :: (cs ++ rest))
    have hre : dependencyRegexp_MatchString (' ' :: ' ' :: ' ' :: ' ' :: c :: (cs ++ rest)) =
        true := by
      have hsp : perlSpace ' ' = true := by decide
      simp [dependencyRegexp_MatchString, hsp, hc]
    unfold GemfileLock.parseLine
    rw [hmore, h4, if_neg (by simp [hm.1]), if_neg (by simp [hm.2]),
      if_pos (by simp [hspecs, hre])]
    simp only [GemfileLock.gem_addDependency_eq s.g s.currentRemoteName (c :: cs) r deps hr hd,
      Option.map_some']
  · intro line hline
    obtain ⟨rest, rfl⟩ := (HasPrefix_iff _ _).1 hline
    have h6 : "      ".toList ++ rest = ' ' :: ' ' :: ' ' :: ' ' :: ' ' :: ' ' :: rest := rfl
    have hm := not_marker_of_third_space ' ' ' ' (' ' :: ' ' :: ' ' :: rest)
    have hre : dependencyRegexp_MatchString (' ' :: ' ' :: ' ' :: ' ' :: ' ' :: ' ' :: rest) =
        false := by
      have hsp : perlSpace ' ' = true := by decide
      simp [dependencyRegexp_MatchString, hsp]
    unfold GemfileLock.parseLine
    rw [h6, if_neg (by simp [hm.1]), if_neg (by simp [hm.2]), if_neg (by simp [hre]),
      if_neg (by simp)]

/-- Witness of C5: after the first two lines of the scenario, the line
`    foo (1.0.0)` stores `foo` and a six-space line changes nothing. -/
theorem GemfileLock.four_vs_six_spaces_witness :
    GemfileLock.parseLines (GemfileLock.initialState NewGemfileLock)
      ["  remote: https://rubygems.org/".toList, "  specs:".toList] = some scenarioScope ∧
    scenarioScope.readingSpecs = true ∧
    (∃ r deps, scenarioScope.g.Remotes.lookup scenarioScope.currentRemoteName = some r ∧
        r.Dependencies = some deps ∧
        GemfileLock.parseLine scenarioScope ("    ".toList ++ "foo".toList ++ " (1.0.0)".toList) =
          some { scenarioScope with
            g := ⟨scenarioScope.g.Remotes.store scenarioScope.currentRemoteName
              ⟨r.Url, some (deps.store "foo".toList ⟨"foo".toList⟩)⟩⟩
            currentDependencyName := "foo".toList }) ∧
    GemfileLock.parseLine scenarioScope "      actionpack (= 5.2.2)".toList =
      some scenarioScope :=
  ⟨by decide, by decide,
    (GemfileLock.four_vs_six_spaces NewGemfileLock
      ["  remote: https://rubygems.org/".toList, "  specs:".toList] scenarioScope
      (by decide) (by decide)).1 "foo".toList " (1.0.0)".toList (by decide) (by decide)
      (Or.inr ⟨' ', "(1.0.0)".toList, rfl, by decide⟩),
    (GemfileLock.four_vs_six_spaces NewGemfileLock
      ["  remote: https://rubygems.org/".toList, "  specs:".toList] scenarioScope
      (by decide) (by decide)).2 "      actionpack (= 5.2.2)".toList (by decide)⟩

/-! ## Splitting at the version separator -/

theorem cutAtFirst_single_cons (x c : Char) (cs : Str) :
    cutAtFirst [x] (c :: cs) =
      if x = c then some ([], cs)
      else (cutAtFirst [x] cs).map (fun p => (c :: p.1, p.2)) := by
  rw [cutAtFirst]
  by_cases hc : x = c
  · rw [if_pos (by simp [List.isPrefixOf, hc]), if_pos hc]
    rfl
  · rw [if_neg (by simp [List.isPrefixOf, hc]), if_neg hc]

theorem cutAtFirst_single_none (x : Char) (s : Str) (h : cutAtFirst [x] s = none) : x ∉ s := by
  induction s with
  | nil => simp
  | cons c cs ih =>
    rw [cutAtFirst_single_cons] at h
    by_cases hc : x = c
    · rw [if_pos hc] at h
      cases h
    · rw [if_neg hc, Option.map_eq_none'] at h
      simp only [List.mem_cons, not_or]
      exact ⟨hc, ih h⟩

theorem cutAtFirst_single_some (x : Char) (s a b : Str) (h : cutAtFirst [x] s = some (a, b)) :
    x ∉ a ∧ s = a ++ x :: b := by
  induction s generalizing a with
  | nil => simp [cutAtFirst] at h
  | cons c cs ih =>
    rw [cutAtFirst_single_cons] at h
    by_cases hc : x = c
    · rw [if_pos hc] at h
      simp only [Option.some.injEq, Prod.mk.injEq] at h
      obtain ⟨rfl, rfl⟩ := h
      simp [hc]
    · rw [if_neg hc] at h
      cases hcut : cutAtFirst [x] cs with
      | none => simp [hcut] at h
      | some p =>
        obtain ⟨a1, b1⟩ := p
        simp only [hcut, Option.map_some', Option.some.injEq, Prod.mk.injEq] at h
        obtain ⟨rfl, rfl⟩ := h
        obtain ⟨h1, h2⟩ := ih a1 hcut
        refine ⟨?_, by rw [h2]; rfl⟩
        simp only [List.mem_cons, not_or]
        exact ⟨hc, h1⟩

theorem cutAtFirst_single_append (x : Char) (n rest : Str) (h : x ∉ n) :
    cutAtFirst [x] (n ++ x :: rest) = some (n, rest) := by
  induction n with
  | nil => rw [List.nil_append, cutAtFirst_single_cons, if_pos rfl]
  | cons c cs ih =>
    simp only [List.mem_cons, not_or] at h
    rw [List.cons_append, cutAtFirst_single_cons, if_neg h.1, ih h.2]
    rfl

/-- The element `[0]` of a split in two at the version separator exists,
holds no separator, and is the text before the first separator. -/
theorem SplitN_separator_head (s : Str) :
    ∃ h more, SplitN s YARN_DEP_VERSION_SEPARATOR 2 = h :: more ∧ '@' ∉ h ∧
      (h = s ∨ ∃ b, s = h ++ '@' :: b) := by
  have hsep : YARN_DEP_VERSION_SEPARATOR = ['@'] := rfl
  rw [hsep]
  unfold SplitN
  simp only [List.cons_ne_nil, if_false]
  unfold splitLoop
  cases hcut : cutAtFirst ['@'] s with
  | none => exact ⟨s, [], rfl, cutAtFirst_single_none _ _ hcut, Or.inl rfl⟩
  | some p =>
    obtain ⟨a, b⟩ := p
    obtain ⟨h1, h2⟩ := cutAtFirst_single_some _ _ _ _ hcut
    exact ⟨a, _, rfl, h1, Or.inr ⟨b, h2⟩⟩

theorem SplitN_separator_append (n rest : Str) (h : '@' ∉ n) :
    ∃ more, SplitN (n ++ '@' :: rest) YARN_DEP_VERSION_SEPARATOR 2 = n :: more := by
  have hsep : YARN_DEP_VERSION_SEPARATOR = ['@'] := rfl
  rw [hsep]
  unfold SplitN
  simp only [List.cons_ne_nil, if_false]
  unfold splitLoop
  rw [cutAtFirst_single_append _ _ _ h]
  exact ⟨_, rfl⟩

/-! ## The Format B header (C6) -/

theorem YarnLock.headerName_of_trim (line rest : Str) (c : Char)
    (h : TrimPrefix line [Char.ofNat 0x22] = c :: rest) :
    YarnLock.headerName line =
      if c = '@' then
        (SplitN rest YARN_DEP_VERSION_SEPARATOR 2).head?.map (fun n => "@".toList ++ n)
      else (SplitN (c :: rest) YARN_DEP_VERSION_SEPARATOR 2).head? := by
  unfold YarnLock.headerName
  simp only [h]

/-- The name derived from a header never holds the separator after its first character. -/
theorem YarnLock.headerName_tail (line name : Str) (h : YarnLock.headerName line = some name) :
    '@' ∉ name.tail := by
  cases ht : TrimPrefix line [Char.ofNat 0x22] with
  | nil => simp [YarnLock.headerName, ht] at h
  | cons c rest =>
    rw [YarnLock.headerName_of_trim line rest c ht] at h
    by_cases hc : c = '@'
    · rw [if_pos hc] at h
      obtain ⟨hd, more, hsplit, hno, _⟩ := SplitN_separator_head rest
      rw [hsplit] at h
      simp only [List.head?_cons, Option.map_some', Option.some.injEq] at h
      subst h
      exact hno
    · rw [if_neg hc] at h
      obtain ⟨hd, more, hsplit, hno, _⟩ := SplitN_separator_head (c :: rest)
      rw [hsplit] at h
      simp only [List.head?_cons, Option.some.injEq] at h
      subst h
      exact fun hmem => hno (List.mem_of_mem_tail hmem)

/-- The name derived from a line that, after its leading quote if it has one,
reads `n`, the separator and more text. -/
theorem YarnLock.headerName_of_form (line n rest : Str)
    (hform : line = Char.ofNat 0x22 :: (n ++ '@' :: rest) ∨
      (line.head? ≠ some (Char.ofNat 0x22) ∧ line = n ++ '@' :: rest))
    (hne : n ≠ []) (hn : '@' ∉ n.tail) : YarnLock.headerName line = some n := by
  have htrim : TrimPrefix line [Char.ofNat 0x22] = n ++ '@' :: rest := by
    rcases hform with h | ⟨h1, h2⟩
    · subst h
      simp [TrimPrefix, HasPrefix, List.isPrefixOf]
    · unfold TrimPrefix
      rw [if_neg]
      · exact h2
      · cases line with
        | nil => simp [HasPrefix, List.isPrefixOf]
        | cons a l =>
          simp only [List.head?_cons, ne_eq, Option.some.injEq] at h1
          simp only [HasPrefix, List.isPrefixOf, Bool.and_true, beq_iff_eq]
          exact fun h => h1 h.symm
  obtain ⟨c, cs, rfl⟩ := List.exists_cons_of_ne_nil hne
  simp only [List.tail_cons] at hn
  rw [YarnLock.headerName_of_trim line (cs ++ '@' :: rest) c (by simpa using htrim)]
  by_cases hc : c = '@'
  · rw [if_pos hc]
    obtain ⟨more, hsplit⟩ := SplitN_separator_append cs rest hn
    rw [hsplit, hc]
    rfl
  · rw [if_neg hc]
    have hno : '@' ∉ c :: cs := by
      simp only [List.mem_cons, not_or]
      exact ⟨fun h => hc h.symm, hn⟩
    obtain ⟨more, hsplit⟩ := SplitN_separator_append (c :: cs) rest hno
    rw [show c :: (cs ++ '@' :: rest) = (c :: cs) ++ '@' :: rest from rfl, hsplit]
    rfl

theorem YarnLock.parseLine_header (s : YarnState) (line : Str) (hidle : s.readingDep = false)
    (hsuf : HasSuffix line YARN_DEPENDENCY_LINE_SUFFIX = true) :
    YarnLock.parseLine s line =
      (YarnLock.headerName line).map
        (fun n => { s with currentDependencyName := n, readingDep := true }) := by
  unfold YarnLock.parseLine
  rw [if_pos (by simp [hidle, hsuf])]

/-- C6: outside a dependency block, the header of the scoped package sets the
current dependency name to `@scope/pkg` and the header of the plain package
sets it to `pkg`; a header that ends in a colon and reads, after its leading
quote if it has one, a non-empty `n` without separator past its first
character, then the separator and more text, sets the name to `n`; and the
name set by any header holds no separator after its first character. -/
theorem YarnLock.scoped_name_splitting (s : YarnState) (hidle : s.readingDep = false) :
    YarnLock.parseLine s scopedHeader =
      some { s with currentDependencyName := "@scope/pkg".toList, readingDep := true } ∧
    YarnLock.parseLine s plainHeader =
      some { s with currentDependencyName := "pkg".toList, readingDep := true } ∧
    (∀ line n rest : Str, HasSuffix line YARN_DEPENDENCY_LINE_SUFFIX = true →
      (line = Char.ofNat 0x22 :: (n ++ '@' :: rest) ∨
        (line.head? ≠ some (Char.ofNat 0x22) ∧ line = n ++ '@' :: rest)) →
      n ≠ [] → '@' ∉ n.tail →
      YarnLock.parseLine s line =
        some { s with currentDependencyName := n, readingDep := true }) ∧
    (∀ (line : Str) (s1 : YarnState), HasSuffix line YARN_DEPENDENCY_LINE_SUFFIX = true →
      YarnLock.parseLine s line = some s1 → '@' ∉ s1.currentDependencyName.tail) := by
  refine ⟨?_, ?_, ?_, ?_⟩
  · rw [YarnLock.parseLine_header s _ hidle (by decide)]
    have : YarnLock.headerName scopedHeader = some "@scope/pkg".toList := by decide
    rw [this]
    rfl
  · rw [YarnLock.parseLine_header s _ hidle (by decide)]
    have : YarnLock.headerName plainHeader = some "pkg".toList := by decide
    rw [this]
    rfl
  · intro line n rest hsuf hform hne hn
    rw [YarnLock.parseLine_header s _ hidle hsuf,
      YarnLock.headerName_of_form line n rest hform hne hn]
    rfl
  · intro line s1 hsuf hstep
    rw [YarnLock.parseLine_header s _ hidle hsuf] at hstep
    cases hname : YarnLock.headerName line with
    | none => simp [hname] at hstep
    | some name =>
      simp only [hname, Option.map_some', Option.some.injEq] at hstep
      subst hstep
      exact YarnLock.headerName_tail line name hname

/-- Witness of C6 in the initial state of a fresh model, with the general
rule applied to the unquoted header `left-pad@^1.3.0:`. -/
theorem YarnLock.scoped_name_splitting_witness :
    (YarnLock.initialState NewYarnLock).readingDep = false ∧
    YarnLock.parseLine (YarnLock.initialState NewYarnLock) scopedHeader =
      some ⟨NewYarnLock, "@scope/pkg".toList, true⟩ ∧
    YarnLock.parseLine (YarnLock.initialState NewYarnLock) plainHeader =
      some ⟨NewYarnLock, "pkg".toList, true⟩ ∧
    YarnLock.parseLine (YarnLock.initialState NewYarnLock) bareHeader =
      some ⟨NewYarnLock, "left-pad".toList, true⟩ :=
  ⟨rfl, (YarnLock.scoped_name_splitting (YarnLock.initialState NewYarnLock) rfl).1,
    (YarnLock.scoped_name_splitting (YarnLock.initialState NewYarnLock) rfl).2.1,
    (YarnLock.scoped_name_splitting (YarnLock.initialState NewYarnLock) rfl).2.2.1
      bareHeader "left-pad".toList "^1.3.0:".toList (by decide)
      (Or.inr ⟨by decide, rfl⟩) (by decide) (by decide)⟩

/-! ## The remote query (C7) -/

theorem isPrefixOf_infix (sub s : Str) (h : sub.isPrefixOf s = true) : sub <:+: s :=
  (List.isPrefixOf_iff_prefix.1 h).isInfix

/-- Go `strings.Contains` decides the substring relation. -/
theorem Contains_iff (s sub : Str) : Contains s sub = true ↔ sub <:+: s := by
  unfold Contains
  induction s with
  | nil =>
    by_cases h : sub = []
    · subst h
      simp [cutAtFirst]
    · simp [cutAtFirst, h]
  | cons c cs ih =>
    rw [cutAtFirst]
    by_cases hp : sub.isPrefixOf (c :: cs) = true
    · rw [if_pos hp]
      simp only [Option.isSome_some, true_iff]
      exact isPrefixOf_infix _ _ hp
    · rw [if_neg hp, Option.isSome_map', ih, List.infix_cons_iff]
      constructor
      · exact fun h => Or.inr h
      · rintro (h | h)
        · exact absurd (List.isPrefixOf_iff_prefix.2 h) hp
        · exact h

theorem matchLoop_foldl (table : Char → Char) (grep : Str) (visit : List (Str × Remote))
    (acc : List Str) :
    visit.foldl
      (fun remoteUrls e =>
        if Contains (ToLower table e.1) (ToLower table grep) then remoteUrls ++ [e.1]
        else remoteUrls) acc
      = acc ++ (visit.filter
          (fun e => Contains (ToLower table e.1) (ToLower table grep))).map Prod.fst := by
  induction visit generalizing acc with
  | nil => simp
  | cons e rest ih =>
    simp only [List.foldl_cons, ih, List.filter_cons]
    by_cases h : Contains (ToLower table e.1) (ToLower table grep) = true
    · simp [h]
    · simp [h]

theorem matchLoop_eq (table : Char → Char) (grep : Str) (visit : List (Str × Remote)) :
    matchLoop table grep visit =
      (visit.filter (fun e => Contains (ToLower table e.1) (ToLower table grep))).map
        Prod.fst := by
  simpa [matchLoop] using matchLoop_foldl table grep visit []

theorem ToLower_REGISTRY (table : Char → Char) :
    ToLower table "REGISTRY".toList = "registry".toList := rfl

theorem ToLower_registry_url (table : Char → Char) :
    ToLower table "https://my-registry.example/".toList =
      "https://my-registry.example/".toList := rfl

/-- C7: on a model with distinct keys, `MatchRemoteUrls` returns a list without
repetition; for the empty string it holds exactly the keys of the model, and
for any other string exactly the keys whose lower-cased form contains the
lower-cased string; `REGISTRY` matches the stored URL
`https://my-registry.example/`; and the Gemfile and Yarn implementations agree
on equal maps (equal lists under one visiting order, the same elements under
any two). -/
theorem MatchRemoteUrls_filter (g : GemfileLock) (y : YarnLock) (table : Char → Char)
    (order order2 : List (Str × Remote) → List (Str × Remote))
    (hwf : g.Remotes.WF) (hord : ∀ l, (order l).Perm l) (hord2 : ∀ l, (order2 l).Perm l)
    (hsame : y.Remotes = g.Remotes) (grep : Str) :
    (g.MatchRemoteUrls table order grep).Nodup ∧
    (grep = [] → ∀ u, u ∈ g.MatchRemoteUrls table order grep ↔ u ∈ g.Remotes.keys) ∧
    (grep ≠ [] → ∀ u, u ∈ g.MatchRemoteUrls table order grep ↔
      (u ∈ g.Remotes.keys ∧ ToLower table grep <:+: ToLower table u)) ∧
    ("https://my-registry.example/".toList ∈ g.Remotes.keys →
      "https://my-registry.example/".toList ∈
        g.MatchRemoteUrls table order "REGISTRY".toList) ∧
    y.MatchRemoteUrls table order grep = g.MatchRemoteUrls table order grep ∧
    (y.MatchRemoteUrls table order2 grep).Perm (g.MatchRemoteUrls table order grep) := by
  have hkeys : ((order g.Remotes.entries).map Prod.fst).Perm g.Remotes.keys :=
    (hord _).map Prod.fst
  have hnd : ((order g.Remotes.entries).map Prod.fst).Nodup := hkeys.nodup_iff.2 hwf
  have hmem : ∀ (q u : Str), q ≠ [] → (u ∈ g.MatchRemoteUrls table order q ↔
      (u ∈ g.Remotes.keys ∧ ToLower table q <:+: ToLower table u)) := by
    intro q u hq
    unfold GemfileLock.MatchRemoteUrls
    rw [if_neg hq, matchLoop_eq]
    simp only [List.mem_map, List.mem_filter, Contains_iff, GoMap.keys]
    constructor
    · rintro ⟨e, ⟨he, hc⟩, rfl⟩
      exact ⟨⟨e, (hord _).mem_iff.1 he, rfl⟩, hc⟩
    · rintro ⟨⟨e, he, rfl⟩, hc⟩
      exact ⟨e, ⟨(hord _).mem_iff.2 he, hc⟩, rfl⟩
  have hyg : ∀ o, y.MatchRemoteUrls table o grep = g.MatchRemoteUrls table o grep := by
    intro o
    unfold YarnLock.MatchRemoteUrls GemfileLock.MatchRemoteUrls
    rw [hsame]
  have hperm : (g.MatchRemoteUrls table order2 grep).Perm
      (g.MatchRemoteUrls table order grep) := by
    have h12 : (order2 g.Remotes.entries).Perm (order g.Remotes.entries) :=
      (hord2 _).trans (hord _).symm
    unfold GemfileLock.MatchRemoteUrls
    by_cases hq : grep = []
    · rw [if_pos hq, if_pos hq]
      exact h12.map Prod.fst
    · rw [if_neg hq, if_neg hq, matchLoop_eq, matchLoop_eq]
      exact (h12.filter _).map Prod.fst
  refine ⟨?_, ?_, fun hq u => hmem grep u hq, ?_, hyg order, ?_⟩
  · unfold GemfileLock.MatchRemoteUrls
    by_cases hq : grep = []
    · rw [if_pos hq]
      exact hnd
    · rw [if_neg hq, matchLoop_eq]
      exact List.Nodup.sublist (List.Sublist.map _ (List.filter_sublist _)) hnd
  · intro hq u
    unfold GemfileLock.MatchRemoteUrls
    rw [if_pos hq]
    exact hkeys.mem_iff
  · intro hk
    rw [hmem _ _ (by decide), ToLower_REGISTRY, ToLower_registry_url]
    exact ⟨hk, by decide⟩
  · rw [hyg order2]
    exact hperm

/-- Witness of C7: `REGISTRY` matches the single URL of the example model. -/
theorem MatchRemoteUrls_filter_witness :
    (GemfileLock.mk registryExample.Remotes).Remotes.WF ∧
    "https://my-registry.example/".toList ∈ (GemfileLock.mk registryExample.Remotes).Remotes.keys ∧
    "https://my-registry.example/".toList ∈
      (GemfileLock.mk registryExample.Remotes).MatchRemoteUrls id id "REGISTRY".toList ∧
    (registryExample.MatchRemoteUrls id List.reverse "REGISTRY".toList).Perm
      ((GemfileLock.mk registryExample.Remotes).MatchRemoteUrls id id "REGISTRY".toList) :=
  ⟨by decide, by decide,
    (MatchRemoteUrls_filter (GemfileLock.mk registryExample.Remotes) registryExample id id
      List.reverse (by decide) (fun l => List.Perm.refl l) List.reverse_perm rfl
      "REGISTRY".toList).2.2.2.1 (by decide),
    (MatchRemoteUrls_filter (GemfileLock.mk registryExample.Remotes) registryExample id id
      List.reverse (by decide) (fun l => List.Perm.refl l) List.reverse_perm rfl
      "REGISTRY".toList).2.2.2.2.2⟩

/-! ## How the stores of the parsers change what a model records -/

theorem GoMap.records_store_fresh (m : GoMap Remote) (R u d : Str) :
    (m.store R ⟨R, some GoMap.empty⟩).records u d = (decide (u ≠ R) && m.records u d) := by
  unfold GoMap.records
  rw [GoMap.lookup_store]
  by_cases h : R = u
  · subst h
    simp [Remote.HasDependency, GoMap.lookup, GoMap.empty, GoMap.lookupEntries]
  · have h2 : u ≠ R := fun hh => h hh.symm
    simp [h, h2]

theorem GoMap.records_store_dep (m : GoMap Remote) (R name : Str) (r : Remote)
    (deps : GoMap Dependency) (hr : m.lookup R = some r) (hd : r.Dependencies = some deps)
    (u d : Str) :
    (m.store R ⟨r.Url, some (deps.store name ⟨name⟩)⟩).records u d =
      (m.records u d || (decide (u = R) && decide (d = name))) := by
  unfold GoMap.records
  rw [GoMap.lookup_store]
  by_cases h : R = u
  · subst h
    by_cases h2 : name = d
    · subst h2
      simp [hr, Remote.HasDependency, hd, GoMap.lookup_store]
    · have h3 : ¬ d = name := fun hh => h2 hh.symm
      simp [hr, Remote.HasDependency, hd, GoMap.lookup_store, h2, h3]
  · have h2 : ¬ u = R := fun hh => h hh.symm
    simp [h, h2]

theorem GemfileLock.gem_addDependency_inv (g g1 : GemfileLock) (R t : Str)
    (h : g.addDependency R t = some g1) :
    ∃ r deps, g.Remotes.lookup R = some r ∧ r.Dependencies = some deps ∧
      g1 = ⟨g.Remotes.store R ⟨r.Url, some (deps.store t ⟨t⟩)⟩⟩ := by
  unfold GemfileLock.addDependency at h
  cases hl : g.Remotes.lookup R with
  | none => simp [hl, Remote.zero] at h
  | some r =>
    cases hd : r.Dependencies with
    | none => simp [hl, hd] at h
    | some deps =>
      simp only [hl, Option.getD_some, hd, Option.some.injEq] at h
      exact ⟨r, deps, rfl, hd, h.symm⟩

theorem YarnLock.yarn_addDependency_inv (y y1 : YarnLock) (R t : Str)
    (h : y.addDependency R t = some y1) :
    ∃ r deps, y.Remotes.lookup R = some r ∧ r.Dependencies = some deps ∧
      y1 = ⟨y.Remotes.store R ⟨r.Url, some (deps.store t ⟨t⟩)⟩⟩ := by
  unfold YarnLock.addDependency at h
  cases hl : y.Remotes.lookup R with
  | none => simp [hl, Remote.zero] at h
  | some r =>
    cases hd : r.Dependencies with
    | none => simp [hl, hd] at h
    | some deps =>
      simp only [hl, Option.getD_some, hd, Option.some.injEq] at h
      exact ⟨r, deps, rfl, hd, h.symm⟩

/-- The cases of one iteration of the Format A loop. -/
theorem GemfileLock.gem_parseLine_cases (s s1 : GemfileState) (line : Str)
    (h : GemfileLock.parseLine s line = some s1) :
    (HasPrefix line GEMFILE_REMOTE_PREFIX = true ∧
      s1 = { s with
        g := s.g.addRemote (TrimSpace (TrimPrefix line GEMFILE_REMOTE_PREFIX))
        currentRemoteName := TrimSpace (TrimPrefix line GEMFILE_REMOTE_PREFIX)
        readingRemote := true }) ∨
    (HasPrefix line GEMFILE_REMOTE_PREFIX = false ∧ s.readingRemote = true ∧
      HasPrefix line GEMFILE_SPEC_PREFIX = true ∧ s1 = { s with readingSpecs := true }) ∨
    (HasPrefix line GEMFILE_REMOTE_PREFIX = false ∧ s.readingSpecs = true ∧
      ∃ t more g1, Fields line = t :: more ∧
        s.g.addDependency s.currentRemoteName t = some g1 ∧
        s1 = { s with g := g1, currentDependencyName := t }) ∨
    (HasPrefix line GEMFILE_REMOTE_PREFIX = false ∧ line = [] ∧
      s1 = { s with readingRemote := false, readingSpecs := false }) ∨
    (HasPrefix line GEMFILE_REMOTE_PREFIX = false ∧ line ≠ [] ∧ s1 = s) := by
  unfold GemfileLock.parseLine at h
  by_cases c1 : HasPrefix line GEMFILE_REMOTE_PREFIX = true
  · rw [if_pos c1] at h
    exact Or.inl ⟨c1, (Option.some.inj h).symm⟩
  · rw [if_neg c1] at h
    have c1f : HasPrefix line GEMFILE_REMOTE_PREFIX = false := by simpa using c1
    by_cases c2 : (s.readingRemote && HasPrefix line GEMFILE_SPEC_PREFIX) = true
    · rw [if_pos c2] at h
      simp only [Bool.and_eq_true] at c2
      exact Or.inr (Or.inl ⟨c1f, c2.1, c2.2, (Option.some.inj h).symm⟩)
    · rw [if_neg c2] at h
      by_cases c3 : (s.readingSpecs && dependencyRegexp_MatchString line) = true
      · rw [if_pos c3] at h
        simp only [Bool.and_eq_true] at c3
        cases hf : Fields line with
        | nil => simp [hf] at h
        | cons t more =>
          cases ha : s.g.addDependency s.currentRemoteName t with
          | none => simp [hf, ha] at h
          | some g1 =>
            simp only [hf, ha, Option.map_some', Option.some.injEq] at h
            exact Or.inr (Or.inr (Or.inl ⟨c1f, c3.1, t, more, g1, rfl, ha, h.symm⟩))
      · rw [if_neg c3] at h
        by_cases c4 : line = []
        · rw [if_pos c4] at h
          exact Or.inr (Or.inr (Or.inr (Or.inl ⟨c1f, c4, (Option.some.inj h).symm⟩)))
        · rw [if_neg c4] at h
          exact Or.inr (Or.inr (Or.inr (Or.inr ⟨c1f, c4, (Option.some.inj h).symm⟩)))

/-- The cases of one iteration of the Format B loop. -/
theorem YarnLock.yarn_parseLine_cases (s s1 : YarnState) (line : Str)
    (h : YarnLock.parseLine s line = some s1) :
    (s.readingDep = false ∧ HasSuffix line YARN_DEPENDENCY_LINE_SUFFIX = true ∧
      ∃ n, YarnLock.headerName line = some n ∧
        s1 = { s with currentDependencyName := n, readingDep := true }) ∨
    (s.readingDep = true ∧ HasPrefix line YARN_REMOTE_PREFIX = true ∧
      ∃ remoteUrl more y2,
        SplitN (TrimPrefix line YARN_REMOTE_PREFIX)
          ("/".toList ++ s.currentDependencyName ++ "/".toList) 2 = remoteUrl :: more ∧
        (if (s.y.Remotes.lookup remoteUrl).isSome then s.y
          else s.y.addRemote remoteUrl).addDependency remoteUrl s.currentDependencyName =
            some y2 ∧
        s1 = { s with y := y2 }) ∨
    (line = [] ∧ s1 = { s with readingDep := false }) ∨
    (line ≠ [] ∧ s1 = s) := by
  unfold YarnLock.parseLine at h
  by_cases c1 : (!s.readingDep && HasSuffix line YARN_DEPENDENCY_LINE_SUFFIX) = true
  · rw [if_pos c1] at h
    simp only [Bool.and_eq_true, Bool.not_eq_true'] at c1
    cases hn : YarnLock.headerName line with
    | none => simp [hn] at h
    | some n =>
      simp only [hn, Option.map_some', Option.some.injEq] at h
      exact Or.inl ⟨c1.1, c1.2, n, rfl, h.symm⟩
  · rw [if_neg c1] at h
    by_cases c2 : (s.readingDep && HasPrefix line YARN_REMOTE_PREFIX) = true
    · rw [if_pos c2] at h
      simp only [Bool.and_eq_true] at c2
      dsimp only at h
      cases hsp : SplitN (TrimPrefix line YARN_REMOTE_PREFIX)
          ("/".toList ++ s.currentDependencyName ++ "/".toList) 2 with
      | nil =>
        rw [hsp] at h
        cases h
      | cons remoteUrl more =>
        rw [hsp] at h
        cases ha : (if (s.y.Remotes.lookup remoteUrl).isSome then s.y
            else s.y.addRemote remoteUrl).addDependency remoteUrl s.currentDependencyName with
        | none => simp [ha] at h
        | some y2 =>
          simp only [ha, Option.map_some', Option.some.injEq] at h
          exact Or.inr (Or.inl ⟨c2.1, c2.2, remoteUrl, more, y2, rfl, ha, h.symm⟩)
    · rw [if_neg c2] at h
      by_cases c4 : line = []
      · rw [if_pos c4] at h
        exact Or.inr (Or.inr (Or.inl ⟨c4, (Option.some.inj h).symm⟩))
      · rw [if_neg c4] at h
        exact Or.inr (Or.inr (Or.inr ⟨c4, (Option.some.inj h).symm⟩))

/-! ## The blank line (C8) -/

theorem GemfileLock.gem_parseLine_blank (s : GemfileState) :
    GemfileLock.parseLine s [] = some { s with readingRemote := false, readingSpecs := false } := by
  have h1 : HasPrefix [] GEMFILE_REMOTE_PREFIX = false := rfl
  have h2 : HasPrefix [] GEMFILE_SPEC_PREFIX = false := rfl
  have h3 : dependencyRegexp_MatchString [] = false := rfl
  unfold GemfileLock.parseLine
  rw [if_neg (by simp [h1]), if_neg (by simp [h2]), if_neg (by simp [h3]), if_pos rfl]

theorem YarnLock.yarn_parseLine_blank (s : YarnState) :
    YarnLock.parseLine s [] = some { s with readingDep := false } := by
  have h1 : HasSuffix [] YARN_DEPENDENCY_LINE_SUFFIX = false := rfl
  have h2 : HasPrefix [] YARN_REMOTE_PREFIX = false := rfl
  unfold YarnLock.parseLine
  rw [if_neg (by simp [h1]), if_neg (by simp [h2]), if_pos rfl]

/-- In the idle state a line without the remote marker leaves the state as it is. -/
theorem GemfileLock.gem_parseLine_idle (s : GemfileState) (line : Str)
    (hr : s.readingRemote = false) (hs : s.readingSpecs = false)
    (hline : HasPrefix line GEMFILE_REMOTE_PREFIX = false) :
    GemfileLock.parseLine s line = some s := by
  unfold GemfileLock.parseLine
  rw [if_neg (by simp [hline]), if_neg (by simp [hr]), if_neg (by simp [hs])]
  by_cases c4 : line = []
  · rw [if_pos c4]
    obtain ⟨g, a, b, rr, rs⟩ := s
    simp only at hr hs
    rw [hr, hs]
  · rw [if_neg c4]

theorem GemfileLock.gem_parseLines_idle (ls : List Str) (s : GemfileState)
    (hr : s.readingRemote = false) (hs : s.readingSpecs = false)
    (hls : ∀ l ∈ ls, HasPrefix l GEMFILE_REMOTE_PREFIX = false) :
    GemfileLock.parseLines s ls = some s := by
  induction ls with
  | nil => rfl
  | cons l rest ih =>
    rw [GemfileLock.parseLines,
      GemfileLock.gem_parseLine_idle s l hr hs (hls l (List.mem_cons_self l rest))]
    exact ih (fun x hx => hls x (List.mem_cons_of_mem l hx))

/-- Without the specs flag, lines without the specs marker add no dependency. -/
theorem GemfileLock.parseLines_no_specs (ls : List Str) (s : GemfileState)
    (hs : s.readingSpecs = false)
    (hls : ∀ l ∈ ls, HasPrefix l GEMFILE_SPEC_PREFIX = false) :
    ∃ s1, GemfileLock.parseLines s ls = some s1 ∧ s1.readingSpecs = false ∧
      ∀ u d, s1.g.Remotes.records u d = true → s.g.Remotes.records u d = true := by
  induction ls generalizing s with
  | nil => exact ⟨s, rfl, hs, fun _ _ h => h⟩
  | cons l rest ih =>
    have hl := hls l (List.mem_cons_self l rest)
    have hstep : ∃ s2, GemfileLock.parseLine s l = some s2 ∧ s2.readingSpecs = false ∧
        ∀ u d, s2.g.Remotes.records u d = true → s.g.Remotes.records u d = true := by
      unfold GemfileLock.parseLine
      by_cases c1 : HasPrefix l GEMFILE_REMOTE_PREFIX = true
      · rw [if_pos c1]
        refine ⟨_, rfl, hs, ?_⟩
        intro u d hrec
        simp only [GemfileLock.addRemote, GoMap.records_store_fresh, Bool.and_eq_true] at hrec
        exact hrec.2
      · rw [if_neg c1, if_neg (by simp [hl]), if_neg (by simp [hs])]
        by_cases c4 : l = []
        · rw [if_pos c4]
          exact ⟨_, rfl, rfl, fun _ _ h => h⟩
        · rw [if_neg c4]
          exact ⟨_, rfl, hs, fun _ _ h => h⟩
    obtain ⟨s2, h2, hs2, hrec2⟩ := hstep
    obtain ⟨s1, h1, hs1, hrec1⟩ := ih s2 hs2 (fun x hx => hls x (List.mem_cons_of_mem l hx))
    refine ⟨s1, ?_, hs1, fun u d h => hrec2 u d (hrec1 u d h)⟩
    rw [GemfileLock.parseLines, h2]
    exact h1

/-- What one Format A line can add to the model: only a dependency of the current remote. -/
theorem GemfileLock.gem_parseLine_records (s s1 : GemfileState) (line : Str)
    (h : GemfileLock.parseLine s line = some s1) (u d : Str)
    (hrec : s1.g.Remotes.records u d = true) :
    s.g.Remotes.records u d = true ∨
      (s.readingSpecs = true ∧ u = s.currentRemoteName ∧ s1.currentRemoteName = u) := by
  rcases GemfileLock.gem_parseLine_cases s s1 line h with
    ⟨_, rfl⟩ | ⟨_, _, _, rfl⟩ | ⟨_, hsp, t, more, g1, _, hadd, rfl⟩ | ⟨_, _, rfl⟩ | ⟨_, _, rfl⟩
  · simp only [GemfileLock.addRemote, GoMap.records_store_fresh, Bool.and_eq_true] at hrec
    exact Or.inl hrec.2
  · exact Or.inl hrec
  · obtain ⟨r, deps, hr, hd, rfl⟩ := GemfileLock.gem_addDependency_inv _ _ _ _ hadd
    simp only [GoMap.records_store_dep _ _ _ r deps hr hd, Bool.or_eq_true, Bool.and_eq_true,
      decide_eq_true_eq] at hrec
    rcases hrec with hrec | ⟨hu, _⟩
    · exact Or.inl hrec
    · exact Or.inr ⟨hsp, hu, hu.symm⟩
  · exact Or.inl hrec
  · exact Or.inl hrec

/-- Every dependency that a run of the Format A parser adds is stored under a
remote that belongs to `D`, when `D` holds the current remote of the starting
state (if a scope is open there) and every remote declared during the run. -/
theorem GemfileLock.gem_parseLines_records (ls : List Str) (s s1 : GemfileState) (D : Str → Prop)
    (hD : (s.readingRemote = true ∨ s.readingSpecs = true) → D s.currentRemoteName)
    (hdecl : ∀ l ∈ ls, HasPrefix l GEMFILE_REMOTE_PREFIX = true →
      D (TrimSpace (TrimPrefix l GEMFILE_REMOTE_PREFIX)))
    (h : GemfileLock.parseLines s ls = some s1) (u d : Str)
    (hrec : s1.g.Remotes.records u d = true) :
    s.g.Remotes.records u d = true ∨ D u := by
  induction ls generalizing s with
  | nil =>
    simp only [GemfileLock.parseLines, Option.some.injEq] at h
    subst h
    exact Or.inl hrec
  | cons l rest ih =>
    rw [GemfileLock.parseLines] at h
    cases hstep : GemfileLock.parseLine s l with
    | none => simp [hstep] at h
    | some s2 =>
      rw [hstep] at h
      have hD2 : (s2.readingRemote = true ∨ s2.readingSpecs = true) → D s2.currentRemoteName := by
        rcases GemfileLock.gem_parseLine_cases s s2 l hstep with
          ⟨hp, rfl⟩ | ⟨_, hrr, _, rfl⟩ | ⟨_, hsp, t, more, g1, _, _, rfl⟩ | ⟨_, _, rfl⟩ |
            ⟨_, _, rfl⟩
        · exact fun _ => hdecl l (List.mem_cons_self l rest) hp
        · exact fun _ => hD (Or.inl hrr)
        · exact fun _ => hD (Or.inr hsp)
        · rintro (hh | hh) <;> simp at hh
        · exact hD
      rcases ih s2 hD2 (fun x hx => hdecl x (List.mem_cons_of_mem l hx)) h with h2 | h2
      · rcases GemfileLock.gem_parseLine_records s s2 l hstep u d h2 with h3 | ⟨hsp, hu, _⟩
        · exact Or.inl h3
        · exact Or.inr (hu ▸ hD (Or.inr hsp))
      · exact Or.inr h2

/-- Outside a dependency block a line that does not end in a colon leaves the state as it is. -/
theorem YarnLock.yarn_parseLine_idle (s : YarnState) (line : Str) (hr : s.readingDep = false)
    (hline : HasSuffix line YARN_DEPENDENCY_LINE_SUFFIX = false) :
    YarnLock.parseLine s line = some s := by
  unfold YarnLock.parseLine
  rw [if_neg (by simp [hline]), if_neg (by simp [hr])]
  by_cases c4 : line = []
  · rw [if_pos c4]
    obtain ⟨y, a, rd⟩ := s
    simp only at hr
    rw [hr]
  · rw [if_neg c4]

theorem YarnLock.yarn_parseLines_idle (ls : List Str) (s : YarnState) (hr : s.readingDep = false)
    (hls : ∀ l ∈ ls, HasSuffix l YARN_DEPENDENCY_LINE_SUFFIX = false) :
    YarnLock.parseLines s ls = some s := by
  induction ls with
  | nil => rfl
  | cons l rest ih =>
    rw [YarnLock.parseLines, YarnLock.yarn_parseLine_idle s l hr (hls l (List.mem_cons_self l rest))]
    exact ih (fun x hx => hls x (List.mem_cons_of_mem l hx))

/-- The lazy registration of Format B records nothing new. -/
theorem YarnLock.records_lazy (y : YarnLock) (remoteUrl u d : Str)
    (h : (if (y.Remotes.lookup remoteUrl).isSome then y
      else y.addRemote remoteUrl).Remotes.records u d = true) :
    y.Remotes.records u d = true := by
  by_cases hp : (y.Remotes.lookup remoteUrl).isSome = true
  · rw [if_pos hp] at h
    exact h
  · rw [if_neg hp] at h
    simp only [YarnLock.addRemote, GoMap.records_store_fresh, Bool.and_eq_true] at h
    exact h.2

/-- What one Format B line can add to the model: only the current dependency name. -/
theorem YarnLock.yarn_parseLine_records (s s1 : YarnState) (line : Str)
    (h : YarnLock.parseLine s line = some s1) (u d : Str)
    (hrec : s1.y.Remotes.records u d = true) :
    s.y.Remotes.records u d = true ∨ (s.readingDep = true ∧ d = s.currentDependencyName) := by
  rcases YarnLock.yarn_parseLine_cases s s1 line h with
    ⟨_, _, n, _, rfl⟩ | ⟨hrd, _, remoteUrl, more, y2, _, hadd, rfl⟩ | ⟨_, rfl⟩ | ⟨_, rfl⟩
  · exact Or.inl hrec
  · obtain ⟨r, deps, hr, hd, rfl⟩ := YarnLock.yarn_addDependency_inv _ _ _ _ hadd
    simp only [GoMap.records_store_dep _ _ _ r deps hr hd, Bool.or_eq_true, Bool.and_eq_true,
      decide_eq_true_eq] at hrec
    rcases hrec with hrec | ⟨_, hname⟩
    · exact Or.inl (YarnLock.records_lazy s.y remoteUrl u d hrec)
    · exact Or.inr ⟨hrd, hname⟩
  · exact Or.inl hrec
  · exact Or.inl hrec

/-- Every dependency that a run of the Format B parser adds bears a name that
belongs to `D`, when `D` holds the current name of the starting state (if a
block is open there) and the name of every header read during the run. -/
theorem YarnLock.yarn_parseLines_records (ls : List Str) (s s1 : YarnState) (D : Str → Prop)
    (hD : s.readingDep = true → D s.currentDependencyName)
    (hdecl : ∀ l ∈ ls, ∀ n, HasSuffix l YARN_DEPENDENCY_LINE_SUFFIX = true →
      YarnLock.headerName l = some n → D n)
    (h : YarnLock.parseLines s ls = some s1) (u d : Str)
    (hrec : s1.y.Remotes.records u d = true) :
    s.y.Remotes.records u d = true ∨ D d := by
  induction ls generalizing s with
  | nil =>
    simp only [YarnLock.parseLines, Option.some.injEq] at h
    subst h
    exact Or.inl hrec
  | cons l rest ih =>
    rw [YarnLock.parseLines] at h
    cases hstep : YarnLock.parseLine s l with
    | none => simp [hstep] at h
    | some s2 =>
      rw [hstep] at h
      have hD2 : s2.readingDep = true → D s2.currentDependencyName := by
        rcases YarnLock.yarn_parseLine_cases s s2 l hstep with
          ⟨_, hsuf, n, hn, rfl⟩ | ⟨hrd, _, remoteUrl, more, y2, _, _, rfl⟩ | ⟨_, rfl⟩ | ⟨_, rfl⟩
        · exact fun _ => hdecl l (List.mem_cons_self l rest) n hsuf hn
        · exact fun _ => hD hrd
        · intro hh
          simp at hh
        · exact hD
      rcases ih s2 hD2 (fun x hx => hdecl x (List.mem_cons_of_mem l hx)) h with h2 | h2
      · rcases YarnLock.yarn_parseLine_records s s2 l hstep u d h2 with h3 | ⟨hrd, hname⟩
        · exact Or.inl h3
        · exact Or.inr (hname ▸ hD hrd)
      · exact Or.inr h2

/-- C8: in every state of either parser the empty line leaves the model
unchanged and clears the scope flags.  From a state with cleared flags, the
Format A parser adds no dependency while no line with the remote marker has
been followed by a line with the specs marker, and every dependency it adds
later is stored under a remote declared by a remote line read since; the
Format B parser leaves its state unchanged while no line ends in a colon, and
every dependency it adds later bears the name of a header read since. -/
theorem blank_line_resets_scope :
    (∀ s : GemfileState, GemfileLock.parseLine s [] =
      some { s with readingRemote := false, readingSpecs := false }) ∧
    (∀ s : YarnState, YarnLock.parseLine s [] = some { s with readingDep := false }) ∧
    (∀ (s : GemfileState) (ls1 ls2 : List Str),
      s.readingRemote = false → s.readingSpecs = false →
      (∀ l ∈ ls1, HasPrefix l GEMFILE_REMOTE_PREFIX = false) →
      (∀ l ∈ ls2, HasPrefix l GEMFILE_SPEC_PREFIX = false) →
      ∃ s1, GemfileLock.parseLines s (ls1 ++ ls2) = some s1 ∧
        ∀ u d, s1.g.Remotes.records u d = true → s.g.Remotes.records u d = true) ∧
    (∀ (s s1 : GemfileState) (ls : List Str),
      s.readingRemote = false → s.readingSpecs = false →
      GemfileLock.parseLines s ls = some s1 →
      ∀ u d, s1.g.Remotes.records u d = true →
        s.g.Remotes.records u d = true ∨
        ∃ l ∈ ls, HasPrefix l GEMFILE_REMOTE_PREFIX = true ∧
          u = TrimSpace (TrimPrefix l GEMFILE_REMOTE_PREFIX)) ∧
    (∀ (s : YarnState) (ls : List Str), s.readingDep = false →
      (∀ l ∈ ls, HasSuffix l YARN_DEPENDENCY_LINE_SUFFIX = false) →
      YarnLock.parseLines s ls = some s) ∧
    (∀ (s s1 : YarnState) (ls : List Str), s.readingDep = false →
      YarnLock.parseLines s ls = some s1 →
      ∀ u d, s1.y.Remotes.records u d = true →
        s.y.Remotes.records u d = true ∨
        ∃ l ∈ ls, HasSuffix l YARN_DEPENDENCY_LINE_SUFFIX = true ∧
          YarnLock.headerName l = some d) := by
  refine ⟨GemfileLock.gem_parseLine_blank, YarnLock.yarn_parseLine_blank, ?_, ?_, ?_, ?_⟩
  · intro s ls1 ls2 hr hs h1 h2
    obtain ⟨s1, hrun, _, hrec⟩ := GemfileLock.parseLines_no_specs ls2 s hs h2
    refine ⟨s1, ?_, hrec⟩
    have hsplit : ∀ (l1 l2 : List Str) (a b : GemfileState),
        GemfileLock.parseLines a l1 = some b →
        GemfileLock.parseLines a (l1 ++ l2) = GemfileLock.parseLines b l2 := by
      intro l1
      induction l1 with
      | nil =>
        intro l2 a b hab
        simp only [GemfileLock.parseLines, Option.some.injEq] at hab
        rw [hab, List.nil_append]
      | cons x xs ihx =>
        intro l2 a b hab
        rw [GemfileLock.parseLines] at hab
        rw [List.cons_append, GemfileLock.parseLines]
        cases hx : GemfileLock.parseLine a x with
        | none => simp [hx] at hab
        | some c =>
          rw [hx] at hab
          exact ihx l2 c b hab
    rw [hsplit ls1 ls2 s s (GemfileLock.gem_parseLines_idle ls1 s hr hs h1)]
    exact hrun
  · intro s s1 ls hr hs hrun u d hrec
    exact GemfileLock.gem_parseLines_records ls s s1
      (fun x => ∃ l ∈ ls, HasPrefix l GEMFILE_REMOTE_PREFIX = true ∧
        x = TrimSpace (TrimPrefix l GEMFILE_REMOTE_PREFIX))
      (by
        rintro (h | h)
        · rw [hr] at h
          cases h
        · rw [hs] at h
          cases h)
      (fun l hl hp => ⟨l, hl, hp, rfl⟩) hrun u d hrec
  · intro s ls hr hls
    exact YarnLock.yarn_parseLines_idle ls s hr hls
  · intro s s1 ls hr hrun u d hrec
    exact YarnLock.yarn_parseLines_records ls s s1
      (fun x => ∃ l ∈ ls, HasSuffix l YARN_DEPENDENCY_LINE_SUFFIX = true ∧
        YarnLock.headerName l = some x)
      (by
        intro h
        rw [hr] at h
        cases h)
      (fun l hl n hsuf hn => ⟨l, hl, hsuf, hn⟩) hrun u d hrec

/-- Witness of C8: the blank line in the scope of the scenario; a dependency
line and a remote line without specs line after the blank line; a resolved
line outside a dependency block. -/
theorem blank_line_resets_scope_witness :
    GemfileLock.parseLine scenarioScope [] =
      some { scenarioScope with readingRemote := false, readingSpecs := false } ∧
    (∃ s1, GemfileLock.parseLines (GemfileLock.initialState scenarioModel)
        (["    qux (3.0)".toList] ++
          ["  remote: https://rubygems.org/".toList, "    qux (3.0)".toList]) = some s1 ∧
      ∀ u d, s1.g.Remotes.records u d = true →
        (GemfileLock.initialState scenarioModel).g.Remotes.records u d = true) ∧
    YarnLock.parseLines (YarnLock.initialState registryExample) [strayResolved] =
      some (YarnLock.initialState registryExample) :=
  ⟨blank_line_resets_scope.1 scenarioScope,
    blank_line_resets_scope.2.2.1 (GemfileLock.initialState scenarioModel)
      ["    qux (3.0)".toList]
      ["  remote: https://rubygems.org/".toList, "    qux (3.0)".toList]
      rfl rfl (by decide) (by decide),
    blank_line_resets_scope.2.2.2.2.1 (YarnLock.initialState registryExample)
      [strayResolved] rfl (by decide)⟩

/-! ## Growth of the model during a parse (C9) -/

theorem GoMap.records_lookup (m : GoMap Remote) (u d : Str) (h : m.records u d = true) :
    (m.lookup u).isSome = true := by
  unfold GoMap.records at h
  cases hl : m.lookup u with
  | none => simp [hl] at h
  | some r => rfl

/-- One line of Format B removes no remote and no dependency. -/
theorem YarnLock.yarn_parseLine_monotone (s s1 : YarnState) (line : Str)
    (h : YarnLock.parseLine s line = some s1) :
    (∀ u, (s.y.Remotes.lookup u).isSome = true → (s1.y.Remotes.lookup u).isSome = true) ∧
    (∀ u d, s.y.Remotes.records u d = true → s1.y.Remotes.records u d = true) := by
  rcases YarnLock.yarn_parseLine_cases s s1 line h with
    ⟨_, _, n, _, rfl⟩ | ⟨hrd, _, remoteUrl, more, y2, _, hadd, rfl⟩ | ⟨_, rfl⟩ | ⟨_, rfl⟩
  · exact ⟨fun _ h => h, fun _ _ h => h⟩
  · obtain ⟨r, deps, hr, hd, rfl⟩ := YarnLock.yarn_addDependency_inv _ _ _ _ hadd
    have hkeep : ∀ u, (s.y.Remotes.lookup u).isSome = true →
        ((if (s.y.Remotes.lookup remoteUrl).isSome then s.y
          else s.y.addRemote remoteUrl).Remotes.lookup u).isSome = true := by
      intro u hu
      by_cases hp : (s.y.Remotes.lookup remoteUrl).isSome = true
      · rw [if_pos hp]
        exact hu
      · rw [if_neg hp]
        simp only [YarnLock.addRemote, GoMap.lookup_store]
        by_cases hk : remoteUrl = u
        · simp [hk]
        · simp [hk, hu]
    have hrecs : ∀ u d, s.y.Remotes.records u d = true →
        (if (s.y.Remotes.lookup remoteUrl).isSome then s.y
          else s.y.addRemote remoteUrl).Remotes.records u d = true := by
      intro u d hu
      by_cases hp : (s.y.Remotes.lookup remoteUrl).isSome = true
      · rw [if_pos hp]
        exact hu
      · rw [if_neg hp]
        have hne : u ≠ remoteUrl := by
          intro hk
          subst hk
          exact hp (GoMap.records_lookup _ _ _ hu)
        simp [YarnLock.addRemote, GoMap.records_store_fresh, hne, hu]
    constructor
    · intro u hu
      simp only [GoMap.lookup_store]
      by_cases hk : remoteUrl = u
      · simp [hk]
      · simp only [hk, if_false]
        exact hkeep u hu
    · intro u d hu
      simp only [GoMap.records_store_dep _ _ _ r deps hr hd, Bool.or_eq_true]
      exact Or.inl (hrecs u d hu)
  · exact ⟨fun _ h => h, fun _ _ h => h⟩
  · exact ⟨fun _ h => h, fun _ _ h => h⟩

/-- One line of Format A removes no remote; it removes no dependency unless it
is a remote line that names a URL already in the model. -/
theorem GemfileLock.gem_parseLine_monotone (s s1 : GemfileState) (line : Str)
    (h : GemfileLock.parseLine s line = some s1) :
    (∀ u, (s.g.Remotes.lookup u).isSome = true → (s1.g.Remotes.lookup u).isSome = true) ∧
    ((HasPrefix line GEMFILE_REMOTE_PREFIX = true →
        s.g.Remotes.lookup (TrimSpace (TrimPrefix line GEMFILE_REMOTE_PREFIX)) = none) →
      ∀ u d, s.g.Remotes.records u d = true → s1.g.Remotes.records u d = true) := by
  rcases GemfileLock.gem_parseLine_cases s s1 line h with
    ⟨hp, rfl⟩ | ⟨_, _, _, rfl⟩ | ⟨_, hsp, t, more, g1, _, hadd, rfl⟩ | ⟨_, _, rfl⟩ | ⟨_, _, rfl⟩
  · constructor
    · intro u hu
      simp only [GemfileLock.addRemote, GoMap.lookup_store]
      by_cases hk : TrimSpace (TrimPrefix line GEMFILE_REMOTE_PREFIX) = u
      · simp [hk]
      · simp [hk, hu]
    · intro hnew u d hu
      have hne : u ≠ TrimSpace (TrimPrefix line GEMFILE_REMOTE_PREFIX) := by
        intro hk
        have := GoMap.records_lookup _ _ _ hu
        rw [hk, hnew hp] at this
        cases this
      simp [GemfileLock.addRemote, GoMap.records_store_fresh, hne, hu]
  · exact ⟨fun _ h => h, fun _ _ _ h => h⟩
  · obtain ⟨r, deps, hr, hd, rfl⟩ := GemfileLock.gem_addDependency_inv _ _ _ _ hadd
    constructor
    · intro u hu
      simp only [GoMap.lookup_store]
      by_cases hk : s.currentRemoteName = u
      · simp [hk]
      · simp [hk, hu]
    · intro _ u d hu
      simp only [GoMap.records_store_dep _ _ _ r deps hr hd, Bool.or_eq_true]
      exact Or.inl hu
  · exact ⟨fun _ h => h, fun _ _ _ h => h⟩
  · exact ⟨fun _ h => h, fun _ _ _ h => h⟩

/-- C9, the Format A parser on a remote declared twice: after the scenario's
lines and a blank line the model records `foo` under `https://rubygems.org/`;
after one more line that declares the same remote again, the remote is still a
key of the model but records `foo` no longer. -/
theorem GemfileLock.redeclared_remote_drops_dependencies :
    (GemfileLock.ParseLockFile NewGemfileLock (scenarioLines ++ [[]])).map
        (fun g => g.Remotes.records "https://rubygems.org/".toList "foo".toList) = some true ∧
    (GemfileLock.ParseLockFile NewGemfileLock redeclaredLines).map
        (fun g => g.Remotes.records "https://rubygems.org/".toList "foo".toList) = some false ∧
    GemfileLock.ParseLockFile NewGemfileLock redeclaredLines =
      some ⟨⟨[("https://rubygems.org/".toList,
        ⟨"https://rubygems.org/".toList, some GoMap.empty⟩)]⟩⟩ := by
  decide

/-! ## Format B reads in bounds (C10) -/

theorem HasSuffix_iff (s suffix : Str) : HasSuffix s suffix = true ↔ ∃ pre, s = pre ++ suffix := by
  unfold HasSuffix
  rw [ List.isSuffixOf_iff_suffix]
  constructor
  · rintro ⟨t, ht⟩
    exact ⟨t, ht.symm⟩
  · rintro ⟨t, ht⟩
    exact ⟨t, ht.symm⟩

/-- A line that ends in a colon is not empty after one leading quote is stripped. -/
theorem TrimPrefix_quote_ne_nil (line : Str)
    (h : HasSuffix line YARN_DEPENDENCY_LINE_SUFFIX = true) :
    TrimPrefix line [Char.ofNat 0x22] ≠ [] := by
  obtain ⟨pre, rfl⟩ := (HasSuffix_iff _ _).1 h
  have hsuf : YARN_DEPENDENCY_LINE_SUFFIX = [':'] := rfl
  rw [hsuf]
  unfold TrimPrefix
  cases pre with
  | nil =>
    have hq : HasPrefix ([] ++ [':']) [Char.ofNat 0x22] = false := by decide
    rw [if_neg (by rw [hq]; decide)]
    simp
  | cons c cs =>
    by_cases hp : HasPrefix (c :: cs ++ [':']) [Char.ofNat 0x22] = true
    · rw [if_pos hp]
      simp
    · rw [if_neg hp]
      simp

/-- A split in two around a non-empty separator has an element `[0]`. -/
theorem SplitN_two_ne_nil (s sep : Str) (hsep : sep ≠ []) : SplitN s sep 2 ≠ [] := by
  unfold SplitN
  simp only [hsep, if_false]
  unfold splitLoop
  cases cutAtFirst sep s with
  | none => simp
  | some p => simp

theorem YarnLock.headerName_total (line : Str)
    (h : HasSuffix line YARN_DEPENDENCY_LINE_SUFFIX = true) :
    ∃ n, YarnLock.headerName line = some n := by
  cases ht : TrimPrefix line [Char.ofNat 0x22] with
  | nil => exact absurd ht (TrimPrefix_quote_ne_nil line h)
  | cons c rest =>
    rw [YarnLock.headerName_of_trim line rest c ht]
    by_cases hc : c = '@'
    · rw [if_pos hc]
      obtain ⟨hd, more, hsplit, _, _⟩ := SplitN_separator_head rest
      rw [hsplit]
      exact ⟨_, rfl⟩
    · rw [if_neg hc]
      obtain ⟨hd, more, hsplit, _, _⟩ := SplitN_separator_head (c :: rest)
      rw [hsplit]
      exact ⟨_, rfl⟩

theorem GoMap.NoNil_store (m : GoMap Remote) (hm : m.NoNil) (k : Str) (r : Remote)
    (deps : GoMap Dependency) (hr : r.Dependencies = some deps) : (m.store k r).NoNil := by
  intro u r1 hl
  rw [GoMap.lookup_store] at hl
  by_cases hk : k = u
  · rw [if_pos hk] at hl
    cases hl
    exact ⟨deps, hr⟩
  · rw [if_neg hk] at hl
    exact hm u r1 hl

theorem YarnLock.yarn_addDependency_eq (y : YarnLock) (remoteUrl name : Str) (r : Remote)
    (deps : GoMap Dependency) (hr : y.Remotes.lookup remoteUrl = some r)
    (hd : r.Dependencies = some deps) :
    y.addDependency remoteUrl name =
      some ⟨y.Remotes.store remoteUrl ⟨r.Url, some (deps.store name ⟨name⟩)⟩⟩ := by
  unfold YarnLock.addDependency
  simp only [hr, Option.getD_some, hd]

/-- One iteration of the Format B loop completes on a model without nil maps,
and leaves such a model. -/
theorem YarnLock.parseLine_total (s : YarnState) (line : Str) (hm : s.y.Remotes.NoNil) :
    ∃ s1, YarnLock.parseLine s line = some s1 ∧ s1.y.Remotes.NoNil := by
  unfold YarnLock.parseLine
  by_cases c1 : (!s.readingDep && HasSuffix line YARN_DEPENDENCY_LINE_SUFFIX) = true
  · rw [if_pos c1]
    simp only [Bool.and_eq_true, Bool.not_eq_true'] at c1
    obtain ⟨n, hn⟩ := YarnLock.headerName_total line c1.2
    rw [hn]
    exact ⟨_, rfl, hm⟩
  · rw [if_neg c1]
    by_cases c2 : (s.readingDep && HasPrefix line YARN_REMOTE_PREFIX) = true
    · rw [if_pos c2]
      dsimp only
      cases hsp : SplitN (TrimPrefix line YARN_REMOTE_PREFIX)
          ("/".toList ++ s.currentDependencyName ++ "/".toList) 2 with
      | nil => exact absurd hsp (SplitN_two_ne_nil _ _ (by simp))
      | cons remoteUrl more =>
        dsimp only
        have hy1 : ∃ r deps,
            (if (s.y.Remotes.lookup remoteUrl).isSome then s.y
              else s.y.addRemote remoteUrl).Remotes.lookup remoteUrl = some r ∧
            r.Dependencies = some deps ∧
            (if (s.y.Remotes.lookup remoteUrl).isSome then s.y
              else s.y.addRemote remoteUrl).Remotes.NoNil := by
          cases hl : s.y.Remotes.lookup remoteUrl with
          | some r =>
            obtain ⟨deps, hd⟩ := hm remoteUrl r hl
            simp only [Option.isSome_some, if_true]
            exact ⟨r, deps, hl, hd, hm⟩
          | none =>
            simp only [Option.isSome_none, Bool.false_eq_true, if_false]
            refine ⟨⟨remoteUrl, some GoMap.empty⟩, GoMap.empty, ?_, rfl, ?_⟩
            · simp [YarnLock.addRemote, GoMap.lookup_store]
            · exact GoMap.NoNil_store _ hm _ _ GoMap.empty rfl
        obtain ⟨r, deps, hr, hd, hnn⟩ := hy1
        rw [YarnLock.yarn_addDependency_eq _ remoteUrl s.currentDependencyName r deps hr hd]
        exact ⟨_, rfl, GoMap.NoNil_store _ hnn _ _ (deps.store s.currentDependencyName
          ⟨s.currentDependencyName⟩) rfl⟩
    · rw [if_neg c2]
      by_cases c4 : line = []
      · rw [if_pos c4]
        exact ⟨_, rfl, hm⟩
      · rw [if_neg c4]
        exact ⟨_, rfl, hm⟩

theorem YarnLock.parseLines_total (lines : List Str) (s : YarnState) (hm : s.y.Remotes.NoNil) :
    ∃ s1, YarnLock.parseLines s lines = some s1 ∧ s1.y.Remotes.NoNil := by
  induction lines generalizing s with
  | nil => exact ⟨s, rfl, hm⟩
  | cons l rest ih =>
    obtain ⟨s2, h2, hm2⟩ := YarnLock.parseLine_total s l hm
    obtain ⟨s1, h1, hm1⟩ := ih s2 hm2
    refine ⟨s1, ?_, hm1⟩
    rw [YarnLock.parseLines, h2]
    exact h1

/-- C10: the Format B parser never indexes out of range.  A line that ends in
a colon is non-empty after one leading quote is stripped, so that its element
`[0]` exists; a split in two around a non-empty separator has an element
`[0]`; the name of every header line is defined; one iteration of the loop
completes in every state whose model has no nil map; and the parse of every
sequence of lines into a fresh model completes. -/
theorem YarnLock.never_out_of_bounds :
    (∀ line : Str, HasSuffix line YARN_DEPENDENCY_LINE_SUFFIX = true →
      TrimPrefix line [Char.ofNat 0x22] ≠ []) ∧
    (∀ s sep : Str, sep ≠ [] → SplitN s sep 2 ≠ []) ∧
    (∀ line : Str, HasSuffix line YARN_DEPENDENCY_LINE_SUFFIX = true →
      ∃ n, YarnLock.headerName line = some n) ∧
    (∀ (s : YarnState) (line : Str), s.y.Remotes.NoNil →
      ∃ s1, YarnLock.parseLine s line = some s1 ∧ s1.y.Remotes.NoNil) ∧
    (∀ lines : List Str, ∃ y, YarnLock.ParseLockFile NewYarnLock lines = some y) := by
  refine ⟨TrimPrefix_quote_ne_nil, SplitN_two_ne_nil, YarnLock.headerName_total,
    YarnLock.parseLine_total, ?_⟩
  intro lines
  have hfresh : (YarnLock.initialState NewYarnLock).y.Remotes.NoNil := by
    intro u r hl
    cases hl
  obtain ⟨s1, h1, _⟩ := YarnLock.parseLines_total lines _ hfresh
  exact ⟨s1.y, by rw [YarnLock.ParseLockFile, h1]; rfl⟩

/-- Witness of C10: the degenerate headers made of a colon alone, and of a
quote and a colon, have a name and the parse of both completes. -/
theorem YarnLock.never_out_of_bounds_witness :
    TrimPrefix ([Char.ofNat 0x22] ++ ":".toList) [Char.ofNat 0x22] ≠ [] ∧
    (∃ n, YarnLock.headerName ":".toList = some n) ∧
    (∃ y, YarnLock.ParseLockFile NewYarnLock
      [[Char.ofNat 0x22] ++ ":".toList, strayResolved, [], ":".toList, "@:".toList] = some y) :=
  ⟨YarnLock.never_out_of_bounds.1 _ (by decide),
    YarnLock.never_out_of_bounds.2.2.1 _ (by decide),
    YarnLock.never_out_of_bounds.2.2.2.2 _⟩

/-! ## Format A on every input (C11) -/

theorem fieldsLoop_ne_nil (s cur : Str)
    (h : cur ≠ [] ∨ ∃ c ∈ s, unicode_IsSpace c = false) : fieldsLoop s cur ≠ [] := by
  induction s generalizing cur with
  | nil =>
    rcases h with h | ⟨c, hc, _⟩
    · rw [fieldsLoop, if_neg h]
      exact List.cons_ne_nil _ _
    · exact absurd hc (List.not_mem_nil c)
  | cons a rest ih =>
    by_cases ha : unicode_IsSpace a = true
    · rw [fieldsLoop_cons_space a rest cur ha]
      by_cases hcur : cur = []
      · rw [if_pos hcur]
        apply ih
        rcases h with h | ⟨c, hc, hsp⟩
        · exact absurd hcur h
        · rcases List.mem_cons.1 hc with rfl | hc
          · rw [ha] at hsp
            cases hsp
          · exact Or.inr ⟨c, hc, hsp⟩
      · rw [if_neg hcur]
        exact List.cons_ne_nil _ _
    · rw [fieldsLoop_cons_token a rest cur (by simpa using ha)]
      exact ih _ (Or.inl (by simp))

/-- A line with a character that is not white space has a first field. -/
theorem Fields_ne_nil (line : Str) (h : ∃ c ∈ line, unicode_IsSpace c = false) :
    Fields line ≠ [] :=
  fieldsLoop_ne_nil line [] (Or.inr h)

/-- One iteration of the Format A loop completes in a state that satisfies the
scope invariant, unless the line passes the dependency pattern and has no field. -/
theorem GemfileLock.gem_parseLine_total (s : GemfileState) (line : Str) (hinv : s.ScopeInv)
    (hsafe : dependencyRegexp_MatchString line = true → Fields line ≠ []) :
    ∃ s1, GemfileLock.parseLine s line = some s1 := by
  unfold GemfileLock.parseLine
  by_cases c1 : HasPrefix line GEMFILE_REMOTE_PREFIX = true
  · rw [if_pos c1]
    exact ⟨_, rfl⟩
  · rw [if_neg c1]
    by_cases c2 : (s.readingRemote && HasPrefix line GEMFILE_SPEC_PREFIX) = true
    · rw [if_pos c2]
      exact ⟨_, rfl⟩
    · rw [if_neg c2]
      by_cases c3 : (s.readingSpecs && dependencyRegexp_MatchString line) = true
      · rw [if_pos c3]
        simp only [Bool.and_eq_true] at c3
        obtain ⟨r, deps, hr, hd⟩ := hinv.2 (hinv.1 c3.1)
        cases hf : Fields line with
        | nil => exact absurd hf (hsafe c3.2)
        | cons t more =>
          simp only [GemfileLock.gem_addDependency_eq s.g s.currentRemoteName t r deps hr hd,
            Option.map_some']
          exact ⟨_, rfl⟩
      · rw [if_neg c3]
        by_cases c4 : line = []
        · rw [if_pos c4]
          exact ⟨_, rfl⟩
        · rw [if_neg c4]
          exact ⟨_, rfl⟩

/-- The parse of Format A completes on every text none of whose lines passes
the dependency pattern without having a field. -/
theorem GemfileLock.gem_parseLines_total (lines : List Str) (s : GemfileState) (hinv : s.ScopeInv)
    (hsafe : ∀ l ∈ lines, dependencyRegexp_MatchString l = true → Fields l ≠ []) :
    ∃ s1, GemfileLock.parseLines s lines = some s1 := by
  induction lines generalizing s with
  | nil => exact ⟨s, rfl⟩
  | cons l rest ih =>
    obtain ⟨s2, h2⟩ := GemfileLock.gem_parseLine_total s l hinv (hsafe l (List.mem_cons_self l rest))
    obtain ⟨s1, h1⟩ := ih s2 (GemfileLock.parseLine_ScopeInv s s2 l hinv h2)
      (fun x hx => hsafe x (List.mem_cons_of_mem l hx))
    exact ⟨s1, by rw [GemfileLock.parseLines, h2]; exact h1⟩

/-- C11 at the failing inputs: in the dependency-reading scope a line of four
spaces and a vertical tab, or of four spaces and a no-break space, passes the
dependency pattern, has no field, and the parse of the text into a fresh model
ends in the index-out-of-range panic instead of a model. -/
theorem GemfileLock.fields_index_out_of_range :
    dependencyRegexp_MatchString ("    ".toList ++ [Char.ofNat 0x0B]) = true ∧
    Fields ("    ".toList ++ [Char.ofNat 0x0B]) = [] ∧
    GemfileLock.ParseLockFile NewGemfileLock verticalTabLines = none ∧
    dependencyRegexp_MatchString ("    ".toList ++ [Char.ofNat 0xA0]) = true ∧
    Fields ("    ".toList ++ [Char.ofNat 0xA0]) = [] ∧
    GemfileLock.ParseLockFile NewGemfileLock noBreakSpaceLines = none := by
  decide

/-! ## Registration of a declared remote (C13) -/

/-- One Format A line keeps a remote that is stored under its own URL, and a
remote line stores such a remote. -/
theorem GemfileLock.parseLine_registers (s s1 : GemfileState) (line : Str)
    (h : GemfileLock.parseLine s line = some s1) :
    (∀ k, (∃ r, s.g.Remotes.lookup k = some r ∧ r.Url = k) →
      ∃ r, s1.g.Remotes.lookup k = some r ∧ r.Url = k) ∧
    (HasPrefix line GEMFILE_REMOTE_PREFIX = true →
      ∃ r, s1.g.Remotes.lookup (TrimSpace (TrimPrefix line GEMFILE_REMOTE_PREFIX)) = some r ∧
        r.Url = TrimSpace (TrimPrefix line GEMFILE_REMOTE_PREFIX)) := by
  rcases GemfileLock.gem_parseLine_cases s s1 line h with
    ⟨hp, rfl⟩ | ⟨hp, _, _, rfl⟩ | ⟨hp, hsp, t, more, g1, _, hadd, rfl⟩ | ⟨hp, _, rfl⟩ |
      ⟨hp, _, rfl⟩
  · constructor
    · rintro k ⟨r, hr, hu⟩
      simp only [GemfileLock.addRemote, GoMap.lookup_store]
      by_cases hk : TrimSpace (TrimPrefix line GEMFILE_REMOTE_PREFIX) = k
      · rw [if_pos hk]
        exact ⟨_, rfl, hk⟩
      · rw [if_neg hk]
        exact ⟨r, hr, hu⟩
    · intro _
      simp only [GemfileLock.addRemote, GoMap.lookup_store, if_true]
      exact ⟨_, rfl, rfl⟩
  · exact ⟨fun _ hk => hk, fun h2 => by rw [hp] at h2; cases h2⟩
  · obtain ⟨r0, deps, hr0, hd, rfl⟩ := GemfileLock.gem_addDependency_inv _ _ _ _ hadd
    refine ⟨?_, fun h2 => by rw [hp] at h2; cases h2⟩
    rintro k ⟨r, hr, hu⟩
    simp only [GoMap.lookup_store]
    by_cases hk : s.currentRemoteName = k
    · rw [if_pos hk]
      subst hk
      rw [hr0] at hr
      cases hr
      exact ⟨_, rfl, hu⟩
    · rw [if_neg hk]
      exact ⟨r, hr, hu⟩
  · exact ⟨fun _ hk => hk, fun h2 => by rw [hp] at h2; cases h2⟩
  · exact ⟨fun _ hk => hk, fun h2 => by rw [hp] at h2; cases h2⟩

theorem GemfileLock.parseLines_registers (lines : List Str) (s s1 : GemfileState)
    (h : GemfileLock.parseLines s lines = some s1) :
    (∀ k, (∃ r, s.g.Remotes.lookup k = some r ∧ r.Url = k) →
      ∃ r, s1.g.Remotes.lookup k = some r ∧ r.Url = k) ∧
    (∀ l ∈ lines, HasPrefix l GEMFILE_REMOTE_PREFIX = true →
      ∃ r, s1.g.Remotes.lookup (TrimSpace (TrimPrefix l GEMFILE_REMOTE_PREFIX)) = some r ∧
        r.Url = TrimSpace (TrimPrefix l GEMFILE_REMOTE_PREFIX)) := by
  induction lines generalizing s with
  | nil =>
    simp only [GemfileLock.parseLines, Option.some.injEq] at h
    subst h
    exact ⟨fun _ hk => hk, fun l hl => absurd hl (List.not_mem_nil l)⟩
  | cons x rest ih =>
    rw [GemfileLock.parseLines] at h
    cases hstep : GemfileLock.parseLine s x with
    | none => simp [hstep] at h
    | some s2 =>
      rw [hstep] at h
      obtain ⟨hkeep, hnew⟩ := GemfileLock.parseLine_registers s s2 x hstep
      obtain ⟨hkeep2, hnew2⟩ := ih s2 h
      refine ⟨fun k hk => hkeep2 k (hkeep k hk), ?_⟩
      intro l hl hp
      rcases List.mem_cons.1 hl with rfl | hl
      · exact hkeep2 _ (hnew hp)
      · exact hnew2 l hl hp

theorem byteLen_replicate_a (n : Nat) : byteLen (List.replicate n 'a') = n := by
  induction n with
  | zero => rfl
  | succ k ih =>
    have h1 : Char.utf8Size 'a' = 1 := by decide
    have hstep : byteLen (List.replicate (k + 1) 'a') =
        Char.utf8Size 'a' + byteLen (List.replicate k 'a') := rfl
    rw [hstep, ih, h1]
    omega

/-- A line that begins with the remote marker still does after `dropCR`. -/
theorem HasPrefix_dropCR (l : Str) (h : HasPrefix l GEMFILE_REMOTE_PREFIX = true) :
    HasPrefix (dropCR l) GEMFILE_REMOTE_PREFIX = true := by
  obtain ⟨rest, rfl⟩ := (HasPrefix_iff _ _).1 h
  unfold dropCR
  by_cases hcr : (GEMFILE_REMOTE_PREFIX ++ rest).getLast? = some (Char.ofNat 0x0D)
  · rw [if_pos hcr]
    cases hrest : rest with
    | nil =>
      rw [hrest] at hcr
      revert hcr
      decide
    | cons c cs =>
      rw [List.dropLast_append_of_ne_nil _ (List.cons_ne_nil c cs)]
      exact (HasPrefix_iff _ _).2 ⟨_, rfl⟩
  · rw [if_neg hcr]
    exact (HasPrefix_iff _ _).2 ⟨rest, rfl⟩

theorem TrimSpace_append_space (s : Str) (c : Char) (hc : unicode_IsSpace c = true) :
    TrimSpace (s ++ [c]) = TrimSpace s := by
  unfold TrimSpace
  congr 1
  induction s with
  | nil =>
    simp only [List.nil_append, List.dropWhile_cons, hc, if_true, List.dropWhile_nil]
  | cons a rest ih =>
    by_cases ha : unicode_IsSpace a = true
    · simp only [List.cons_append, List.dropWhile_cons, ha, if_true]
      exact ih
    · simp only [List.cons_append, List.dropWhile_cons, ha, Bool.false_eq_true, if_false]
      rw [← List.cons_append, List.reverse_append]
      simp only [List.reverse_cons, List.reverse_nil, List.nil_append, List.singleton_append,
        List.dropWhile_cons, hc, if_true]

/-- The carriage return that the scanner drops is white space, which
`strings.TrimSpace` removes as well. -/
theorem TrimSpace_dropCR (s : Str) : TrimSpace (dropCR s) = TrimSpace s := by
  unfold dropCR
  by_cases hcr : s.getLast? = some (Char.ofNat 0x0D)
  · rw [if_pos hcr]
    obtain ⟨ys, rfl⟩ := List.getLast?_eq_some_iff.1 hcr
    rw [List.dropLast_concat]
    exact (TrimSpace_append_space ys _ (by decide)).symm
  · rw [if_neg hcr]

/-- The trimmed remainder of a remote line is the same with and without the
carriage return that the scanner drops. -/
theorem remainder_dropCR (l : Str) (h : HasPrefix l GEMFILE_REMOTE_PREFIX = true) :
    TrimSpace (TrimPrefix (dropCR l) GEMFILE_REMOTE_PREFIX) =
      TrimSpace (TrimPrefix l GEMFILE_REMOTE_PREFIX) := by
  obtain ⟨rest, rfl⟩ := (HasPrefix_iff _ _).1 h
  have hcut : ∀ r : Str, TrimPrefix (GEMFILE_REMOTE_PREFIX ++ r) GEMFILE_REMOTE_PREFIX = r := by
    intro r
    unfold TrimPrefix
    rw [if_pos ((HasPrefix_iff _ _).2 ⟨r, rfl⟩), List.drop_left]
  cases hrest : rest with
  | nil =>
    have hd : dropCR (GEMFILE_REMOTE_PREFIX ++ []) = GEMFILE_REMOTE_PREFIX ++ [] := by decide
    rw [hd]
  | cons c cs =>
    have hd : dropCR (GEMFILE_REMOTE_PREFIX ++ c :: cs) =
        GEMFILE_REMOTE_PREFIX ++ dropCR (c :: cs) := by
      unfold dropCR
      rw [List.getLast?_append_of_ne_nil _ (List.cons_ne_nil c cs)]
      by_cases hcr : (c :: cs).getLast? = some (Char.ofNat 0x0D)
      · rw [if_pos hcr, if_pos hcr, List.dropLast_append_of_ne_nil _ (List.cons_ne_nil c cs)]
      · rw [if_neg hcr, if_neg hcr]
    rw [hd, hcut, hcut, TrimSpace_dropCR]

/-- C13 as stated fails: the text whose first line has 65536 bytes and whose
second line declares the remote `https://rubygems.org/` is parsed into the
empty model, because the scanner stops at the first line: the remote of a line
of the text is not registered. -/
theorem GemfileLock.remote_after_long_line_unregistered :
    "  remote: https://rubygems.org/".toList ∈ longLineText ∧
    HasPrefix "  remote: https://rubygems.org/".toList GEMFILE_REMOTE_PREFIX = true ∧
    GemfileLock.ParseLockFileText NewGemfileLock longLineText = some NewGemfileLock ∧
    NewGemfileLock.Remotes.lookup
      (TrimSpace (TrimPrefix "  remote: https://rubygems.org/".toList GEMFILE_REMOTE_PREFIX)) =
        none := by
  refine ⟨?_, by decide, ?_, by decide⟩
  · simp [longLineText]
  · have hscan : scanLines longLineText = [] := by
      unfold scanLines longLineText
      rw [List.takeWhile_cons, if_neg (by simp [byteLen_replicate_a])]
      rfl
    unfold GemfileLock.ParseLockFileText
    rw [hscan]
    rfl

/-- C13 as amended: whenever the Format A parse of a text returns, the model
holds, for every line of the text that begins with the remote marker and
stands before the first line of 64 KiB or more, a remote under the trimmed
remainder of the line whose `Url` is that same string; the parse returns on
every text of which no scanned line passes the dependency pattern without
having a field; and a text made of a single remote line ends with that remote
registered with an empty dependency set. -/
theorem GemfileLock.scanned_remote_registered :
    (∀ (g g1 : GemfileLock) (text : List Str),
      GemfileLock.ParseLockFileText g text = some g1 →
      ∀ l ∈ text.takeWhile (fun l => decide (byteLen l < MaxScanTokenSize)),
        HasPrefix l GEMFILE_REMOTE_PREFIX = true →
        ∃ r, g1.Remotes.lookup (TrimSpace (TrimPrefix l GEMFILE_REMOTE_PREFIX)) = some r ∧
          r.Url = TrimSpace (TrimPrefix l GEMFILE_REMOTE_PREFIX)) ∧
    (∀ (g : GemfileLock) (text : List Str),
      (∀ l ∈ scanLines text, dependencyRegexp_MatchString l = true → Fields l ≠ []) →
      ∃ g1, GemfileLock.ParseLockFileText g text = some g1) ∧
    GemfileLock.ParseLockFileText NewGemfileLock
        ["  remote:   https://rubygems.org/  ".toList] =
      some ⟨⟨[("https://rubygems.org/".toList,
        ⟨"https://rubygems.org/".toList, some GoMap.empty⟩)]⟩⟩ := by
  refine ⟨?_, ?_, by decide⟩
  · intro g g1 text hparse l hl hp
    unfold GemfileLock.ParseLockFileText GemfileLock.ParseLockFile at hparse
    cases hrun : GemfileLock.parseLines (GemfileLock.initialState g) (scanLines text) with
    | none => simp [hrun] at hparse
    | some s1 =>
      simp only [hrun, Option.map_some', Option.some.injEq] at hparse
      subst hparse
      have hreg := (GemfileLock.parseLines_registers (scanLines text) _ s1 hrun).2 (dropCR l)
        (List.mem_map_of_mem dropCR hl) (HasPrefix_dropCR l hp)
      rw [remainder_dropCR l hp] at hreg
      exact hreg
  · intro g text hsafe
    obtain ⟨s1, h1⟩ := GemfileLock.gem_parseLines_total (scanLines text)
      (GemfileLock.initialState g) (GemfileLock.initialState_ScopeInv g) hsafe
    exact ⟨s1.g, by rw [GemfileLock.ParseLockFileText, GemfileLock.ParseLockFile, h1]; rfl⟩

/-- Witness of C13 as amended on the text that declares a remote again after
its block, the second declaration ending in a carriage return. -/
theorem GemfileLock.scanned_remote_registered_witness :
    GemfileLock.ParseLockFileText NewGemfileLock
        (scenarioLines ++ [[], "  remote: https://rubygems.org/".toList ++ [Char.ofNat 0x0D]]) =
      some ⟨⟨[("https://rubygems.org/".toList,
        ⟨"https://rubygems.org/".toList, some GoMap.empty⟩)]⟩⟩ ∧
    ∃ r, (GemfileLock.mk ⟨[("https://rubygems.org/".toList,
        ⟨"https://rubygems.org/".toList, some GoMap.empty⟩)]⟩).Remotes.lookup
          (TrimSpace (TrimPrefix
            ("  remote: https://rubygems.org/".toList ++ [Char.ofNat 0x0D])
            GEMFILE_REMOTE_PREFIX)) = some r ∧
      r.Url = TrimSpace (TrimPrefix
        ("  remote: https://rubygems.org/".toList ++ [Char.ofNat 0x0D])
        GEMFILE_REMOTE_PREFIX) :=
  ⟨by decide,
    GemfileLock.scanned_remote_registered.1 NewGemfileLock _
      (scenarioLines ++ [[], "  remote: https://rubygems.org/".toList ++ [Char.ofNat 0x0D]])
      (by decide) ("  remote: https://rubygems.org/".toList ++ [Char.ofNat 0x0D])
      (by decide) (by decide)⟩

/-! ## Invariants of the models that the parsers build -/

theorem GoMap.mem_storeEntries {V : Type} (l : List (Str × V)) (k : Str) (v : V)
    (e : Str × V) (h : e ∈ GoMap.storeEntries l k v) : e ∈ l ∨ e = (k, v) := by
  induction l with
  | nil =>
    simp only [GoMap.storeEntries, List.mem_singleton] at h
    exact Or.inr h
  | cons a rest ih =>
    obtain ⟨ak, av⟩ := a
    by_cases hk : ak = k
    · simp only [GoMap.storeEntries, hk, if_true, List.mem_cons] at h
      rcases h with h | h
      · exact Or.inr h
      · exact Or.inl (List.mem_cons_of_mem _ h)
    · simp only [GoMap.storeEntries, hk, if_false, List.mem_cons] at h
      rcases h with h | h
      · exact Or.inl (h ▸ List.mem_cons_self _ _)
      · rcases ih h with h2 | h2
        · exact Or.inl (List.mem_cons_of_mem _ h2)
        · exact Or.inr h2

theorem GoMap.storeEntries_ne_nil {V : Type} (l : List (Str × V)) (k : Str) (v : V) :
    GoMap.storeEntries l k v ≠ [] := by
  cases l with
  | nil => simp [GoMap.storeEntries]
  | cons a rest =>
    obtain ⟨ak, av⟩ := a
    by_cases hk : ak = k
    · simp only [GoMap.storeEntries, hk, if_true]
      exact List.cons_ne_nil _ _
    · simp only [GoMap.storeEntries, hk, if_false]
      exact List.cons_ne_nil _ _

theorem GoMap.Consistent_empty : (GoMap.empty : GoMap Remote).Consistent := by
  intro u r h
  cases h

theorem GoMap.Consistent_store_fresh (m : GoMap Remote) (hm : m.Consistent) (k : Str) :
    (m.store k ⟨k, some GoMap.empty⟩).Consistent := by
  intro u r h
  rw [GoMap.lookup_store] at h
  by_cases hk : k = u
  · rw [if_pos hk] at h
    cases h
    exact ⟨hk, GoMap.empty, rfl, fun x hx => absurd hx (List.not_mem_nil x)⟩
  · rw [if_neg hk] at h
    exact hm u r h

theorem GoMap.Consistent_store_dep (m : GoMap Remote) (hm : m.Consistent) (k t : Str)
    (r : Remote) (deps : GoMap Dependency) (hr : m.lookup k = some r)
    (hd : r.Dependencies = some deps) (ht : t ≠ []) :
    (m.store k ⟨r.Url, some (deps.store t ⟨t⟩)⟩).Consistent := by
  intro u r1 h
  rw [GoMap.lookup_store] at h
  by_cases hk : k = u
  · rw [if_pos hk] at h
    cases h
    obtain ⟨hurl, deps0, hd0, hall⟩ := hm k r hr
    rw [hd] at hd0
    cases hd0
    refine ⟨hurl.trans hk, _, rfl, ?_⟩
    intro x hx
    rcases GoMap.mem_storeEntries _ _ _ _ hx with hx | hx
    · exact hall x hx
    · subst hx
      exact ⟨rfl, ht⟩
  · rw [if_neg hk] at h
    exact hm u r1 h

theorem fieldsLoop_tokens (s cur : Str) : ∀ t ∈ fieldsLoop s cur, t ≠ [] := by
  induction s generalizing cur with
  | nil =>
    intro t ht
    by_cases hcur : cur = []
    · rw [fieldsLoop, if_pos hcur] at ht
      exact absurd ht (List.not_mem_nil t)
    · rw [fieldsLoop, if_neg hcur, List.mem_singleton] at ht
      rw [ht]
      exact hcur
  | cons a rest ih =>
    intro t ht
    by_cases ha : unicode_IsSpace a = true
    · rw [fieldsLoop_cons_space a rest cur ha] at ht
      by_cases hcur : cur = []
      · rw [if_pos hcur] at ht
        exact ih [] t ht
      · rw [if_neg hcur, List.mem_cons] at ht
        rcases ht with ht | ht
        · rw [ht]
          exact hcur
        · exact ih [] t ht
    · rw [fieldsLoop_cons_token a rest cur (by simpa using ha)] at ht
      exact ih _ t ht

/-- Every field of a line is a non-empty string. -/
theorem Fields_tokens (line : Str) : ∀ t ∈ Fields line, t ≠ [] :=
  fieldsLoop_tokens line []

/-- The name derived from a header line is a non-empty string. -/
theorem YarnLock.headerName_ne_nil (line name : Str)
    (h : YarnLock.headerName line = some name) : name ≠ [] := by
  cases ht : TrimPrefix line [Char.ofNat 0x22] with
  | nil => simp [YarnLock.headerName, ht] at h
  | cons c rest =>
    rw [YarnLock.headerName_of_trim line rest c ht] at h
    by_cases hc : c = '@'
    · rw [if_pos hc] at h
      cases hsp : (SplitN rest YARN_DEP_VERSION_SEPARATOR 2).head? with
      | none => simp [hsp] at h
      | some n =>
        simp only [hsp, Option.map_some', Option.some.injEq] at h
        rw [← h]
        exact List.cons_ne_nil _ _
    · rw [if_neg hc] at h
      obtain ⟨hd, more, hsplit, _, hshape⟩ := SplitN_separator_head (c :: rest)
      rw [hsplit] at h
      simp only [List.head?_cons, Option.some.injEq] at h
      subst h
      rcases hshape with heq | ⟨b, hb⟩
      · rw [heq]
        exact List.cons_ne_nil _ _
      · intro hnil
        rw [hnil, List.nil_append] at hb
        exact hc (List.head_eq_of_cons_eq hb)

/-- One Format A line keeps the model well formed and key consistent. -/
theorem GemfileLock.gem_parseLine_model (s s1 : GemfileState) (line : Str)
    (h : GemfileLock.parseLine s line = some s1)
    (hwf : s.g.Remotes.WF) (hc : s.g.Remotes.Consistent) :
    s1.g.Remotes.WF ∧ s1.g.Remotes.Consistent := by
  rcases GemfileLock.gem_parseLine_cases s s1 line h with
    ⟨_, rfl⟩ | ⟨_, _, _, rfl⟩ | ⟨_, _, t, more, g1, hf, hadd, rfl⟩ | ⟨_, _, rfl⟩ | ⟨_, _, rfl⟩
  · exact ⟨GoMap.store_WF _ hwf _ _, GoMap.Consistent_store_fresh _ hc _⟩
  · exact ⟨hwf, hc⟩
  · obtain ⟨r0, deps, hr0, hd, rfl⟩ := GemfileLock.gem_addDependency_inv _ _ _ _ hadd
    have ht : t ≠ [] := Fields_tokens line t (by rw [hf]; exact List.mem_cons_self _ _)
    exact ⟨GoMap.store_WF _ hwf _ _, GoMap.Consistent_store_dep _ hc _ _ r0 deps hr0 hd ht⟩
  · exact ⟨hwf, hc⟩
  · exact ⟨hwf, hc⟩

theorem GemfileLock.gem_parseLines_model (lines : List Str) (s s1 : GemfileState)
    (h : GemfileLock.parseLines s lines = some s1)
    (hwf : s.g.Remotes.WF) (hc : s.g.Remotes.Consistent) :
    s1.g.Remotes.WF ∧ s1.g.Remotes.Consistent := by
  induction lines generalizing s with
  | nil =>
    simp only [GemfileLock.parseLines, Option.some.injEq] at h
    subst h
    exact ⟨hwf, hc⟩
  | cons x rest ih =>
    rw [GemfileLock.parseLines] at h
    cases hstep : GemfileLock.parseLine s x with
    | none => simp [hstep] at h
    | some s2 =>
      rw [hstep] at h
      obtain ⟨hwf2, hc2⟩ := GemfileLock.gem_parseLine_model s s2 x hstep hwf hc
      exact ih s2 h hwf2 hc2

/-- One Format B line keeps the model well formed, key consistent and
populated, and keeps the current name non-empty inside a dependency block. -/
theorem YarnLock.yarn_parseLine_model (s s1 : YarnState) (line : Str)
    (h : YarnLock.parseLine s line = some s1)
    (hwf : s.y.Remotes.WF) (hc : s.y.Remotes.Consistent) (hp : s.y.Remotes.Populated)
    (hn : s.readingDep = true → s.currentDependencyName ≠ []) :
    s1.y.Remotes.WF ∧ s1.y.Remotes.Consistent ∧ s1.y.Remotes.Populated ∧
      (s1.readingDep = true → s1.currentDependencyName ≠ []) := by
  rcases YarnLock.yarn_parseLine_cases s s1 line h with
    ⟨_, _, n, hname, rfl⟩ | ⟨hrd, _, remoteUrl, more, y2, _, hadd, rfl⟩ | ⟨_, rfl⟩ | ⟨_, rfl⟩
  · exact ⟨hwf, hc, hp, fun _ => YarnLock.headerName_ne_nil line n hname⟩
  · obtain ⟨r0, deps, hr0, hd, rfl⟩ := YarnLock.yarn_addDependency_inv _ _ _ _ hadd
    have hy1 : (if (s.y.Remotes.lookup remoteUrl).isSome then s.y
        else s.y.addRemote remoteUrl).Remotes.WF ∧
        (if (s.y.Remotes.lookup remoteUrl).isSome then s.y
          else s.y.addRemote remoteUrl).Remotes.Consistent ∧
        ∀ u, u ≠ remoteUrl →
          (if (s.y.Remotes.lookup remoteUrl).isSome then s.y
            else s.y.addRemote remoteUrl).Remotes.lookup u = s.y.Remotes.lookup u := by
      by_cases hpres : (s.y.Remotes.lookup remoteUrl).isSome = true
      · rw [if_pos hpres]
        exact ⟨hwf, hc, fun _ _ => rfl⟩
      · rw [if_neg hpres]
        refine ⟨GoMap.store_WF _ hwf _ _, GoMap.Consistent_store_fresh _ hc _, ?_⟩
        intro u hu
        simp only [YarnLock.addRemote, GoMap.lookup_store]
        rw [if_neg (fun hh => hu hh.symm)]
    obtain ⟨hwf1, hc1, hsame⟩ := hy1
    refine ⟨GoMap.store_WF _ hwf1 _ _,
      GoMap.Consistent_store_dep _ hc1 _ _ r0 deps hr0 hd (hn hrd), ?_, hn⟩
    intro u r1 hl
    rw [GoMap.lookup_store] at hl
    by_cases hk : remoteUrl = u
    · rw [if_pos hk] at hl
      cases hl
      exact ⟨_, rfl, GoMap.storeEntries_ne_nil _ _ _⟩
    · rw [if_neg hk, hsame u (fun hh => hk hh.symm)] at hl
      exact hp u r1 hl
  · exact ⟨hwf, hc, hp, fun hh => by simp at hh⟩
  · exact ⟨hwf, hc, hp, hn⟩

theorem YarnLock.yarn_parseLines_model (lines : List Str) (s s1 : YarnState)
    (h : YarnLock.parseLines s lines = some s1)
    (hwf : s.y.Remotes.WF) (hc : s.y.Remotes.Consistent) (hp : s.y.Remotes.Populated)
    (hn : s.readingDep = true → s.currentDependencyName ≠ []) :
    s1.y.Remotes.WF ∧ s1.y.Remotes.Consistent ∧ s1.y.Remotes.Populated ∧
      (s1.readingDep = true → s1.currentDependencyName ≠ []) := by
  induction lines generalizing s with
  | nil =>
    simp only [YarnLock.parseLines, Option.some.injEq] at h
    subst h
    exact ⟨hwf, hc, hp, hn⟩
  | cons x rest ih =>
    rw [YarnLock.parseLines] at h
    cases hstep : YarnLock.parseLine s x with
    | none => simp [hstep] at h
    | some s2 =>
      rw [hstep] at h
      obtain ⟨hwf2, hc2, hp2, hn2⟩ := YarnLock.yarn_parseLine_model s s2 x hstep hwf hc hp hn
      exact ih s2 h hwf2 hc2 hp2 hn2

/-- The invariants of the model that the Format B parser builds from a fresh one. -/
theorem YarnLock.yarn_fresh_parse_model (lines : List Str) (y1 : YarnLock)
    (h : YarnLock.ParseLockFile NewYarnLock lines = some y1) :
    y1.Remotes.WF ∧ y1.Remotes.Consistent ∧ y1.Remotes.Populated := by
  unfold YarnLock.ParseLockFile at h
  cases hrun : YarnLock.parseLines (YarnLock.initialState NewYarnLock) lines with
  | none => simp [hrun] at h
  | some s1 =>
    simp only [hrun, Option.map_some', Option.some.injEq] at h
    subst h
    obtain ⟨h1, h2, h3, _⟩ := YarnLock.yarn_parseLines_model lines _ s1 hrun
      (by simp [GoMap.WF, GoMap.keys, YarnLock.initialState, NewYarnLock, GoMap.empty])
      GoMap.Consistent_empty (fun u r hl => by cases hl) (fun hh => by cases hh)
    exact ⟨h1, h2, h3⟩

/-- The invariants of the model that the Format A parser builds from a fresh one. -/
theorem GemfileLock.gem_fresh_parse_model (lines : List Str) (g1 : GemfileLock)
    (h : GemfileLock.ParseLockFile NewGemfileLock lines = some g1) :
    g1.Remotes.WF ∧ g1.Remotes.Consistent := by
  unfold GemfileLock.ParseLockFile at h
  cases hrun : GemfileLock.parseLines (GemfileLock.initialState NewGemfileLock) lines with
  | none => simp [hrun] at h
  | some s1 =>
    simp only [hrun, Option.map_some', Option.some.injEq] at h
    subst h
    exact GemfileLock.gem_parseLines_model lines _ s1 hrun
      (by simp [GoMap.WF, GoMap.keys, GemfileLock.initialState, NewGemfileLock, GoMap.empty])
      GoMap.Consistent_empty

/-! ## The invariants of the parsed models (C18 to C20) -/

/-- C18: the parse of every sequence of lines by the Format B parser into a
fresh model completes, and every remote of the resulting model has a
dependency map with at least one dependency. -/
theorem YarnLock.no_empty_remote (lines : List Str) :
    ∃ y1, YarnLock.ParseLockFile NewYarnLock lines = some y1 ∧
      ∀ e ∈ y1.Remotes.entries, ∃ deps, e.2.Dependencies = some deps ∧ deps.entries ≠ [] := by
  obtain ⟨s1, hs1, _⟩ := YarnLock.parseLines_total lines (YarnLock.initialState NewYarnLock)
    (fun u r hl => by cases hl)
  have hy1 : YarnLock.ParseLockFile NewYarnLock lines = some s1.y := by
    rw [YarnLock.ParseLockFile, hs1]
    rfl
  obtain ⟨hwf, _, hp⟩ := YarnLock.yarn_fresh_parse_model lines s1.y hy1
  exact ⟨s1.y, hy1, fun e he => hp e.1 e.2 ((GoMap.lookup_eq_some_iff _ hwf e.1 e.2).2 he)⟩

/-- C19: in the model that either parser builds from a fresh one, whenever
the parse returns, every stored dependency has a non-empty name. -/
theorem dependency_names_non_empty :
    (∀ (lines : List Str) (g1 : GemfileLock),
      GemfileLock.ParseLockFile NewGemfileLock lines = some g1 →
      ∀ e ∈ g1.Remotes.entries, ∀ deps, e.2.Dependencies = some deps →
        ∀ x ∈ deps.entries, x.2.Name ≠ []) ∧
    (∀ (lines : List Str) (y1 : YarnLock),
      YarnLock.ParseLockFile NewYarnLock lines = some y1 →
      ∀ e ∈ y1.Remotes.entries, ∀ deps, e.2.Dependencies = some deps →
        ∀ x ∈ deps.entries, x.2.Name ≠ []) := by
  constructor
  · intro lines g1 h e he deps hd x hx
    obtain ⟨hwf, hc⟩ := GemfileLock.gem_fresh_parse_model lines g1 h
    obtain ⟨_, deps0, hd0, hall⟩ := hc e.1 e.2 ((GoMap.lookup_eq_some_iff _ hwf e.1 e.2).2 he)
    rw [hd] at hd0
    cases hd0
    obtain ⟨h1, h2⟩ := hall x hx
    rw [h1]
    exact h2
  · intro lines y1 h e he deps hd x hx
    obtain ⟨hwf, hc, _⟩ := YarnLock.yarn_fresh_parse_model lines y1 h
    obtain ⟨_, deps0, hd0, hall⟩ := hc e.1 e.2 ((GoMap.lookup_eq_some_iff _ hwf e.1 e.2).2 he)
    rw [hd] at hd0
    cases hd0
    obtain ⟨h1, h2⟩ := hall x hx
    rw [h1]
    exact h2

/-- Witness of C19 on the scenario's lines: the stored dependency `foo` has a
non-empty name. -/
theorem dependency_names_non_empty_witness :
    GemfileLock.ParseLockFile NewGemfileLock scenarioLines = some scenarioModel ∧
    ("https://rubygems.org/".toList, Remote.mk "https://rubygems.org/".toList
      (some ⟨[("foo".toList, ⟨"foo".toList⟩), ("baz".toList, ⟨"baz".toList⟩)]⟩)) ∈
        scenarioModel.Remotes.entries ∧
    (Dependency.mk "foo".toList).Name ≠ [] :=
  ⟨by decide, by decide,
    dependency_names_non_empty.1 scenarioLines scenarioModel (by decide)
      ("https://rubygems.org/".toList, Remote.mk "https://rubygems.org/".toList
        (some ⟨[("foo".toList, ⟨"foo".toList⟩), ("baz".toList, ⟨"baz".toList⟩)]⟩))
      (by decide) ⟨[("foo".toList, ⟨"foo".toList⟩), ("baz".toList, ⟨"baz".toList⟩)]⟩ rfl
      ("foo".toList, ⟨"foo".toList⟩) (by decide)⟩

/-- C20: in the model that either parser builds from a fresh one, whenever
the parse returns, the keys are pairwise distinct, every remote is stored
under its own URL, and every dependency is stored under its own name. -/
theorem parsed_model_key_consistency :
    (∀ (lines : List Str) (g1 : GemfileLock),
      GemfileLock.ParseLockFile NewGemfileLock lines = some g1 →
      g1.Remotes.WF ∧
      ∀ e ∈ g1.Remotes.entries, e.2.Url = e.1 ∧
        ∀ deps, e.2.Dependencies = some deps → ∀ x ∈ deps.entries, x.2.Name = x.1) ∧
    (∀ (lines : List Str) (y1 : YarnLock),
      YarnLock.ParseLockFile NewYarnLock lines = some y1 →
      y1.Remotes.WF ∧
      ∀ e ∈ y1.Remotes.entries, e.2.Url = e.1 ∧
        ∀ deps, e.2.Dependencies = some deps → ∀ x ∈ deps.entries, x.2.Name = x.1) := by
  constructor
  · intro lines g1 h
    obtain ⟨hwf, hc⟩ := GemfileLock.gem_fresh_parse_model lines g1 h
    refine ⟨hwf, fun e he => ?_⟩
    obtain ⟨hurl, deps0, hd0, hall⟩ :=
      hc e.1 e.2 ((GoMap.lookup_eq_some_iff _ hwf e.1 e.2).2 he)
    refine ⟨hurl, fun deps hd x hx => ?_⟩
    rw [hd] at hd0
    cases hd0
    exact (hall x hx).1
  · intro lines y1 h
    obtain ⟨hwf, hc, _⟩ := YarnLock.yarn_fresh_parse_model lines y1 h
    refine ⟨hwf, fun e he => ?_⟩
    obtain ⟨hurl, deps0, hd0, hall⟩ :=
      hc e.1 e.2 ((GoMap.lookup_eq_some_iff _ hwf e.1 e.2).2 he)
    refine ⟨hurl, fun deps hd x hx => ?_⟩
    rw [hd] at hd0
    cases hd0
    exact (hall x hx).1

/-- Witness of C20 on the scenario's lines. -/
theorem parsed_model_key_consistency_witness :
    GemfileLock.ParseLockFile NewGemfileLock scenarioLines = some scenarioModel ∧
    scenarioModel.Remotes.WF ∧
    ∀ e ∈ scenarioModel.Remotes.entries, e.2.Url = e.1 ∧
      ∀ deps, e.2.Dependencies = some deps → ∀ x ∈ deps.entries, x.2.Name = x.1 :=
  ⟨by decide, parsed_model_key_consistency.1 scenarioLines scenarioModel (by decide)⟩

/-! ## The resolved line of Format B (C14) -/

/-- A successful cut splits the string at the first occurrence of the separator. -/
theorem cutAtFirst_first (sep s a b : Str) (h : cutAtFirst sep s = some (a, b)) :
    s = a ++ sep ++ b ∧ ∀ a2 b2 : Str, s = a2 ++ sep ++ b2 → a.length ≤ a2.length := by
  induction s generalizing a with
  | nil =>
    rw [cutAtFirst] at h
    by_cases hsep : sep = []
    · rw [if_pos hsep] at h
      simp only [Option.some.injEq, Prod.mk.injEq] at h
      obtain ⟨rfl, rfl⟩ := h
      subst hsep
      exact ⟨rfl, fun _ _ _ => Nat.zero_le _⟩
    · rw [if_neg hsep] at h
      cases h
  | cons c cs ih =>
    rw [cutAtFirst] at h
    by_cases hp : sep.isPrefixOf (c :: cs) = true
    · rw [if_pos hp] at h
      simp only [Option.some.injEq, Prod.mk.injEq] at h
      obtain ⟨rfl, rfl⟩ := h
      obtain ⟨t, ht⟩ := List.isPrefixOf_iff_prefix.1 hp
      refine ⟨?_, fun _ _ _ => Nat.zero_le _⟩
      rw [← ht, List.drop_left, List.nil_append]
    · rw [if_neg hp] at h
      cases hcut : cutAtFirst sep cs with
      | none => simp [hcut] at h
      | some p =>
        obtain ⟨a1, b1⟩ := p
        simp only [hcut, Option.map_some', Option.some.injEq, Prod.mk.injEq] at h
        obtain ⟨rfl, rfl⟩ := h
        obtain ⟨h1, h2⟩ := ih a1 hcut
        constructor
        · rw [h1]
          simp
        · intro a2 b2 heq
          cases a2 with
          | nil =>
            exfalso
            apply hp
            rw [ List.isPrefixOf_iff_prefix]
            exact ⟨b2, by simpa using heq.symm⟩
          | cons d a3 =>
            simp only [List.cons_append, List.cons.injEq] at heq
            have := h2 a3 b2 heq.2
            simp only [List.length_cons]
            omega

theorem cutAtFirst_absent (sep s : Str) (h : cutAtFirst sep s = none) : ¬ sep <:+: s := by
  intro hin
  have := (Contains_iff s sep).2 hin
  unfold Contains at this
  rw [h] at this
  cases this

/-- Element `[0]` of a split in two around a non-empty separator: the text
before the first occurrence of the separator, or the whole string when the
separator does not occur. -/
theorem SplitN_two_head (r sep : Str) (hsep : sep ≠ []) :
    ∃ u more, SplitN r sep 2 = u :: more ∧
      ((∃ rest, r = u ++ sep ++ rest ∧
          ∀ a2 b2 : Str, r = a2 ++ sep ++ b2 → u.length ≤ a2.length) ∨
        (u = r ∧ ¬ sep <:+: r)) := by
  unfold SplitN
  simp only [hsep, if_false]
  unfold splitLoop
  cases hcut : cutAtFirst sep r with
  | none => exact ⟨r, [], rfl, Or.inr ⟨rfl, cutAtFirst_absent sep r hcut⟩⟩
  | some p =>
    obtain ⟨a, b⟩ := p
    obtain ⟨h1, h2⟩ := cutAtFirst_first sep r a b hcut
    exact ⟨a, _, rfl, Or.inl ⟨b, h1, h2⟩⟩

theorem TrimPrefix_append (p r : Str) : TrimPrefix (p ++ r) p = r := by
  unfold TrimPrefix
  rw [if_pos ((HasPrefix_iff _ _).2 ⟨r, rfl⟩), List.drop_left]

/-- C14: in a state that the Format B parser reaches from a fresh model inside
a dependency block with current name `n`, a line made of the resolved marker
and a text `r` completes; the remote URL `u` it uses is the part of `r` before
the first occurrence of `/n/`, or all of `r` when `/n/` does not occur;
afterwards the model maps `u` to a remote with URL `u` whose dependency map
is the previous one (the empty one if `u` was unknown) with `n` stored; every
other key is bound as before, and the block stays open.  The header and the
resolved line of `@babel/core` store `@babel/core` under
`https://registry.yarnpkg.com`. -/
theorem YarnLock.resolved_line_registers_lazily (pre : List Str) (s : YarnState)
    (hrun : YarnLock.parseLines (YarnLock.initialState NewYarnLock) pre = some s)
    (hrd : s.readingDep = true) (r : Str) :
    (∃ u s1,
      ((∃ rest, r = u ++ ("/".toList ++ s.currentDependencyName ++ "/".toList) ++ rest ∧
          ∀ a2 b2 : Str,
            r = a2 ++ ("/".toList ++ s.currentDependencyName ++ "/".toList) ++ b2 →
            u.length ≤ a2.length) ∨
        (u = r ∧ ¬ ("/".toList ++ s.currentDependencyName ++ "/".toList) <:+: r)) ∧
      YarnLock.parseLine s (YARN_REMOTE_PREFIX ++ r) = some s1 ∧
      s1.currentDependencyName = s.currentDependencyName ∧ s1.readingDep = true ∧
      (∃ prev r1,
        (match s.y.Remotes.lookup u with
          | some r0 => r0.Dependencies = some prev
          | none => prev = GoMap.empty) ∧
        s1.y.Remotes.lookup u = some r1 ∧ r1.Url = u ∧
        r1.Dependencies =
          some (prev.store s.currentDependencyName ⟨s.currentDependencyName⟩)) ∧
      (∀ v, v ≠ u → s1.y.Remotes.lookup v = s.y.Remotes.lookup v)) ∧
    YarnLock.ParseLockFile NewYarnLock [babelHeader, babelResolved] =
      some ⟨⟨[("https://registry.yarnpkg.com".toList,
        ⟨"https://registry.yarnpkg.com".toList,
          some ⟨[("@babel/core".toList, ⟨"@babel/core".toList⟩)]⟩⟩)]⟩⟩ := by
  refine ⟨?_, by decide⟩
  obtain ⟨_, hc, _, _⟩ := YarnLock.yarn_parseLines_model pre _ s hrun
    (by simp [GoMap.WF, GoMap.keys, YarnLock.initialState, NewYarnLock, GoMap.empty])
    GoMap.Consistent_empty (fun u r hl => by cases hl) (fun hh => by cases hh)
  obtain ⟨u, more, hsplit, hshape⟩ := SplitN_two_head r
    ("/".toList ++ s.currentDependencyName ++ "/".toList) (by simp)
  have hstep : YarnLock.parseLine s (YARN_REMOTE_PREFIX ++ r) =
      ((if (s.y.Remotes.lookup u).isSome then s.y
        else s.y.addRemote u).addDependency u s.currentDependencyName).map
          (fun y2 => { s with y := y2 }) := by
    unfold YarnLock.parseLine
    rw [if_neg (by simp [hrd]), if_pos (by simp [hrd, (HasPrefix_iff _ _).2 ⟨r, rfl⟩])]
    dsimp only
    rw [TrimPrefix_append, hsplit]
  cases hl : s.y.Remotes.lookup u with
  | some r0 =>
    obtain ⟨hurl, deps, hd, _⟩ := hc u r0 hl
    refine ⟨u, { s with y := ⟨s.y.Remotes.store u
      ⟨r0.Url, some (deps.store s.currentDependencyName ⟨s.currentDependencyName⟩)⟩⟩ },
      hshape, ?_, rfl, hrd,
      ⟨deps, ⟨r0.Url, some (deps.store s.currentDependencyName ⟨s.currentDependencyName⟩)⟩,
        (by rw [hl]; exact hd), ?_, hurl, rfl⟩, ?_⟩
    · rw [hstep]
      simp only [hl, Option.isSome_some, if_true,
        YarnLock.yarn_addDependency_eq s.y u s.currentDependencyName r0 deps hl hd,
        Option.map_some']
    · simp only [GoMap.lookup_store, if_true]
    · intro v hv
      simp only [GoMap.lookup_store]
      rw [if_neg (fun hh => hv hh.symm)]
  | none =>
    have hl1 : (s.y.addRemote u).Remotes.lookup u = some ⟨u, some GoMap.empty⟩ := by
      simp [YarnLock.addRemote, GoMap.lookup_store]
    refine ⟨u, { s with y := ⟨(s.y.addRemote u).Remotes.store u
      ⟨u, some (GoMap.empty.store s.currentDependencyName ⟨s.currentDependencyName⟩)⟩⟩ },
      hshape, ?_, rfl, hrd,
      ⟨GoMap.empty,
        ⟨u, some (GoMap.empty.store s.currentDependencyName ⟨s.currentDependencyName⟩)⟩,
        (by rw [hl]), ?_, rfl, rfl⟩, ?_⟩
    · rw [hstep]
      simp only [hl, Option.isSome_none, Bool.false_eq_true, if_false,
        YarnLock.yarn_addDependency_eq (s.y.addRemote u) u s.currentDependencyName
          ⟨u, some GoMap.empty⟩ GoMap.empty hl1 rfl,
        Option.map_some']
    · simp only [GoMap.lookup_store, if_true]
    · intro v hv
      simp only [YarnLock.addRemote, GoMap.lookup_store]
      rw [if_neg (fun hh => hv hh.symm), if_neg (fun hh => hv hh.symm)]

/-- Witness of C14 on the resolved line of `@babel/core`, read after its header. -/
theorem YarnLock.resolved_line_registers_lazily_witness :
    YarnLock.parseLines (YarnLock.initialState NewYarnLock) [babelHeader] = some babelState ∧
    babelState.readingDep = true ∧
    ∃ u s1,
      ((∃ rest, babelTarball =
            u ++ ("/".toList ++ babelState.currentDependencyName ++ "/".toList) ++ rest ∧
          ∀ a2 b2 : Str,
            babelTarball =
              a2 ++ ("/".toList ++ babelState.currentDependencyName ++ "/".toList) ++ b2 →
            u.length ≤ a2.length) ∨
        (u = babelTarball ∧
          ¬ ("/".toList ++ babelState.currentDependencyName ++ "/".toList) <:+: babelTarball)) ∧
      YarnLock.parseLine babelState (YARN_REMOTE_PREFIX ++ babelTarball) = some s1 ∧
      s1.currentDependencyName = babelState.currentDependencyName ∧ s1.readingDep = true ∧
      (∃ prev r1,
        (match babelState.y.Remotes.lookup u with
          | some r0 => r0.Dependencies = some prev
          | none => prev = GoMap.empty) ∧
        s1.y.Remotes.lookup u = some r1 ∧ r1.Url = u ∧
        r1.Dependencies =
          some (prev.store babelState.currentDependencyName
            ⟨babelState.currentDependencyName⟩)) ∧
      (∀ v, v ≠ u → s1.y.Remotes.lookup v = babelState.y.Remotes.lookup v) :=
  ⟨by decide, rfl,
    (YarnLock.resolved_line_registers_lazily [babelHeader] babelState (by decide) rfl
      babelTarball).1⟩

/-! ## Lines indented with other white space (C15) -/

/-- C15 at the failing input: in the dependency-reading scope of the
scenario, a line that begins with four tabs instead of four spaces stores the
dependency `foo`, which the model did not record before; and a line of four
spaces, a tab and `foo` changes nothing. -/
theorem GemfileLock.tab_indented_line_captured :
    HasPrefix tabIndentedLine "    ".toList = false ∧
    scenarioScope.readingSpecs = true ∧
    scenarioScope.g.Remotes.records "https://rubygems.org/".toList "foo".toList = false ∧
    (GemfileLock.parseLine scenarioScope tabIndentedLine).map
      (fun s => s.g.Remotes.records "https://rubygems.org/".toList "foo".toList) = some true ∧
    GemfileLock.parseLine scenarioScope ("    ".toList ++ [Char.ofNat 9] ++ "foo".toList) =
      some scenarioScope := by
  decide

/-! ## The dependency-reading scope of Format A (C16) -/

theorem ne_nil_of_HasPrefix (l p : Str) (hp : p ≠ []) (h : HasPrefix l p = true) : l ≠ [] := by
  obtain ⟨rest, rfl⟩ := (HasPrefix_iff _ _).1 h
  intro hnil
  exact hp (List.append_eq_nil.1 hnil).1

theorem GemfileLock.remoteSinceBlank_snoc (h : List Str) (l : Str)
    (hh : GemfileLock.remoteSinceBlank h) (hl : l ≠ []) :
    GemfileLock.remoteSinceBlank (h ++ [l]) := by
  obtain ⟨a, r, c, rfl, hr, hc⟩ := hh
  refine ⟨a, r, c ++ [l], by simp, hr, ?_⟩
  intro x hx
  rcases List.mem_append.1 hx with hx | hx
  · exact hc x hx
  · rw [List.mem_singleton.1 hx]
    exact hl

theorem GemfileLock.specsSinceBlank_snoc (h : List Str) (l : Str)
    (hh : GemfileLock.specsSinceBlank h) (hl : l ≠ []) :
    GemfileLock.specsSinceBlank (h ++ [l]) := by
  obtain ⟨a, r, b, sp, c, rfl, hr, hsp, hb, hc⟩ := hh
  refine ⟨a, r, b, sp, c ++ [l], by simp, hr, hsp, hb, ?_⟩
  intro x hx
  rcases List.mem_append.1 hx with hx | hx
  · exact hc x hx
  · rw [List.mem_singleton.1 hx]
    exact hl

theorem GemfileLock.declaredLast_snoc (h : List Str) (l u : Str)
    (hh : GemfileLock.declaredLast h u) (hl : HasPrefix l GEMFILE_REMOTE_PREFIX = false) :
    GemfileLock.declaredLast (h ++ [l]) u := by
  obtain ⟨a, r, c, rfl, hr, hc, hu⟩ := hh
  refine ⟨a, r, c ++ [l], by simp, hr, ?_, hu⟩
  intro x hx
  rcases List.mem_append.1 hx with hx | hx
  · exact hc x hx
  · rw [List.mem_singleton.1 hx]
    exact hl

theorem GemfileLock.specsSinceBlank_of_remote (h : List Str) (l : Str)
    (hh : GemfileLock.remoteSinceBlank h) (hl : HasPrefix l GEMFILE_SPEC_PREFIX = true) :
    GemfileLock.specsSinceBlank (h ++ [l]) := by
  obtain ⟨a, r, c, rfl, hr, hc⟩ := hh
  exact ⟨a, r, c, l, [], by simp, hr, hl, hc, fun x hx => absurd hx (List.not_mem_nil x)⟩

/-- One Format A line keeps the history invariant. -/
theorem GemfileLock.parseLine_HistInv (h : List Str) (s s1 : GemfileState) (line : Str)
    (hinv : s.HistInv h) (hstep : GemfileLock.parseLine s line = some s1) :
    s1.HistInv (h ++ [line]) := by
  have hrp : GEMFILE_REMOTE_PREFIX ≠ [] := by decide
  rcases GemfileLock.gem_parseLine_cases s s1 line hstep with
    ⟨hp, rfl⟩ | ⟨hp, hrr, hsp, rfl⟩ | ⟨hp, hrs, t, more, g1, hf, _, rfl⟩ | ⟨_, _, rfl⟩ |
      ⟨hp, hne, rfl⟩
  · have hl : line ≠ [] := ne_nil_of_HasPrefix line _ hrp hp
    have hdecl : GemfileLock.declaredLast (h ++ [line])
        (TrimSpace (TrimPrefix line GEMFILE_REMOTE_PREFIX)) :=
      ⟨h, line, [], rfl, hp, fun x hx => absurd hx (List.not_mem_nil x), rfl⟩
    constructor
    · intro _
      exact ⟨⟨h, line, [], rfl, hp, fun x hx => absurd hx (List.not_mem_nil x)⟩, hdecl⟩
    · intro hrs
      exact ⟨GemfileLock.specsSinceBlank_snoc h line (hinv.2 hrs).1 hl, hdecl⟩
  · have hl : line ≠ [] := ne_nil_of_HasPrefix line _ (by decide) hsp
    obtain ⟨hopen, hdecl⟩ := hinv.1 hrr
    constructor
    · intro _
      exact ⟨GemfileLock.remoteSinceBlank_snoc h line hopen hl,
        GemfileLock.declaredLast_snoc h line _ hdecl hp⟩
    · intro _
      exact ⟨GemfileLock.specsSinceBlank_of_remote h line hopen hsp,
        GemfileLock.declaredLast_snoc h line _ hdecl hp⟩
  · have hl : line ≠ [] := by
      intro hnil
      rw [hnil] at hf
      cases hf
    constructor
    · intro hrr
      exact ⟨GemfileLock.remoteSinceBlank_snoc h line (hinv.1 hrr).1 hl,
        GemfileLock.declaredLast_snoc h line _ (hinv.1 hrr).2 hp⟩
    · intro hrs2
      exact ⟨GemfileLock.specsSinceBlank_snoc h line (hinv.2 hrs2).1 hl,
        GemfileLock.declaredLast_snoc h line _ (hinv.2 hrs2).2 hp⟩
  · constructor <;> intro hh <;> simp at hh
  · constructor
    · intro hrr
      exact ⟨GemfileLock.remoteSinceBlank_snoc h line (hinv.1 hrr).1 hne,
        GemfileLock.declaredLast_snoc h line _ (hinv.1 hrr).2 hp⟩
    · intro hrs2
      exact ⟨GemfileLock.specsSinceBlank_snoc h line (hinv.2 hrs2).1 hne,
        GemfileLock.declaredLast_snoc h line _ (hinv.2 hrs2).2 hp⟩

theorem GemfileLock.parseLines_HistInv (lines h : List Str) (s s1 : GemfileState)
    (hinv : s.HistInv h) (hrun : GemfileLock.parseLines s lines = some s1) :
    s1.HistInv (h ++ lines) := by
  induction lines generalizing h s with
  | nil =>
    simp only [GemfileLock.parseLines, Option.some.injEq] at hrun
    subst hrun
    simpa using hinv
  | cons x rest ih =>
    rw [GemfileLock.parseLines] at hrun
    cases hstep : GemfileLock.parseLine s x with
    | none => simp [hstep] at hrun
    | some s2 =>
      rw [hstep] at hrun
      have := ih (h ++ [x]) s2 (GemfileLock.parseLine_HistInv h s s2 x hinv hstep) hrun
      simpa using this

/-- A line of four spaces, a token and the rest, read with the specs flag set
while the current remote is in the model, stores the token under it. -/
theorem GemfileLock.parseLine_four_spaces (s : GemfileState) (r : Remote)
    (deps : GoMap Dependency) (hr : s.g.Remotes.lookup s.currentRemoteName = some r)
    (hd : r.Dependencies = some deps) (hspecs : s.readingSpecs = true)
    (t rest : Str) (hne : t ≠ []) (ht : ∀ c ∈ t, unicode_IsSpace c = false)
    (hrest : rest = [] ∨ ∃ c cs, rest = c :: cs ∧ unicode_IsSpace c = true) :
    GemfileLock.parseLine s ("    ".toList ++ t ++ rest) =
      some { s with
        g := ⟨s.g.Remotes.store s.currentRemoteName ⟨r.Url, some (deps.store t ⟨t⟩)⟩⟩
        currentDependencyName := t } := by
  obtain ⟨more, hmore⟩ := Fields_four_spaces t rest hne ht hrest
  obtain ⟨c, cs, rfl⟩ := List.exists_cons_of_ne_nil hne
  have hc : perlSpace c = false := by
    cases hp : perlSpace c with
    | false => rfl
    | true =>
      have := unicode_IsSpace_of_perlSpace c hp
      rw [ht c (List.mem_cons_self c cs)] at this
      exact absurd this (by decide)
  have h4 : "    ".toList ++ (c :: cs) ++ rest = ' ' :: ' ' :: ' ' :: ' ' :: c :: (cs ++ rest) :=
    rfl
  have hm := not_marker_of_third_space ' ' ' ' (' ' :: c :: (cs ++ rest))
  have hre : dependencyRegexp_MatchString (' ' :: ' ' :: ' ' :: ' ' :: c :: (cs ++ rest)) =
      true := by
    have hsp : perlSpace ' ' = true := by decide
    simp [dependencyRegexp_MatchString, hsp, hc]
  unfold GemfileLock.parseLine
  rw [hmore, h4, if_neg (by simp [hm.1]), if_neg (by simp [hm.2]),
    if_pos (by simp [hspecs, hre])]
  simp only [GemfileLock.gem_addDependency_eq s.g s.currentRemoteName (c :: cs) r deps hr hd,
    Option.map_some']

/-- C16 as stated fails: in the text whose second remote line stands inside
the specs block of the first, the dependency line after it is captured under
the second remote, although no specs line was read after that remote line. -/
theorem GemfileLock.dependency_captured_without_specs :
    GemfileLock.ParseLockFile NewGemfileLock remoteInsideSpecs =
      some ⟨⟨[("https://rubygems.org/".toList,
          ⟨"https://rubygems.org/".toList, some GoMap.empty⟩),
        ("https://pkg.acme.io/".toList,
          ⟨"https://pkg.acme.io/".toList,
            some ⟨[("foo".toList, ⟨"foo".toList⟩)]⟩⟩)]⟩⟩ ∧
    remoteInsideSpecs.drop 2 =
      ["  remote: https://pkg.acme.io/".toList, "    foo (1.0.0)".toList] ∧
    HasPrefix "    foo (1.0.0)".toList GEMFILE_SPEC_PREFIX = false := by
  decide

/-- C16 as amended: in a state that the Format A parser reaches from its
initial state, a line adds a dependency under the remote `u` only if `u` is the
remote that the last remote line declares and, with no blank line since, a
remote line was followed by a specs line; and a remote line read with the
specs flag set leaves the flag set, so that a four-space dependency line right
after it is captured under the newly declared remote. -/
theorem GemfileLock.specs_scope_until_blank (g : GemfileLock) (pre : List Str)
    (s : GemfileState)
    (hrun : GemfileLock.parseLines (GemfileLock.initialState g) pre = some s) :
    (∀ (line : Str) (s1 : GemfileState) (u d : Str),
      GemfileLock.parseLine s line = some s1 →
      s1.g.Remotes.records u d = true → s.g.Remotes.records u d = false →
      GemfileLock.specsSinceBlank pre ∧ GemfileLock.declaredLast pre u) ∧
    (∀ rl t rest : Str, s.readingSpecs = true →
      HasPrefix rl GEMFILE_REMOTE_PREFIX = true →
      t ≠ [] → (∀ c ∈ t, unicode_IsSpace c = false) →
      (rest = [] ∨ ∃ c cs, rest = c :: cs ∧ unicode_IsSpace c = true) →
      ∃ s2, GemfileLock.parseLines s [rl, "    ".toList ++ t ++ rest] = some s2 ∧
        s2.readingSpecs = true ∧
        s2.g.Remotes.records (TrimSpace (TrimPrefix rl GEMFILE_REMOTE_PREFIX)) t = true) := by
  have hinit : (GemfileLock.initialState g).HistInv [] := by
    constructor <;> intro hh <;> simp [GemfileLock.initialState] at hh
  have hinv : s.HistInv pre := by
    simpa using GemfileLock.parseLines_HistInv pre [] _ s hinit hrun
  constructor
  · intro line s1 u d hstep hafter hbefore
    rcases GemfileLock.gem_parseLine_records s s1 line hstep u d hafter with h1 | ⟨hrs, hu, _⟩
    · rw [hbefore] at h1
      cases h1
    · rw [hu]
      exact hinv.2 hrs
  · intro rl t rest hspecs hrl hne ht hrest
    have hstep1 : GemfileLock.parseLine s rl = some { s with
        g := s.g.addRemote (TrimSpace (TrimPrefix rl GEMFILE_REMOTE_PREFIX))
        currentRemoteName := TrimSpace (TrimPrefix rl GEMFILE_REMOTE_PREFIX)
        readingRemote := true } := by
      unfold GemfileLock.parseLine
      rw [if_pos hrl]
    have hstep2 := GemfileLock.parseLine_four_spaces
      { s with
        g := s.g.addRemote (TrimSpace (TrimPrefix rl GEMFILE_REMOTE_PREFIX))
        currentRemoteName := TrimSpace (TrimPrefix rl GEMFILE_REMOTE_PREFIX)
        readingRemote := true }
      ⟨TrimSpace (TrimPrefix rl GEMFILE_REMOTE_PREFIX), some GoMap.empty⟩ GoMap.empty
      (by simp [GemfileLock.addRemote, GoMap.lookup_store]) rfl hspecs t rest hne ht hrest
    refine ⟨{ s with
        g := ⟨(s.g.addRemote (TrimSpace (TrimPrefix rl GEMFILE_REMOTE_PREFIX))).Remotes.store
          (TrimSpace (TrimPrefix rl GEMFILE_REMOTE_PREFIX))
          ⟨TrimSpace (TrimPrefix rl GEMFILE_REMOTE_PREFIX), some (GoMap.empty.store t ⟨t⟩)⟩⟩
        currentRemoteName := TrimSpace (TrimPrefix rl GEMFILE_REMOTE_PREFIX)
        currentDependencyName := t
        readingRemote := true }, ?_, ?_, ?_⟩
    · rw [GemfileLock.parseLines, hstep1]
      simp only [Option.some_bind]
      rw [GemfileLock.parseLines, hstep2]
      rfl
    · exact hspecs
    · simp [GoMap.records, GoMap.lookup_store, Remote.HasDependency]

/-- Witness of C16 as amended: the dependency line of the scenario is added
under the remote declared last, after a specs line; and after a second remote
line inside the specs block a dependency line is captured under that remote. -/
theorem GemfileLock.specs_scope_until_blank_witness :
    GemfileLock.parseLines (GemfileLock.initialState NewGemfileLock)
      ["  remote: https://rubygems.org/".toList, "  specs:".toList] = some scenarioScope ∧
    GemfileLock.parseLine scenarioScope "    foo (1.0.0)".toList = some scenarioAfterFoo ∧
    (GemfileLock.specsSinceBlank
        ["  remote: https://rubygems.org/".toList, "  specs:".toList] ∧
      GemfileLock.declaredLast
        ["  remote: https://rubygems.org/".toList, "  specs:".toList]
        "https://rubygems.org/".toList) ∧
    ∃ s2, GemfileLock.parseLines scenarioScope
        ["  remote: https://pkg.acme.io/".toList,
          "    ".toList ++ "foo".toList ++ " (1.0.0)".toList] = some s2 ∧
      s2.readingSpecs = true ∧
      s2.g.Remotes.records
        (TrimSpace (TrimPrefix "  remote: https://pkg.acme.io/".toList GEMFILE_REMOTE_PREFIX))
        "foo".toList = true :=
  ⟨by decide, by decide,
    (GemfileLock.specs_scope_until_blank NewGemfileLock
      ["  remote: https://rubygems.org/".toList, "  specs:".toList] scenarioScope
      (by decide)).1 "    foo (1.0.0)".toList scenarioAfterFoo
      "https://rubygems.org/".toList "foo".toList (by decide) (by decide) (by decide),
    (GemfileLock.specs_scope_until_blank NewGemfileLock
      ["  remote: https://rubygems.org/".toList, "  specs:".toList] scenarioScope
      (by decide)).2 "  remote: https://pkg.acme.io/".toList "foo".toList " (1.0.0)".toList
      (by decide) (by decide) (by decide) (by decide)
      (Or.inr ⟨' ', "(1.0.0)".toList, rfl, by decide⟩)⟩

/-! ## The flags of the Format A parser (C17) -/

/-- C17: after any sequence of lines that the Format A parser has processed
from its initial state, the pair of flags is idle, in-remote or
in-remote+in-specs, never the specs flag alone; and whenever the specs flag is
set the current remote name is a key of the model. -/
theorem GemfileLock.flag_states (g : GemfileLock) (pre : List Str) (s : GemfileState)
    (hrun : GemfileLock.parseLines (GemfileLock.initialState g) pre = some s) :
    ((s.readingRemote = false ∧ s.readingSpecs = false) ∨
      (s.readingRemote = true ∧ s.readingSpecs = false) ∨
      (s.readingRemote = true ∧ s.readingSpecs = true)) ∧
    ¬ (s.readingRemote = false ∧ s.readingSpecs = true) ∧
    (s.readingSpecs = true → s.currentRemoteName ∈ s.g.Remotes.keys) := by
  have hinv := GemfileLock.parseLines_ScopeInv pre _ s (GemfileLock.initialState_ScopeInv g) hrun
  refine ⟨?_, ?_, ?_⟩
  · cases hrs : s.readingSpecs with
    | true =>
      exact Or.inr (Or.inr ⟨hinv.1 hrs, rfl⟩)
    | false =>
      cases hrr : s.readingRemote with
      | true => exact Or.inr (Or.inl ⟨rfl, rfl⟩)
      | false => exact Or.inl ⟨rfl, rfl⟩
  · rintro ⟨hrr, hrs⟩
    rw [hinv.1 hrs] at hrr
    cases hrr
  · intro hrs
    obtain ⟨r, _, hr, _⟩ := hinv.2 (hinv.1 hrs)
    rw [← GoMap.lookup_isSome_iff, hr]
    rfl

/-- Witness of C17: the three flag pairs after no line, after the remote line
and after the specs line of the scenario. -/
theorem GemfileLock.flag_states_witness :
    GemfileLock.parseLines (GemfileLock.initialState NewGemfileLock)
      ["  remote: https://rubygems.org/".toList, "  specs:".toList] = some scenarioScope ∧
    (((scenarioScope.readingRemote = false ∧ scenarioScope.readingSpecs = false) ∨
      (scenarioScope.readingRemote = true ∧ scenarioScope.readingSpecs = false) ∨
      (scenarioScope.readingRemote = true ∧ scenarioScope.readingSpecs = true)) ∧
    ¬ (scenarioScope.readingRemote = false ∧ scenarioScope.readingSpecs = true) ∧
    (scenarioScope.readingSpecs = true →
      scenarioScope.currentRemoteName ∈ scenarioScope.g.Remotes.keys)) ∧
    (GemfileLock.parseLines (GemfileLock.initialState NewGemfileLock) []).map
      (fun s => (s.readingRemote, s.readingSpecs)) = some (false, false) ∧
    (GemfileLock.parseLines (GemfileLock.initialState NewGemfileLock)
      ["  remote: https://rubygems.org/".toList]).map
      (fun s => (s.readingRemote, s.readingSpecs)) = some (true, false) ∧
    (GemfileLock.parseLines (GemfileLock.initialState NewGemfileLock)
      ["  remote: https://rubygems.org/".toList, "  specs:".toList]).map
      (fun s => (s.readingRemote, s.readingSpecs)) = some (true, true) :=
  ⟨by decide,
    GemfileLock.flag_states NewGemfileLock
      ["  remote: https://rubygems.org/".toList, "  specs:".toList] scenarioScope (by decide),
    by decide, by decide, by decide⟩

/-! ## The parsers on the heap (C12) -/

theorem Heap.lookupEntries_derefEntries (h : Heap) (l : List (Str × RemoteVal)) (k : Str) :
    GoMap.lookupEntries (h.derefEntries l) k = (GoMap.lookupEntries l k).map h.deref := by
  induction l with
  | nil => rfl
  | cons e rest ih =>
    obtain ⟨a, v⟩ := e
    by_cases hk : a = k
    · simp only [Heap.derefEntries, List.map_cons, GoMap.lookupEntries, hk, if_true,
        Option.map_some']
    · simp only [Heap.derefEntries, List.map_cons, GoMap.lookupEntries, hk, if_false]
      exact ih

theorem Heap.storeEntries_derefEntries (h : Heap) (l : List (Str × RemoteVal)) (k : Str)
    (v : RemoteVal) :
    h.derefEntries (GoMap.storeEntries l k v) =
      GoMap.storeEntries (h.derefEntries l) k (h.deref v) := by
  induction l with
  | nil => rfl
  | cons e rest ih =>
    obtain ⟨a, w⟩ := e
    by_cases hk : a = k
    · simp only [Heap.derefEntries, List.map_cons, GoMap.storeEntries, hk, if_true]
    · simp only [Heap.derefEntries, List.map_cons, GoMap.storeEntries, hk, if_false,
        List.cons.injEq, true_and]
      exact ih

theorem Heap.derefEntries_congr (h k : Heap) (l : List (Str × RemoteVal))
    (hl : ∀ e ∈ l, k.deref e.2 = h.deref e.2) : k.derefEntries l = h.derefEntries l := by
  unfold Heap.derefEntries
  apply List.map_congr_left
  intro e he
  rw [hl e he]

/-- Following the references on a changed heap amounts to one store, when the
change only shows through the remote stored under `R`. -/
theorem Heap.derefEntries_update (h k : Heap) (l : List (Str × RemoteVal)) (R : Str)
    (c : RemoteVal) (hnd : (l.map Prod.fst).Nodup) (hc : GoMap.lookupEntries l R = some c)
    (hl : ∀ e ∈ l, e.1 ≠ R → k.deref e.2 = h.deref e.2) :
    k.derefEntries l = GoMap.storeEntries (h.derefEntries l) R (k.deref c) := by
  induction l with
  | nil => cases hc
  | cons e rest ih =>
    obtain ⟨a, v⟩ := e
    simp only [List.map_cons, List.nodup_cons] at hnd
    by_cases hk : a = R
    · subst hk
      simp only [GoMap.lookupEntries, if_true, Option.some.injEq] at hc
      subst hc
      have hrest : k.derefEntries rest = h.derefEntries rest := by
        apply Heap.derefEntries_congr
        intro e he
        apply hl e (List.mem_cons_of_mem _ he)
        intro heq
        exact hnd.1 (heq ▸ List.mem_map_of_mem Prod.fst he)
      simp only [Heap.derefEntries, List.map_cons, GoMap.storeEntries, if_true,
        List.cons.injEq, true_and]
      exact hrest
    · simp only [GoMap.lookupEntries, hk, if_false] at hc
      have hhead : k.deref v = h.deref v := hl (a, v) (List.mem_cons_self _ _) hk
      have htail := ih hnd.2 hc (fun e he => hl e (List.mem_cons_of_mem _ he))
      simp only [Heap.derefEntries, List.map_cons, GoMap.storeEntries, hk, if_false,
        List.cons.injEq, hhead, true_and]
      exact htail

theorem GoMap.storeEntries_self {V : Type} (l : List (Str × V)) (k : Str) (v : V)
    (h : GoMap.lookupEntries l k = some v) : GoMap.storeEntries l k v = l := by
  induction l with
  | nil => cases h
  | cons e rest ih =>
    obtain ⟨a, w⟩ := e
    by_cases hk : a = k
    · simp only [GoMap.lookupEntries, hk, if_true, Option.some.injEq] at h
      simp only [GoMap.storeEntries, hk, if_true, h]
    · simp only [GoMap.lookupEntries, hk, if_false] at h
      simp only [GoMap.storeEntries, hk, if_false, ih h]

theorem GoMap.lookupEntries_mem {V : Type} (l : List (Str × V)) (k : Str) (v : V)
    (h : GoMap.lookupEntries l k = some v) : (k, v) ∈ l := by
  induction l with
  | nil => cases h
  | cons e rest ih =>
    obtain ⟨a, w⟩ := e
    by_cases hk : a = k
    · simp only [GoMap.lookupEntries, hk, if_true, Option.some.injEq] at h
      rw [hk, h]
      exact List.mem_cons_self _ _
    · simp only [GoMap.lookupEntries, hk, if_false] at h
      exact List.mem_cons_of_mem _ (ih h)

theorem Heap.Frame_refl (h : Heap) (g : Ref) (lo : Nat) : h.Frame h g lo :=
  ⟨rfl, fun _ _ => rfl, fun _ _ => rfl⟩

theorem Heap.Frame_trans (h k r : Heap) (g : Ref) (lo : Nat) (h1 : h.Frame k g lo)
    (h2 : k.Frame r g lo) : h.Frame r g lo :=
  ⟨h2.1.trans h1.1, fun j hj => (h2.2.1 j hj).trans (h1.2.1 j hj),
    fun i hi => (h2.2.2 i hi).trans (h1.2.2 i hi)⟩

/-- `addRemote` on the heap does to the view what `addRemote` does to the model. -/
theorem Heap.addRemote_view (h : Heap) (g : Ref) (lo : Nat) (url : Str)
    (hown : h.Owns g lo) :
    ∃ k, h.addRemote g url = some k ∧
      (∀ mv, h.view g = some mv → k.view g = some (mv.store url ⟨url, some GoMap.empty⟩)) ∧
      k.Owns g lo ∧ h.Frame k g lo := by
  obtain ⟨m, hm, hwf, hlo, hrefs, hinj⟩ := hown
  have hg : g < h.remotes.length := (List.getElem?_eq_some.1 hm).1
  refine ⟨Heap.mk (h.remotes.set g (m.store url ⟨url, some h.dependencies.length⟩))
    (h.dependencies ++ [GoMap.empty]), ?_, ?_, ?_, ?_⟩
  · unfold Heap.addRemote
    rw [hm]
  · intro mv hmv
    unfold Heap.view at hmv ⊢
    rw [hm] at hmv
    simp only [Option.map_some', Option.some.injEq] at hmv
    subst hmv
    simp only [List.getElem?_set_self hg, Option.map_some', Option.some.injEq]
    show GoMap.mk (Heap.derefEntries _ (GoMap.storeEntries m.entries url _)) =
      GoMap.mk (GoMap.storeEntries (h.derefEntries m.entries) url _)
    rw [Heap.storeEntries_derefEntries]
    have hnew : Heap.deref (Heap.mk (h.remotes.set g
          (m.store url ⟨url, some h.dependencies.length⟩))
        (h.dependencies ++ [GoMap.empty]))
        ⟨url, some h.dependencies.length⟩ = ⟨url, some GoMap.empty⟩ := by
      simp [Heap.deref]
    rw [hnew]
    congr 2
    apply Heap.derefEntries_congr
    intro e he
    obtain ⟨d, hd, _, hlt⟩ := hrefs e he
    simp [Heap.deref, hd, List.getElem?_append_left hlt]
  · refine ⟨m.store url ⟨url, some h.dependencies.length⟩, List.getElem?_set_self hg,
      GoMap.store_WF m hwf _ _, ?_, ?_, ?_⟩
    · show lo ≤ (h.dependencies ++ [GoMap.empty]).length
      rw [List.length_append, List.length_singleton]
      omega
    · intro e he
      rcases GoMap.mem_storeEntries _ _ _ _ he with he | he
      · obtain ⟨d, hd, h1, h2⟩ := hrefs e he
        refine ⟨d, hd, h1, ?_⟩
        show d < (h.dependencies ++ [GoMap.empty]).length
        rw [List.length_append, List.length_singleton]
        omega
      · subst he
        refine ⟨h.dependencies.length, rfl, hlo, ?_⟩
        show h.dependencies.length < (h.dependencies ++ [GoMap.empty]).length
        rw [List.length_append, List.length_singleton]
        omega
    · intro e1 he1 e2 he2 heq
      rcases GoMap.mem_storeEntries _ _ _ _ he1 with he1 | he1 <;>
        rcases GoMap.mem_storeEntries _ _ _ _ he2 with he2 | he2
      · exact hinj e1 he1 e2 he2 heq
      · subst he2
        obtain ⟨d, hd, _, hlt⟩ := hrefs e1 he1
        rw [hd] at heq
        have hdd : d = h.dependencies.length := Option.some.inj heq
        omega
      · subst he1
        obtain ⟨d, hd, _, hlt⟩ := hrefs e2 he2
        rw [hd] at heq
        have hdd : h.dependencies.length = d := Option.some.inj heq
        omega
      · subst he1
        subst he2
        rfl
  · refine ⟨List.length_set _ _ _, ?_, ?_⟩
    · intro j hj
      exact List.getElem?_set_ne (fun hh => hj hh.symm)
    · intro i hi
      exact List.getElem?_append_left (by omega)

/-- `addDependency` on the heap does to the view what `addDependency` does to the
model: it panics on a missing remote, and otherwise stores the dependency. -/
theorem Heap.addDependency_view (h : Heap) (g : Ref) (lo : Nat) (R t : Str)
    (mv : GoMap Remote) (hown : h.Owns g lo) (hview : h.view g = some mv) :
    (h.addDependency g R t = none ∧ mv.lookup R = none) ∨
    (∃ k r deps, h.addDependency g R t = some k ∧ mv.lookup R = some r ∧
      r.Dependencies = some deps ∧
      k.view g = some (mv.store R ⟨r.Url, some (deps.store t ⟨t⟩)⟩) ∧
      k.Owns g lo ∧ h.Frame k g lo) := by
  obtain ⟨m, hm, hwf, hlo, hrefs, hinj⟩ := hown
  have hg : g < h.remotes.length := (List.getElem?_eq_some.1 hm).1
  unfold Heap.view at hview
  rw [hm] at hview
  simp only [Option.map_some', Option.some.injEq] at hview
  subst hview
  cases hc : GoMap.lookupEntries m.entries R with
  | none =>
    left
    constructor
    · unfold Heap.addDependency
      rw [hm]
      simp only [GoMap.lookup, hc, Option.getD_none]
    · show GoMap.lookupEntries (h.derefEntries m.entries) R = none
      rw [Heap.lookupEntries_derefEntries, hc]
      rfl
  | some c =>
    right
    have hmem : (R, c) ∈ m.entries := GoMap.lookupEntries_mem _ _ _ hc
    obtain ⟨d, hd, hlod, hdlt⟩ := hrefs (R, c) hmem
    have hd2 : c.Dependencies = some d := hd
    obtain ⟨dm, hdm⟩ : ∃ dm, h.dependencies[d]? = some dm :=
      ⟨h.dependencies[d], List.getElem?_eq_getElem hdlt⟩
    have hst : m.store R c = m := by
      show GoMap.mk (GoMap.storeEntries m.entries R c) = m
      rw [GoMap.storeEntries_self _ _ _ hc]
    refine ⟨Heap.mk (h.remotes.set g m) (h.dependencies.set d (dm.store t ⟨t⟩)),
      h.deref c, dm, ?_, ?_, ?_, ?_, ?_, ?_⟩
    · unfold Heap.addDependency
      rw [hm]
      simp only [GoMap.lookup, hc, Option.getD_some, hd2, hdm]
      rw [hst]
    · show GoMap.lookupEntries (h.derefEntries m.entries) R = some (h.deref c)
      rw [Heap.lookupEntries_derefEntries, hc]
      rfl
    · show (c.Dependencies.bind fun a => h.dependencies[a]?) = some dm
      rw [hd2]
      exact hdm
    · unfold Heap.view
      simp only [List.getElem?_set_self hg, Option.map_some', Option.some.injEq]
      show GoMap.mk (Heap.derefEntries _ m.entries) =
        GoMap.mk (GoMap.storeEntries (h.derefEntries m.entries) R _)
      have hnew : Heap.deref (Heap.mk (h.remotes.set g m)
          (h.dependencies.set d (dm.store t ⟨t⟩))) c =
          ⟨(h.deref c).Url, some (dm.store t ⟨t⟩)⟩ := by
        show Remote.mk c.Url (c.Dependencies.bind
          fun a => (h.dependencies.set d (dm.store t ⟨t⟩))[a]?) = _
        rw [hd2]
        show Remote.mk c.Url ((h.dependencies.set d (dm.store t ⟨t⟩))[d]?) = _
        rw [List.getElem?_set_self hdlt]
        rfl
      rw [← hnew]
      congr 1
      apply Heap.derefEntries_update _ _ _ _ _ hwf hc
      intro e he hne
      obtain ⟨d1, hd1, _, hd1lt⟩ := hrefs e he
      have hdd : d ≠ d1 := by
        intro heq
        apply hne
        apply hinj e he (R, c) hmem
        rw [hd1, hd, heq]
      show Remote.mk e.2.Url (e.2.Dependencies.bind
          fun a => (h.dependencies.set d (dm.store t ⟨t⟩))[a]?) =
        Remote.mk e.2.Url (e.2.Dependencies.bind fun a => h.dependencies[a]?)
      rw [hd1]
      show Remote.mk e.2.Url ((h.dependencies.set d (dm.store t ⟨t⟩))[d1]?) =
        Remote.mk e.2.Url (h.dependencies[d1]?)
      rw [List.getElem?_set_ne hdd]
    · refine ⟨m, List.getElem?_set_self hg, hwf, ?_, ?_, hinj⟩
      · show lo ≤ (h.dependencies.set d (dm.store t ⟨t⟩)).length
        rw [List.length_set]
        exact hlo
      · intro e he
        obtain ⟨d1, hd1, h1, h2⟩ := hrefs e he
        refine ⟨d1, hd1, h1, ?_⟩
        show d1 < (h.dependencies.set d (dm.store t ⟨t⟩)).length
        rw [List.length_set]
        exact h2
    · refine ⟨List.length_set _ _ _, ?_, ?_⟩
      · intro j hj
        exact List.getElem?_set_ne (fun hh => hj hh.symm)
      · intro i hi
        exact List.getElem?_set_ne (by omega)

theorem GemfileLock.gem_addDependency_missing (g : GemfileLock) (R t : Str)
    (h : g.Remotes.lookup R = none) : g.addDependency R t = none := by
  unfold GemfileLock.addDependency
  simp only [h, Option.getD_none, Remote.zero]

theorem YarnLock.yarn_addDependency_missing (y : YarnLock) (R t : Str)
    (h : y.Remotes.lookup R = none) : y.addDependency R t = none := by
  unfold YarnLock.addDependency
  simp only [h, Option.getD_none, Remote.zero]

/-- One iteration of the Format A loop on the heap does to the view of the lock
what the iteration on the model does, keeps what the lock owns, and writes to
nothing else. -/
theorem GemfileRun.gem_parseLine_view (g : Ref) (lo : Nat) (s : GemfileRun) (mv : GoMap Remote)
    (line : Str) (hown : s.heap.Owns g lo) (hview : s.heap.view g = some mv) :
    (GemfileRun.parseLine g s line = none ∧
      GemfileLock.parseLine ⟨⟨mv⟩, s.currentRemoteName, s.currentDependencyName,
        s.readingRemote, s.readingSpecs⟩ line = none) ∨
    (∃ s1 mv1, GemfileRun.parseLine g s line = some s1 ∧
      GemfileLock.parseLine ⟨⟨mv⟩, s.currentRemoteName, s.currentDependencyName,
        s.readingRemote, s.readingSpecs⟩ line =
        some ⟨⟨mv1⟩, s1.currentRemoteName, s1.currentDependencyName,
          s1.readingRemote, s1.readingSpecs⟩ ∧
      s1.heap.view g = some mv1 ∧ s1.heap.Owns g lo ∧ s.heap.Frame s1.heap g lo) := by
  unfold GemfileRun.parseLine GemfileLock.parseLine
  by_cases h1 : HasPrefix line GEMFILE_REMOTE_PREFIX = true
  · obtain ⟨k, hk, hkv, hko, hkf⟩ := Heap.addRemote_view s.heap g lo
      (TrimSpace (TrimPrefix line GEMFILE_REMOTE_PREFIX)) hown
    right
    refine ⟨⟨k, TrimSpace (TrimPrefix line GEMFILE_REMOTE_PREFIX), s.currentDependencyName,
      true, s.readingSpecs⟩, mv.store (TrimSpace (TrimPrefix line GEMFILE_REMOTE_PREFIX))
        ⟨TrimSpace (TrimPrefix line GEMFILE_REMOTE_PREFIX), some GoMap.empty⟩, ?_, ?_,
      hkv mv hview, hko, hkf⟩
    · simp only [h1, ↓reduceIte, Bool.false_eq_true, hk, Option.map_some']
    · simp only [h1, ↓reduceIte, Bool.false_eq_true, GemfileLock.addRemote]
  · by_cases h2 : (s.readingRemote && HasPrefix line GEMFILE_SPEC_PREFIX) = true
    · right
      refine ⟨{ s with readingSpecs := true }, mv, ?_, ?_, hview, hown,
        Heap.Frame_refl _ _ _⟩
      · simp only [h1, h2, ↓reduceIte, Bool.false_eq_true]
      · simp only [h1, h2, ↓reduceIte, Bool.false_eq_true]
    · by_cases h3 : (s.readingSpecs && dependencyRegexp_MatchString line) = true
      · cases hf : Fields line with
        | nil =>
          left
          constructor
          · simp only [h1, h2, h3, ↓reduceIte, Bool.false_eq_true, hf]
          · simp only [h1, h2, h3, ↓reduceIte, Bool.false_eq_true, hf]
        | cons name rest =>
          rcases Heap.addDependency_view s.heap g lo s.currentRemoteName name mv hown hview
            with ⟨hn, hl⟩ | ⟨k, r, deps, hk, hl, hd, hkv, hko, hkf⟩
          · left
            constructor
            · simp only [h1, h2, h3, ↓reduceIte, Bool.false_eq_true, hf, hn, Option.map_none']
            · simp only [h1, h2, h3, ↓reduceIte, Bool.false_eq_true, hf]
              rw [GemfileLock.gem_addDependency_missing ⟨mv⟩ s.currentRemoteName name hl]
              rfl
          · right
            refine ⟨⟨k, s.currentRemoteName, name, s.readingRemote, s.readingSpecs⟩,
              mv.store s.currentRemoteName ⟨r.Url, some (deps.store name ⟨name⟩)⟩,
              ?_, ?_, hkv, hko, hkf⟩
            · simp only [h1, h2, h3, ↓reduceIte, Bool.false_eq_true, hf, hk, Option.map_some']
            · simp only [h1, h2, h3, ↓reduceIte, Bool.false_eq_true, hf]
              rw [GemfileLock.gem_addDependency_eq ⟨mv⟩ s.currentRemoteName name r deps hl hd]
              rfl
      · by_cases h4 : line = []
        · right
          refine ⟨{ s with readingRemote := false, readingSpecs := false }, mv, ?_, ?_,
            hview, hown, Heap.Frame_refl _ _ _⟩
          · rw [if_neg h1, if_neg h2, if_neg h3, if_pos h4]
          · rw [if_neg h1, if_neg h2, if_neg h3, if_pos h4]
        · right
          refine ⟨s, mv, ?_, ?_, hview, hown, Heap.Frame_refl _ _ _⟩
          · simp only [h1, h2, h3, h4, ↓reduceIte, Bool.false_eq_true]
          · simp only [h1, h2, h3, h4, ↓reduceIte, Bool.false_eq_true]

/-- The Format A loop on the heap does to the view of the lock what the loop on
the model does, keeps what the lock owns, and writes to nothing else. -/
theorem GemfileRun.gem_parseLines_view (g : Ref) (lo : Nat) (lines : List Str) :
    ∀ (s : GemfileRun) (mv : GoMap Remote), s.heap.Owns g lo → s.heap.view g = some mv →
    (GemfileRun.parseLines g s lines = none ∧
      GemfileLock.parseLines ⟨⟨mv⟩, s.currentRemoteName, s.currentDependencyName,
        s.readingRemote, s.readingSpecs⟩ lines = none) ∨
    (∃ s1 mv1, GemfileRun.parseLines g s lines = some s1 ∧
      GemfileLock.parseLines ⟨⟨mv⟩, s.currentRemoteName, s.currentDependencyName,
        s.readingRemote, s.readingSpecs⟩ lines =
        some ⟨⟨mv1⟩, s1.currentRemoteName, s1.currentDependencyName,
          s1.readingRemote, s1.readingSpecs⟩ ∧
      s1.heap.view g = some mv1 ∧ s1.heap.Owns g lo ∧ s.heap.Frame s1.heap g lo) := by
  induction lines with
  | nil =>
    intro s mv hown hview
    right
    exact ⟨s, mv, rfl, rfl, hview, hown, Heap.Frame_refl _ _ _⟩
  | cons line rest ih =>
    intro s mv hown hview
    rcases GemfileRun.gem_parseLine_view g lo s mv line hown hview with
      ⟨hn, hp⟩ | ⟨s1, mv1, hs1, hp1, hv1, ho1, hf1⟩
    · left
      constructor
      · simp only [GemfileRun.parseLines, hn, Option.none_bind]
      · simp only [GemfileLock.parseLines, hp, Option.none_bind]
    · rcases ih s1 mv1 ho1 hv1 with ⟨hn, hp⟩ | ⟨s2, mv2, hs2, hp2, hv2, ho2, hf2⟩
      · left
        constructor
        · simp only [GemfileRun.parseLines, hs1, Option.some_bind, hn]
        · simp only [GemfileLock.parseLines, hp1, Option.some_bind, hp]
      · right
        refine ⟨s2, mv2, ?_, ?_, hv2, ho2, Heap.Frame_trans _ _ _ _ _ hf1 hf2⟩
        · simp only [GemfileRun.parseLines, hs1, Option.some_bind, hs2]
        · simp only [GemfileLock.parseLines, hp1, Option.some_bind, hp2]

theorem Heap.lookup_view (h : Heap) (g : Ref) (m : GoMap RemoteVal) (mv : GoMap Remote)
    (R : Str) (hm : h.remotes[g]? = some m) (hview : h.view g = some mv) :
    (m.lookup R).isSome = (mv.lookup R).isSome := by
  unfold Heap.view at hview
  rw [hm] at hview
  simp only [Option.map_some', Option.some.injEq] at hview
  subst hview
  show (GoMap.lookupEntries m.entries R).isSome =
    (GoMap.lookupEntries (h.derefEntries m.entries) R).isSome
  rw [Heap.lookupEntries_derefEntries]
  cases GoMap.lookupEntries m.entries R <;> rfl

/-- One iteration of the Format B loop on the heap does to the view of the lock
what the iteration on the model does, keeps what the lock owns, and writes to
nothing else. -/
theorem YarnRun.yarn_parseLine_view (y : Ref) (lo : Nat) (s : YarnRun) (mv : GoMap Remote)
    (line : Str) (hown : s.heap.Owns y lo) (hview : s.heap.view y = some mv) :
    (YarnRun.parseLine y s line = none ∧
      YarnLock.parseLine ⟨⟨mv⟩, s.currentDependencyName, s.readingDep⟩ line = none) ∨
    (∃ s1 mv1, YarnRun.parseLine y s line = some s1 ∧
      YarnLock.parseLine ⟨⟨mv⟩, s.currentDependencyName, s.readingDep⟩ line =
        some ⟨⟨mv1⟩, s1.currentDependencyName, s1.readingDep⟩ ∧
      s1.heap.view y = some mv1 ∧ s1.heap.Owns y lo ∧ s.heap.Frame s1.heap y lo) := by
  unfold YarnRun.parseLine YarnLock.parseLine
  by_cases h1 : (!s.readingDep && HasSuffix line YARN_DEPENDENCY_LINE_SUFFIX) = true
  · cases hn : YarnLock.headerName line with
    | none =>
      left
      constructor
      · rw [if_pos h1]
        rfl
      · rw [if_pos h1]
        rfl
    | some n =>
      right
      refine ⟨⟨s.heap, n, true⟩, mv, ?_, ?_, hview, hown, Heap.Frame_refl _ _ _⟩
      · rw [if_pos h1]
        rfl
      · rw [if_pos h1]
        rfl
  · by_cases h2 : (s.readingDep && HasPrefix line YARN_REMOTE_PREFIX) = true
    · cases hsp : SplitN (TrimPrefix line YARN_REMOTE_PREFIX)
          ("/".toList ++ s.currentDependencyName ++ "/".toList) 2 with
      | nil =>
        left
        constructor
        · rw [if_neg h1, if_pos h2]
          simp only [hsp]
        · rw [if_neg h1, if_pos h2]
          simp only [hsp]
      | cons R rest =>
        have hown2 := hown
        obtain ⟨m, hm, _⟩ := hown2
        have hok := Heap.lookup_view s.heap y m mv R hm hview
        cases hl : (mv.lookup R).isSome with
        | true =>
          rw [hl] at hok
          rcases Heap.addDependency_view s.heap y lo R s.currentDependencyName mv hown hview
            with ⟨hn, hmiss⟩ | ⟨k, r, deps, hk, hlk, hd, hkv, hko, hkf⟩
          · rw [hmiss] at hl
            cases hl
          · right
            refine ⟨⟨k, s.currentDependencyName, s.readingDep⟩,
              mv.store R ⟨r.Url, some (deps.store s.currentDependencyName
                ⟨s.currentDependencyName⟩)⟩, ?_, ?_, hkv, hko, hkf⟩
            · rw [if_neg h1, if_pos h2]
              simp only [hsp, hm, hok, ↓reduceIte, Option.some_bind, hk, Option.map_some']
            · rw [if_neg h1, if_pos h2]
              simp only [hsp, hl, ↓reduceIte]
              rw [YarnLock.yarn_addDependency_eq ⟨mv⟩ R s.currentDependencyName r deps
                hlk hd]
              rfl
        | false =>
          rw [hl] at hok
          obtain ⟨k0, hk0, hk0v, hk0o, hk0f⟩ := Heap.addRemote_view s.heap y lo R hown
          have hv0 := hk0v mv hview
          rcases Heap.addDependency_view k0 y lo R s.currentDependencyName _ hk0o hv0
            with ⟨hn, hmiss⟩ | ⟨k, r, deps, hk, hlk, hd, hkv, hko, hkf⟩
          · rw [GoMap.lookup_store] at hmiss
            simp only [if_true] at hmiss
            cases hmiss
          · right
            refine ⟨⟨k, s.currentDependencyName, s.readingDep⟩,
              (mv.store R ⟨R, some GoMap.empty⟩).store R
                ⟨r.Url, some (deps.store s.currentDependencyName
                  ⟨s.currentDependencyName⟩)⟩, ?_, ?_, hkv, hko,
              Heap.Frame_trans _ _ _ _ _ hk0f hkf⟩
            · rw [if_neg h1, if_pos h2]
              simp only [hsp, hm, hok, Bool.false_eq_true, ↓reduceIte, hk0, Option.some_bind,
                hk, Option.map_some']
            · rw [if_neg h1, if_pos h2]
              simp only [hsp, hl, Bool.false_eq_true, ↓reduceIte]
              rw [YarnLock.yarn_addDependency_eq (YarnLock.addRemote ⟨mv⟩ R) R
                s.currentDependencyName r deps hlk hd]
              rfl
    · by_cases h4 : line = []
      · right
        refine ⟨{ s with readingDep := false }, mv, ?_, ?_, hview, hown,
          Heap.Frame_refl _ _ _⟩
        · rw [if_neg h1, if_neg h2, if_pos h4]
        · rw [if_neg h1, if_neg h2, if_pos h4]
      · right
        refine ⟨s, mv, ?_, ?_, hview, hown, Heap.Frame_refl _ _ _⟩
        · rw [if_neg h1, if_neg h2, if_neg h4]
        · rw [if_neg h1, if_neg h2, if_neg h4]

/-- The Format B loop on the heap does to the view of the lock what the loop on
the model does, keeps what the lock owns, and writes to nothing else. -/
theorem YarnRun.yarn_parseLines_view (y : Ref) (lo : Nat) (lines : List Str) :
    ∀ (s : YarnRun) (mv : GoMap Remote), s.heap.Owns y lo → s.heap.view y = some mv →
    (YarnRun.parseLines y s lines = none ∧
      YarnLock.parseLines ⟨⟨mv⟩, s.currentDependencyName, s.readingDep⟩ lines = none) ∨
    (∃ s1 mv1, YarnRun.parseLines y s lines = some s1 ∧
      YarnLock.parseLines ⟨⟨mv⟩, s.currentDependencyName, s.readingDep⟩ lines =
        some ⟨⟨mv1⟩, s1.currentDependencyName, s1.readingDep⟩ ∧
      s1.heap.view y = some mv1 ∧ s1.heap.Owns y lo ∧ s.heap.Frame s1.heap y lo) := by
  induction lines with
  | nil =>
    intro s mv hown hview
    right
    exact ⟨s, mv, rfl, rfl, hview, hown, Heap.Frame_refl _ _ _⟩
  | cons line rest ih =>
    intro s mv hown hview
    rcases YarnRun.yarn_parseLine_view y lo s mv line hown hview with
      ⟨hn, hp⟩ | ⟨s1, mv1, hs1, hp1, hv1, ho1, hf1⟩
    · left
      constructor
      · simp only [YarnRun.parseLines, hn, Option.none_bind]
      · simp only [YarnLock.parseLines, hp, Option.none_bind]
    · rcases ih s1 mv1 ho1 hv1 with ⟨hn, hp⟩ | ⟨s2, mv2, hs2, hp2, hv2, ho2, hf2⟩
      · left
        constructor
        · simp only [YarnRun.parseLines, hs1, Option.some_bind, hn]
        · simp only [YarnLock.parseLines, hp1, Option.some_bind, hp]
      · right
        refine ⟨s2, mv2, ?_, ?_, hv2, ho2, Heap.Frame_trans _ _ _ _ _ hf1 hf2⟩
        · simp only [YarnRun.parseLines, hs1, Option.some_bind, hs2]
        · simp only [YarnLock.parseLines, hp1, Option.some_bind, hp2]

theorem Heap.Owns_fresh (h : Heap) (g : Ref) (hf : h.remotes[g]? = some GoMap.empty) :
    h.Owns g h.dependencies.length := by
  refine ⟨GoMap.empty, hf, ?_, Nat.le_refl _, ?_, ?_⟩
  · exact List.nodup_nil
  · intro e he
    cases he
  · intro e he
    cases he

theorem Heap.view_fresh (h : Heap) (g : Ref) (hf : h.remotes[g]? = some GoMap.empty) :
    h.view g = some GoMap.empty := by
  unfold Heap.view
  rw [hf]
  rfl

/-- No write outside what a lock owns shows in the view of another lock. -/
theorem Heap.view_frame (h k : Heap) (g j : Ref) (lo0 : Nat)
    (hfr : h.Frame k g h.dependencies.length) (hj : j ≠ g) (hown : h.Owns j lo0) :
    k.view j = h.view j := by
  obtain ⟨m, hm, _, _, hrefs, _⟩ := hown
  unfold Heap.view
  rw [hfr.2.1 j hj, hm]
  simp only [Option.map_some', Option.some.injEq, GoMap.mk.injEq]
  apply Heap.derefEntries_congr
  intro e he
  obtain ⟨d, hd, _, hlt⟩ := hrefs e he
  show Remote.mk e.2.Url (e.2.Dependencies.bind fun a => k.dependencies[a]?) =
    Remote.mk e.2.Url (e.2.Dependencies.bind fun a => h.dependencies[a]?)
  rw [hd]
  show Remote.mk e.2.Url (k.dependencies[d]?) = Remote.mk e.2.Url (h.dependencies[d]?)
  rw [hfr.2.2 d hlt]

theorem Heap.NewLock_fresh (h : Heap) :
    (h.NewLock).2.remotes[(h.NewLock).1]? = some GoMap.empty := by
  show (h.remotes ++ [GoMap.empty])[h.remotes.length]? = some GoMap.empty
  exact List.getElem?_concat_length _ _

theorem Heap.NewLock_old (h : Heap) (g : Ref) (hg : g < h.remotes.length) :
    (h.NewLock).2.remotes[g]? = h.remotes[g]? := by
  show (h.remotes ++ [GoMap.empty])[g]? = h.remotes[g]?
  exact List.getElem?_append_left hg

theorem Heap.Owns_lt (h : Heap) (g : Ref) (lo : Nat) (hown : h.Owns g lo) :
    g < h.remotes.length := by
  obtain ⟨m, hm, _⟩ := hown
  exact (List.getElem?_eq_some.1 hm).1

theorem Heap.Owns_NewLock (h : Heap) (g : Ref) (lo : Nat) (hown : h.Owns g lo) :
    (h.NewLock).2.Owns g lo := by
  have hg := Heap.Owns_lt h g lo hown
  obtain ⟨m, hm, hwf, hlo, hrefs, hinj⟩ := hown
  exact ⟨m, (Heap.NewLock_old h g hg).trans hm, hwf, hlo, hrefs, hinj⟩

theorem Heap.view_NewLock (h : Heap) (g : Ref) (hg : g < h.remotes.length) :
    (h.NewLock).2.view g = h.view g := by
  unfold Heap.view
  rw [Heap.NewLock_old h g hg]
  rfl

/-- The Format A parser run for a lock whose map is empty: the heap run and the
run on the model panic together, and otherwise the lock reads as the model. -/
theorem Heap.gem_fresh_parse (h : Heap) (g : Ref) (lines : List Str)
    (hf : h.remotes[g]? = some GoMap.empty) :
    (Heap.GemfileLock_ParseLockFile h g lines = none ∧
      GemfileLock.ParseLockFile NewGemfileLock lines = none) ∨
    (∃ k mv, Heap.GemfileLock_ParseLockFile h g lines = some k ∧
      GemfileLock.ParseLockFile NewGemfileLock lines = some ⟨mv⟩ ∧
      k.view g = some mv ∧ k.Owns g h.dependencies.length ∧
      h.Frame k g h.dependencies.length) := by
  rcases GemfileRun.gem_parseLines_view g h.dependencies.length lines ⟨h, [], [], false, false⟩
    GoMap.empty (Heap.Owns_fresh h g hf) (Heap.view_fresh h g hf) with
    ⟨hn, hp⟩ | ⟨s1, mv1, hs1, hp1, hv1, ho1, hf1⟩
  · left
    constructor
    · unfold Heap.GemfileLock_ParseLockFile
      rw [hn]
      rfl
    · unfold GemfileLock.ParseLockFile
      show Option.map _ (GemfileLock.parseLines ⟨⟨GoMap.empty⟩, [], [], false, false⟩ lines) =
        none
      rw [hp]
      rfl
  · right
    refine ⟨s1.heap, mv1, ?_, ?_, hv1, ho1, hf1⟩
    · unfold Heap.GemfileLock_ParseLockFile
      rw [hs1]
      rfl
    · unfold GemfileLock.ParseLockFile
      show Option.map _ (GemfileLock.parseLines ⟨⟨GoMap.empty⟩, [], [], false, false⟩ lines) =
        _
      rw [hp1]
      rfl

/-- The Format B parser run for a lock whose map is empty: the heap run and the
run on the model panic together, and otherwise the lock reads as the model. -/
theorem Heap.yarn_fresh_parse (h : Heap) (y : Ref) (lines : List Str)
    (hf : h.remotes[y]? = some GoMap.empty) :
    (Heap.YarnLock_ParseLockFile h y lines = none ∧
      YarnLock.ParseLockFile NewYarnLock lines = none) ∨
    (∃ k mv, Heap.YarnLock_ParseLockFile h y lines = some k ∧
      YarnLock.ParseLockFile NewYarnLock lines = some ⟨mv⟩ ∧
      k.view y = some mv ∧ k.Owns y h.dependencies.length ∧
      h.Frame k y h.dependencies.length) := by
  rcases YarnRun.yarn_parseLines_view y h.dependencies.length lines ⟨h, [], false⟩
    GoMap.empty (Heap.Owns_fresh h y hf) (Heap.view_fresh h y hf) with
    ⟨hn, hp⟩ | ⟨s1, mv1, hs1, hp1, hv1, ho1, hf1⟩
  · left
    constructor
    · unfold Heap.YarnLock_ParseLockFile
      rw [hn]
      rfl
    · unfold YarnLock.ParseLockFile
      show Option.map _ (YarnLock.parseLines ⟨⟨GoMap.empty⟩, [], false⟩ lines) = none
      rw [hp]
      rfl
  · right
    refine ⟨s1.heap, mv1, ?_, ?_, hv1, ho1, hf1⟩
    · unfold Heap.YarnLock_ParseLockFile
      rw [hs1]
      rfl
    · unfold YarnLock.ParseLockFile
      show Option.map _ (YarnLock.parseLines ⟨⟨GoMap.empty⟩, [], false⟩ lines) = _
      rw [hp1]
      rfl

/-- The Format A parser run for a second lock, after a run on the same lines
has filled a first one: it returns, both locks read as the same mapping, and
the first is as it was. -/
theorem Heap.gem_second_parse (h2 : Heap) (g1 g2 : Ref) (lo1 : Nat) (lines : List Str)
    (mv : GoMap Remote) (hne : g1 ≠ g2) (hown1 : h2.Owns g1 lo1)
    (hv1 : h2.view g1 = some mv) (hf2 : h2.remotes[g2]? = some GoMap.empty)
    (hpure : GemfileLock.ParseLockFile NewGemfileLock lines = some ⟨mv⟩) :
    ∃ h4, Heap.GemfileLock_ParseLockFile h2 g2 lines = some h4 ∧
      h4.view g1 = some mv ∧ h4.view g2 = some mv := by
  rcases Heap.gem_fresh_parse h2 g2 lines hf2 with ⟨_, hp⟩ | ⟨k, mv2, hk, hp, hkv, _, hkf⟩
  · rw [hp] at hpure
    cases hpure
  · rw [hp] at hpure
    simp only [Option.some.injEq, GemfileLock.mk.injEq] at hpure
    subst hpure
    exact ⟨k, hk, (Heap.view_frame h2 k g2 g1 lo1 hkf hne hown1).trans hv1, hkv⟩

/-- The Format B parser run for a second lock, after a run on the same lines
has filled a first one: it returns, both locks read as the same mapping, and
the first is as it was. -/
theorem Heap.yarn_second_parse (h2 : Heap) (g1 g2 : Ref) (lo1 : Nat) (lines : List Str)
    (mv : GoMap Remote) (hne : g1 ≠ g2) (hown1 : h2.Owns g1 lo1)
    (hv1 : h2.view g1 = some mv) (hf2 : h2.remotes[g2]? = some GoMap.empty)
    (hpure : YarnLock.ParseLockFile NewYarnLock lines = some ⟨mv⟩) :
    ∃ h4, Heap.YarnLock_ParseLockFile h2 g2 lines = some h4 ∧
      h4.view g1 = some mv ∧ h4.view g2 = some mv := by
  rcases Heap.yarn_fresh_parse h2 g2 lines hf2 with ⟨_, hp⟩ | ⟨k, mv2, hk, hp, hkv, _, hkf⟩
  · rw [hp] at hpure
    cases hpure
  · rw [hp] at hpure
    simp only [Option.some.injEq, YarnLock.mk.injEq] at hpure
    subst hpure
    exact ⟨k, hk, (Heap.view_frame h2 k g2 g1 lo1 hkf hne hown1).trans hv1, hkv⟩

/-- C12: parse determinism.  `Heap.NewLock` is the construction of a model and
`Heap.view` the mapping from remote URL to remote that a model reads as.  For each
parser, every heap of map objects and every sequence of lines: (1) the run for
a freshly constructed model panics exactly when the lines make the parser
panic, and otherwise leaves in the model the mapping that the lines alone
determine, whatever the heap held before; (2) when a first model was
constructed and parsed into and then a second one is constructed and parsed
into, the second run returns too, the two models are distinct objects that read
as the same mapping, and the first still reads as it did after its own run;
(3) the same when both models are constructed before either run. -/
theorem fresh_models_agree (h0 : Heap) (lines : List Str) :
    ((Heap.GemfileLock_ParseLockFile (h0.NewLock).2 (h0.NewLock).1 lines).map
        (fun k => k.view (h0.NewLock).1) =
      (GemfileLock.ParseLockFile NewGemfileLock lines).map (fun g => some g.Remotes)) ∧
    (∀ h2, Heap.GemfileLock_ParseLockFile (h0.NewLock).2 (h0.NewLock).1 lines = some h2 →
      ∃ h4 mv,
        Heap.GemfileLock_ParseLockFile (h2.NewLock).2 (h2.NewLock).1 lines = some h4 ∧
        (h2.NewLock).1 ≠ (h0.NewLock).1 ∧ h2.view (h0.NewLock).1 = some mv ∧
        h4.view (h0.NewLock).1 = some mv ∧ h4.view (h2.NewLock).1 = some mv) ∧
    (∀ h2, Heap.GemfileLock_ParseLockFile ((h0.NewLock).2.NewLock).2 (h0.NewLock).1 lines =
        some h2 →
      ∃ h4 mv,
        Heap.GemfileLock_ParseLockFile h2 ((h0.NewLock).2.NewLock).1 lines = some h4 ∧
        ((h0.NewLock).2.NewLock).1 ≠ (h0.NewLock).1 ∧ h2.view (h0.NewLock).1 = some mv ∧
        h4.view (h0.NewLock).1 = some mv ∧ h4.view ((h0.NewLock).2.NewLock).1 = some mv) ∧
    ((Heap.YarnLock_ParseLockFile (h0.NewLock).2 (h0.NewLock).1 lines).map
        (fun k => k.view (h0.NewLock).1) =
      (YarnLock.ParseLockFile NewYarnLock lines).map (fun g => some g.Remotes)) ∧
    (∀ h2, Heap.YarnLock_ParseLockFile (h0.NewLock).2 (h0.NewLock).1 lines = some h2 →
      ∃ h4 mv,
        Heap.YarnLock_ParseLockFile (h2.NewLock).2 (h2.NewLock).1 lines = some h4 ∧
        (h2.NewLock).1 ≠ (h0.NewLock).1 ∧ h2.view (h0.NewLock).1 = some mv ∧
        h4.view (h0.NewLock).1 = some mv ∧ h4.view (h2.NewLock).1 = some mv) ∧
    (∀ h2, Heap.YarnLock_ParseLockFile ((h0.NewLock).2.NewLock).2 (h0.NewLock).1 lines =
        some h2 →
      ∃ h4 mv,
        Heap.YarnLock_ParseLockFile h2 ((h0.NewLock).2.NewLock).1 lines = some h4 ∧
        ((h0.NewLock).2.NewLock).1 ≠ (h0.NewLock).1 ∧ h2.view (h0.NewLock).1 = some mv ∧
        h4.view (h0.NewLock).1 = some mv ∧ h4.view ((h0.NewLock).2.NewLock).1 = some mv) := by
  refine ⟨?_, ?_, ?_, ?_, ?_, ?_⟩
  · rcases Heap.gem_fresh_parse (h0.NewLock).2 (h0.NewLock).1 lines (Heap.NewLock_fresh h0) with
      ⟨hn, hp⟩ | ⟨k, mv, hk, hp, hkv, _, _⟩
    · rw [hn, hp]
      rfl
    · rw [hk, hp]
      simp only [Option.map_some', hkv]
  · intro h2 hh2
    rcases Heap.gem_fresh_parse (h0.NewLock).2 (h0.NewLock).1 lines (Heap.NewLock_fresh h0) with
      ⟨hn, _⟩ | ⟨k, mv, hk, hp, hkv, hko, _⟩
    · rw [hn] at hh2
      cases hh2
    · rw [hk] at hh2
      simp only [Option.some.injEq] at hh2
      subst hh2
      have hlt := Heap.Owns_lt _ _ _ hko
      have hne : (h0.NewLock).1 ≠ (k.NewLock).1 := Nat.ne_of_lt hlt
      obtain ⟨h4, hh4, hv1, hv2⟩ := Heap.gem_second_parse (k.NewLock).2 (h0.NewLock).1
        (k.NewLock).1 _ lines mv hne (Heap.Owns_NewLock _ _ _ hko)
        ((Heap.view_NewLock _ _ hlt).trans hkv) (Heap.NewLock_fresh k) hp
      exact ⟨h4, mv, hh4, fun hh => hne hh.symm, hkv, hv1, hv2⟩
  · intro h2 hh2
    have hlt : (h0.NewLock).1 < (h0.NewLock).2.remotes.length := by
      show h0.remotes.length < (h0.remotes ++ [GoMap.empty]).length
      rw [List.length_append, List.length_singleton]
      exact Nat.lt_succ_self _
    have hne : (h0.NewLock).1 ≠ ((h0.NewLock).2.NewLock).1 := Nat.ne_of_lt hlt
    rcases Heap.gem_fresh_parse ((h0.NewLock).2.NewLock).2 (h0.NewLock).1 lines
        ((Heap.NewLock_old _ _ hlt).trans (Heap.NewLock_fresh h0)) with
      ⟨hn, _⟩ | ⟨k, mv, hk, hp, hkv, hko, hkf⟩
    · rw [hn] at hh2
      cases hh2
    · rw [hk] at hh2
      simp only [Option.some.injEq] at hh2
      subst hh2
      obtain ⟨h4, hh4, hv1, hv2⟩ := Heap.gem_second_parse k (h0.NewLock).1
        ((h0.NewLock).2.NewLock).1 _ lines mv hne hko hkv
        ((hkf.2.1 _ (fun hh => hne hh.symm)).trans (Heap.NewLock_fresh (h0.NewLock).2)) hp
      exact ⟨h4, mv, hh4, fun hh => hne hh.symm, hkv, hv1, hv2⟩
  · rcases Heap.yarn_fresh_parse (h0.NewLock).2 (h0.NewLock).1 lines (Heap.NewLock_fresh h0) with
      ⟨hn, hp⟩ | ⟨k, mv, hk, hp, hkv, _, _⟩
    · rw [hn, hp]
      rfl
    · rw [hk, hp]
      simp only [Option.map_some', hkv]
  · intro h2 hh2
    rcases Heap.yarn_fresh_parse (h0.NewLock).2 (h0.NewLock).1 lines (Heap.NewLock_fresh h0) with
      ⟨hn, _⟩ | ⟨k, mv, hk, hp, hkv, hko, _⟩
    · rw [hn] at hh2
      cases hh2
    · rw [hk] at hh2
      simp only [Option.some.injEq] at hh2
      subst hh2
      have hlt := Heap.Owns_lt _ _ _ hko
      have hne : (h0.NewLock).1 ≠ (k.NewLock).1 := Nat.ne_of_lt hlt
      obtain ⟨h4, hh4, hv1, hv2⟩ := Heap.yarn_second_parse (k.NewLock).2 (h0.NewLock).1
        (k.NewLock).1 _ lines mv hne (Heap.Owns_NewLock _ _ _ hko)
        ((Heap.view_NewLock _ _ hlt).trans hkv) (Heap.NewLock_fresh k) hp
      exact ⟨h4, mv, hh4, fun hh => hne hh.symm, hkv, hv1, hv2⟩
  · intro h2 hh2
    have hlt : (h0.NewLock).1 < (h0.NewLock).2.remotes.length := by
      show h0.remotes.length < (h0.remotes ++ [GoMap.empty]).length
      rw [List.length_append, List.length_singleton]
      exact Nat.lt_succ_self _
    have hne : (h0.NewLock).1 ≠ ((h0.NewLock).2.NewLock).1 := Nat.ne_of_lt hlt
    rcases Heap.yarn_fresh_parse ((h0.NewLock).2.NewLock).2 (h0.NewLock).1 lines
        ((Heap.NewLock_old _ _ hlt).trans (Heap.NewLock_fresh h0)) with
      ⟨hn, _⟩ | ⟨k, mv, hk, hp, hkv, hko, hkf⟩
    · rw [hn] at hh2
      cases hh2
    · rw [hk] at hh2
      simp only [Option.some.injEq] at hh2
      subst hh2
      obtain ⟨h4, hh4, hv1, hv2⟩ := Heap.yarn_second_parse k (h0.NewLock).1
        ((h0.NewLock).2.NewLock).1 _ lines mv hne hko hkv
        ((hkf.2.1 _ (fun hh => hne hh.symm)).trans (Heap.NewLock_fresh (h0.NewLock).2)) hp
      exact ⟨h4, mv, hh4, fun hh => hne hh.symm, hkv, hv1, hv2⟩

/-- Witness of C12 on a heap that already holds a lock: the scenario's lines
parsed into a first new model give `scenarioHeap`, on which that model reads as
`scenarioModel`; parsed into a second new model they give the same mapping. -/
theorem fresh_models_agree_witness :
    Heap.GemfileLock_ParseLockFile (occupiedHeap.NewLock).2 (occupiedHeap.NewLock).1
      scenarioLines = some scenarioHeap ∧
    scenarioHeap.view (occupiedHeap.NewLock).1 = some scenarioModel.Remotes ∧
    ∃ h4 mv,
      Heap.GemfileLock_ParseLockFile (scenarioHeap.NewLock).2 (scenarioHeap.NewLock).1
        scenarioLines = some h4 ∧
      (scenarioHeap.NewLock).1 ≠ (occupiedHeap.NewLock).1 ∧
      scenarioHeap.view (occupiedHeap.NewLock).1 = some mv ∧
      h4.view (occupiedHeap.NewLock).1 = some mv ∧
      h4.view (scenarioHeap.NewLock).1 = some mv :=
  ⟨by decide, by decide,
    (fresh_models_agree occupiedHeap scenarioLines).2.1 scenarioHeap (by decide)⟩

end DependencyInspector
